import Mathlib

/-!
# Dijkstra single-source shortest paths: sequential, OpenMP and MPI variants

Shallow embedding of `dijkstra_sequential.c`, `dijkstra_openmp.c`, `dijkstra_mpi.c`
and `performance_test.c`.

Conventions of the embedding.

* C `int` values are `Int`; the one arithmetic operation of the engines that can
  leave the 32-bit range, `distances[min_node] + weight`, is reduced with `wrap32`.
* Heap blocks are lists.  A block of `Edge` records is a `List (Option Edge)`:
  a slot holding `none` is allocated but was never written.
* Every array access is checked: a function returns `none` when an access falls
  outside its block or reads a slot that was never written.
* `fill_unwritten` gives the slots that were never written a value, to follow what the
  engines compute when the heap holds that value there.
* Loop counters that start at `0` and run below a bound are natural numbers.
* `malloc`, `calloc` and `realloc` always succeed; the branches of the sources that
  handle a `NULL` result are left out.
-/

namespace Dijkstra

/-! ## Data model -/

/-- The sentinel `INF`, defined as `INT_MAX` in every source file. -/
def INF : Int := 2147483647

/-- Two's-complement reduction of an integer to the 32-bit `int` range. -/
def wrap32 (x : Int) : Int := (x + 2147483648) % 4294967296 - 2147483648

/-- The record `Edge` of the sources: `dest` and `weight`. -/
structure Edge where
  dest : Int
  weight : Int
deriving DecidableEq, Repr

/-- The record `Graph` of the sources.  `adj_list[i]` is the heap block of node `i`,
`adj_size[i]` the number of entries the program believes the block holds. -/
structure Graph where
  num_nodes : Int
  num_edges : Int
  adj_list : List (List (Option Edge))
  adj_size : List Int
deriving DecidableEq, Repr

/-- Checked read `xs[i]` with a C `int` index. -/
def rd {α : Type} (xs : List α) (i : Int) : Option α :=
  if 0 ≤ i then xs[i.toNat]? else none

/-- Checked write `xs[i] = x` with a C `int` index. -/
def wr {α : Type} (xs : List α) (i : Int) (x : α) : Option (List α) :=
  if 0 ≤ i ∧ i.toNat < xs.length then some (xs.set i.toNat x) else none

/-- The function `create_graph` (identical in the four source files): `adj_size` is
zero-filled by `calloc`, every `adj_list[i]` is a fresh block of one unwritten slot. -/
def create_graph (num_nodes num_edges : Int) : Graph :=
  { num_nodes := num_nodes
    num_edges := num_edges
    adj_list := List.replicate num_nodes.toNat [none]
    adj_size := List.replicate num_nodes.toNat 0 }

/-- The library call `realloc(blk, k * sizeof(Edge))`: the first `k` slots are kept,
slots gained are unwritten. -/
def realloc (blk : List (Option Edge)) (k : Int) : List (Option Edge) :=
  (blk ++ List.replicate (k.toNat - blk.length) none).take k.toNat

/-- The three statements `add_edge` performs on one endpoint, with the size `size` it
read on entry: `adj_list[node] = realloc(adj_list[node], (size + 1) * sizeof(Edge))`,
the write of slot `adj_list[node][size]`, and `adj_size[node]++`. -/
def store_entry (graph : Graph) (node size : Int) (e : Edge) : Option Graph := do
  let blk ← rd graph.adj_list node
  let adj_list1 ← wr graph.adj_list node (realloc blk (size + 1))
  let blk1 ← rd adj_list1 node
  let blk2 ← wr blk1 size (some e)
  let adj_list2 ← wr adj_list1 node blk2
  let c ← rd graph.adj_size node
  let adj_size1 ← wr graph.adj_size node (c + 1)
  pure { graph with adj_list := adj_list2, adj_size := adj_size1 }

/-- The function `add_edge` of `dijkstra_sequential.c`, `dijkstra_mpi.c` and
`performance_test.c` (the three texts are identical).  Both sizes `u_size` and
`v_size` are read before either list is touched, as in the source. -/
def add_edge (graph : Graph) (u v weight : Int) : Option Graph := do
  let u_size ← rd graph.adj_size u
  let v_size ← rd graph.adj_size v
  let graph1 ← store_entry graph u u_size (Edge.mk v weight)
  store_entry graph1 v v_size (Edge.mk u weight)

/-- An undirected weighted edge `u v weight` as it appears in an input file. -/
structure EdgeRec where
  u : Int
  v : Int
  weight : Int
deriving DecidableEq, Repr

/-- Both endpoints of the edge lie in `0 .. num_nodes - 1`. -/
def EdgeRec.in_range (num_nodes : Int) (e : EdgeRec) : Prop :=
  0 ≤ e.u ∧ e.u < num_nodes ∧ 0 ≤ e.v ∧ e.v < num_nodes

instance (num_nodes : Int) (e : EdgeRec) : Decidable (e.in_range num_nodes) := by
  unfold EdgeRec.in_range; infer_instance

/-- Graph construction as done by the edge loop of `read_graph_from_file` in
`dijkstra_sequential.c`: `create_graph` followed by one `add_edge` per edge. -/
def build (num_nodes : Int) (es : List EdgeRec) : Option Graph :=
  es.foldlM (fun g e => add_edge g e.u e.v e.weight) (create_graph num_nodes es.length)

/-- All values of a list of optional values, when none is missing. -/
def all_some {α : Type} : List (Option α) → Option (List α)
  | [] => some []
  | x :: xs => x.bind (fun a => (all_some xs).map (fun l => a :: l))

/-- The neighbor list of `node`: the first `adj_size[node]` slots of `adj_list[node]`,
defined only when all of them lie inside the block and were written. -/
def neighbors (graph : Graph) (node : Nat) : Option (List Edge) := do
  let sz ← graph.adj_size[node]?
  let blk ← graph.adj_list[node]?
  if 0 ≤ sz ∧ sz.toNat ≤ blk.length then all_some (blk.take sz.toNat) else none

/-- A `for (count = 0; count < bound; count++)` loop whose body may `break`: `fuel` is
the number of iterations left, `count` the current counter.  The body returns `none`
on a memory fault, `some none` on `break`, and `some (some st)` to continue. -/
def for_break {σ : Type} (body : Nat → σ → Option (Option σ)) : Nat → Nat → σ → Option σ
  | 0, _, st => some st
  | fuel + 1, count, st =>
    match body count st with
    | none => none
    | some none => some st
    | some (some st1) => for_break body fuel (count + 1) st1

/-! ## Sequential engine (`dijkstra_sequential.c`, `performance_test.c`) -/

/-- One iteration of the extract-min scan: the body
`if (!visited[v] && distances[v] < min_dist) { min_dist = distances[v]; min_node = v; }`.
The accumulator is the pair `(min_dist, min_node)`. -/
def scan_step (distances : List Int) (visited : List Bool) (acc : Int × Int) (v : Nat) :
    Option (Int × Int) := do
  let vis ← visited[v]?
  if vis then pure acc else
  let dv ← distances[v]?
  if dv < acc.1 then pure (dv, (v : Int)) else pure acc

/-- The extract-min scan of `dijkstra_sequential`: `v` runs over `0 .. num_nodes - 1`,
starting from `min_dist = INF`, `min_node = -1`. -/
def extract_min (num_nodes : Int) (distances : List Int) (visited : List Bool) :
    Option (Int × Int) :=
  (List.range num_nodes.toNat).foldlM (scan_step distances visited) (INF, -1)

/-- One iteration of the relax loop of `dijkstra_sequential` for entry `i` of the
neighbor list of `min_node`. -/
def relax_step (graph : Graph) (visited : List Bool) (min_node : Int)
    (distances : List Int) (i : Nat) : Option (List Int) := do
  let blk ← rd graph.adj_list min_node
  let slot ← blk[i]?
  let e ← slot
  let vis ← rd visited e.dest
  if vis then pure distances else
  let dm ← rd distances min_node
  if dm = INF then pure distances else
  let new_dist := wrap32 (dm + e.weight)
  let dn ← rd distances e.dest
  if new_dist < dn then wr distances e.dest new_dist else pure distances

/-- The relax loop of `dijkstra_sequential`: `i` runs below `adj_size[min_node]`. -/
def relax (graph : Graph) (visited : List Bool) (min_node : Int) (distances : List Int) :
    Option (List Int) := do
  let sz ← rd graph.adj_size min_node
  (List.range sz.toNat).foldlM (relax_step graph visited min_node) distances

/-- One round of the main loop of `dijkstra_sequential`.  The outer `none` is a
memory fault, the inner `none` is the `break` taken when `min_node == -1`. -/
def round (graph : Graph) (st : List Int × List Bool) :
    Option (Option (List Int × List Bool)) := do
  let m ← extract_min graph.num_nodes st.1 st.2
  if m.2 = -1 then pure none else
  let visited ← wr st.2 m.2 true
  let distances ← relax graph visited m.2 st.1
  pure (some (distances, visited))

/-- The state after the initialisation of `dijkstra_sequential`: `visited` comes from
`calloc`, `distances` is filled with `INF` and `distances[source] = 0` is written. -/
def init_state (graph : Graph) (source : Int) : Option (List Int × List Bool) := do
  let distances ← wr (List.replicate graph.num_nodes.toNat INF) source 0
  pure (distances, List.replicate graph.num_nodes.toNat false)

/-- The function `dijkstra_sequential`; the result is the final `distances` array. -/
def dijkstra_sequential (graph : Graph) (source : Int) : Option (List Int) := do
  let st ← init_state graph source
  let fin ← for_break (fun _ st => round graph st) graph.num_nodes.toNat 0 st
  pure fin.1

/-! ## Shared-memory engine (`performance_test.c`, `dijkstra_openmp.c`)

A run of the thread team is determined by a schedule: which worker executes which
iteration of the extract-min `omp for`, in which order the workers enter the critical
section that combines their candidates, and in which order the iterations of the
relax loop enter its critical section.  Within one worker the iterations of the
`omp for` run in ascending order.  The scans only read `distances` and `visited`, so
running each worker's scan right before its critical section is the same as any
interleaving of the scans. -/

/-- A thread schedule of one round. -/
structure Schedule where
  /-- Worker that executes iteration `v` of the extract-min `omp for`. -/
  assign : Nat → Nat
  /-- Workers in the order in which they enter the extract-min critical section. -/
  crit : List Nat
  /-- For a relax loop of `k` iterations, the iterations in the order in which they
  enter the critical section. -/
  relax_order : Nat → List Nat

/-- A schedule is valid for a team of `num_threads` workers: every iteration belongs to
a worker of the team, every worker enters the critical section once, and every relax
iteration is executed once. -/
def Schedule.Valid (s : Schedule) (num_threads : Nat) : Prop :=
  (∀ v, s.assign v < num_threads) ∧ s.crit.Perm (List.range num_threads) ∧
    ∀ k, (s.relax_order k).Perm (List.range k)

/-- The private scan of worker `t`: its share of the iterations `0 .. num_nodes - 1`,
from `local_min_dist = INF`, `local_min_node = -1`. -/
def local_scan (num_nodes : Int) (s : Schedule) (distances : List Int)
    (visited : List Bool) (t : Nat) : Option (Int × Int) :=
  ((List.range num_nodes.toNat).filter (fun v => s.assign v = t)).foldlM
    (scan_step distances visited) (INF, -1)

/-- Worker `t` runs its scan and then the critical section
`if (local_min_dist < min_dist) { min_dist = local_min_dist; min_node = local_min_node; }`. -/
def crit_step (num_nodes : Int) (s : Schedule) (distances : List Int)
    (visited : List Bool) (acc : Int × Int) (t : Nat) : Option (Int × Int) := do
  let loc ← local_scan num_nodes s distances visited t
  if loc.1 < acc.1 then pure loc else pure acc

/-- The parallel extract-min of `dijkstra_parallel` (`performance_test.c`) and of
`dijkstra_parallel_optimized` (`dijkstra_openmp.c`). -/
def par_extract_min (num_nodes : Int) (s : Schedule) (distances : List Int)
    (visited : List Bool) : Option (Int × Int) :=
  s.crit.foldlM (crit_step num_nodes s distances visited) (INF, -1)

namespace PerfTest

/-- Iteration `i` of the relax loop of `dijkstra_parallel` in `performance_test.c`. -/
def relax_step (graph : Graph) (visited : List Bool) (min_node base_dist : Int)
    (distances : List Int) (i : Nat) : Option (List Int) := do
  let blk ← rd graph.adj_list min_node
  let slot ← blk[i]?
  let e ← slot
  let vis ← rd visited e.dest
  if vis then pure distances else
  if base_dist = INF then pure distances else
  let new_dist := wrap32 (base_dist + e.weight)
  let dn ← rd distances e.dest
  if new_dist < dn then wr distances e.dest new_dist else pure distances

/-- One round of `dijkstra_parallel` in `performance_test.c` under schedule `s`. -/
def round (graph : Graph) (s : Schedule) (st : List Int × List Bool) :
    Option (Option (List Int × List Bool)) := do
  let m ← par_extract_min graph.num_nodes s st.1 st.2
  if m.1 = INF ∨ m.2 = -1 then pure none else
  let visited ← wr st.2 m.2 true
  let adj_size ← rd graph.adj_size m.2
  let base_dist ← rd st.1 m.2
  let distances ← (s.relax_order adj_size.toNat).foldlM
    (relax_step graph visited m.2 base_dist) st.1
  pure (some (distances, visited))

/-- The function `dijkstra_parallel` of `performance_test.c`; `sched count` is the
schedule of round `count`. -/
def dijkstra_parallel (graph : Graph) (source : Int) (sched : Nat → Schedule) :
    Option (List Int) := do
  let st ← init_state graph source
  let fin ← for_break (fun count st => round graph (sched count) st)
    graph.num_nodes.toNat 0 st
  pure fin.1

end PerfTest

namespace OpenMP

/-- Iteration `i` of the relax loop of `dijkstra_parallel_optimized`; the entry is
skipped unless `neighbor >= 0 && neighbor < graph->num_nodes`. -/
def relax_step (graph : Graph) (visited : List Bool) (min_node base_dist : Int)
    (distances : List Int) (i : Nat) : Option (List Int) := do
  let blk ← rd graph.adj_list min_node
  let slot ← blk[i]?
  let e ← slot
  if ¬ (0 ≤ e.dest ∧ e.dest < graph.num_nodes) then pure distances else
  let vis ← rd visited e.dest
  if vis then pure distances else
  if base_dist = INF then pure distances else
  let new_dist := wrap32 (base_dist + e.weight)
  let dn ← rd distances e.dest
  if new_dist < dn then wr distances e.dest new_dist else pure distances

/-- One round of `dijkstra_parallel_optimized` under schedule `s`.  Of the test
`adj_size > 0 && graph->adj_list[min_node] != NULL` only the first half can fail. -/
def round (graph : Graph) (s : Schedule) (st : List Int × List Bool) :
    Option (Option (List Int × List Bool)) := do
  let m ← par_extract_min graph.num_nodes s st.1 st.2
  if m.1 = INF ∨ m.2 = -1 then pure none else
  let visited ← wr st.2 m.2 true
  let adj_size ← rd graph.adj_size m.2
  let base_dist ← rd st.1 m.2
  if adj_size > 0 then
    let distances ← (s.relax_order adj_size.toNat).foldlM
      (relax_step graph visited m.2 base_dist) st.1
    pure (some (distances, visited))
  else pure (some (st.1, visited))

/-- The function `dijkstra_parallel_optimized` of `dijkstra_openmp.c`; `sched count` is
the schedule of round `count`. -/
def dijkstra_parallel_optimized (graph : Graph) (source : Int) (sched : Nat → Schedule) :
    Option (List Int) := do
  let st ← init_state graph source
  let fin ← for_break (fun count st => round graph (sched count) st)
    graph.num_nodes.toNat 0 st
  pure fin.1

end OpenMP

/-! ## Graph construction and driver of `dijkstra_openmp.c` -/

namespace OpenMP

/-- What a call of `add_edge` of `dijkstra_openmp.c` leaves behind: the graph, and
whether the message `Error: Invalid edge ..` was written to `stderr`. -/
structure AddOutcome where
  graph : Graph
  invalid_edge : Bool
deriving DecidableEq, Repr

/-- The function `add_edge` of `dijkstra_openmp.c`: the endpoints are checked first;
an edge with an endpoint outside `0 .. num_nodes - 1` is reported and the function
returns without touching the graph.  The rest is the text of the other variants
(allocation failure of `realloc` is not modelled). -/
def add_edge (graph : Graph) (u v weight : Int) : Option AddOutcome :=
  if u < 0 ∨ u ≥ graph.num_nodes ∨ v < 0 ∨ v ≥ graph.num_nodes then
    some { graph := graph, invalid_edge := true }
  else
    (Dijkstra.add_edge graph u v weight).map
      (fun g => { graph := g, invalid_edge := false })

/-- The edge loop of `read_graph_from_file` in `dijkstra_openmp.c`.  `input` holds the
edges `fscanf` can still parse; when it is exhausted `fscanf` does not return 3 and the
function returns `NULL` (inner `none`).  The outer `none` is a memory fault. -/
def edge_loop : Nat → List EdgeRec → Graph → Option (Option Graph)
  | 0, _, graph => some (some graph)
  | _ + 1, [], _ => some none
  | k + 1, e :: rest, graph =>
    match add_edge graph e.u e.v e.weight with
    | none => none
    | some out => edge_loop k rest out.graph

/-- The part of `read_graph_from_file` of `dijkstra_openmp.c` after the header
`num_nodes num_edges` was parsed: the size check, `create_graph`, the edge loop. -/
def read_graph (num_nodes num_edges : Int) (input : List EdgeRec) : Option (Option Graph) :=
  if num_nodes ≤ 0 ∨ num_edges < 0 then some none
  else edge_loop num_edges.toNat input (create_graph num_nodes num_edges)

/-- How `main` ends: `EXIT_FAILURE` before any engine ran, or `EXIT_SUCCESS` after the
engine produced the printed distance array. -/
inductive Exit where
  | failure : Exit
  | success (distances : List Int) : Exit
deriving DecidableEq, Repr

/-- The function `main` of `dijkstra_openmp.c` for a file with header
`num_nodes num_edges` and edges `input`, and arguments `source`, `num_threads`. -/
def main (num_nodes num_edges : Int) (input : List EdgeRec) (source num_threads : Int)
    (sched : Nat → Schedule) : Option Exit :=
  if num_threads ≤ 0 then some Exit.failure
  else
    match read_graph num_nodes num_edges input with
    | none => none
    | some none => some Exit.failure
    | some (some graph) =>
      if source < 0 ∨ source ≥ graph.num_nodes then some Exit.failure
      else (dijkstra_parallel_optimized graph source sched).map Exit.success

end OpenMP

/-! ## Distributed engine (`dijkstra_mpi.c`)

The process group is a list of per-rank states; `MPI_Gather`, `MPI_Bcast` and
`MPI_Allreduce` are functions of that list. -/

namespace MPI

/-- The private state of one rank: its `distances` and `visited` arrays. -/
structure RankState where
  distances : List Int
  visited : List Bool
deriving DecidableEq, Repr

/-- Lower bound `rank * (total / size)` of the slice of `rank`. -/
def slice_start (total : Int) (rank size : Nat) : Int :=
  (rank : Int) * (total.tdiv (size : Int))

/-- Upper bound `(rank == size - 1) ? total : (rank + 1) * (total / size)`. -/
def slice_end (total : Int) (rank size : Nat) : Int :=
  if (rank : Int) = (size : Int) - 1 then total
  else ((rank : Int) + 1) * (total.tdiv (size : Int))

/-- The indices `start, start + 1, .., end - 1` visited by `for (i = start; i < end; i++)`
(the bounds computed by `dijkstra_mpi` are never negative). -/
def slice (total : Int) (rank size : Nat) : List Nat :=
  List.range' (slice_start total rank size).toNat
    ((slice_end total rank size).toNat - (slice_start total rank size).toNat)

/-- The local extract-min of `rank` over its slice of the node range. -/
def local_scan (graph : Graph) (rank size : Nat) (st : RankState) : Option (Int × Int) :=
  (slice graph.num_nodes rank size).foldlM (scan_step st.distances st.visited) (INF, -1)

/-- One iteration of rank 0's scan over the gathered candidates:
`if (all_min_nodes[i] != -1 && all_min_dists[i] < min_dist) { .. }`. -/
def pick_step (all_min : List (Int × Int)) (acc : Int × Int) (i : Nat) :
    Option (Int × Int) := do
  let c ← all_min[i]?
  if c.2 ≠ -1 ∧ c.1 < acc.1 then pure c else pure acc

/-- The pair `(min_dist, min_node)` every rank holds after the two `MPI_Gather` calls,
rank 0's scan over the candidates in rank order, and the two `MPI_Bcast` calls. -/
def global_min (graph : Graph) (size : Nat) (states : List RankState) :
    Option (Int × Int) := do
  let all_min ← all_some ((List.range size).map (fun r => do
    let st ← states[r]?
    local_scan graph r size st))
  (List.range size).foldlM (pick_step all_min) (INF, -1)

/-- One rank marks `min_node` visited and relaxes its slice of the neighbor list. -/
def rank_relax (graph : Graph) (rank size : Nat) (min_node : Int) (st : RankState) :
    Option RankState := do
  let visited ← wr st.visited min_node true
  let adj_size ← rd graph.adj_size min_node
  let distances ← (slice adj_size rank size).foldlM
    (Dijkstra.relax_step graph visited min_node) st.distances
  pure { distances := distances, visited := visited }

/-- Element-wise minimum of the arrays of all ranks (`MPI_Allreduce` with `MPI_MIN`). -/
def allreduce_min : List (List Int) → List Int
  | [] => []
  | d :: ds => ds.foldl (fun acc x => List.zipWith min acc x) d

/-- One round of `dijkstra_mpi` on all ranks. -/
def round (graph : Graph) (size : Nat) (states : List RankState) :
    Option (Option (List RankState)) := do
  let m ← global_min graph size states
  if m.1 = INF ∨ m.2 = -1 then pure none else
  let states1 ← all_some ((List.range size).map (fun r => do
    let st ← states[r]?
    rank_relax graph r size m.2 st))
  let reduced := allreduce_min (states1.map (fun st => st.distances))
  pure (some (states1.map (fun st => { st with distances := reduced })))

/-- The states of all ranks after the initialisation and the first `MPI_Bcast`, which
replaces every rank's `distances` by that of rank 0. -/
def init_states (graph : Graph) (source : Int) (size : Nat) : Option (List RankState) := do
  let st ← init_state graph source
  pure (List.replicate size { distances := st.1, visited := st.2 })

/-- The function `dijkstra_mpi` run by a group of `size` ranks; the result is the
`distances` array of rank 0. -/
def dijkstra_mpi (graph : Graph) (source : Int) (size : Nat) : Option (List Int) := do
  let states ← init_states graph source size
  let fin ← for_break (fun _ sts => round graph size sts) graph.num_nodes.toNat 0 states
  let st0 ← fin[0]?
  pure st0.distances

end MPI

/-! ## Specification vocabulary -/

/-- The neighbor list of `node` as a plain list (empty when it is not defined). -/
def nbrs (graph : Graph) (node : Nat) : List Edge := (neighbors graph node).getD []

/-- A well-formed graph value: `adj_size` and `adj_list` have `num_nodes` cells, every
neighbor list lies inside its block and is fully written, and every stored
destination is a node id. -/
def WF (graph : Graph) : Prop :=
  graph.adj_size.length = graph.num_nodes.toNat ∧
  graph.adj_list.length = graph.num_nodes.toNat ∧
  ∀ u, u < graph.num_nodes.toNat →
    (neighbors graph u).isSome = true ∧
    ∀ e ∈ nbrs graph u, 0 ≤ e.dest ∧ e.dest < graph.num_nodes

instance (graph : Graph) : Decidable (WF graph) := by
  unfold WF; infer_instance

/-- A walk of the graph: `IsWalk graph a p b` holds when the entries `p` lead from
node `a` to node `b`, each entry taken from the neighbor list of the node reached. -/
def IsWalk (graph : Graph) : Nat → List Edge → Nat → Prop
  | a, [], b => a = b
  | a, e :: p, b => e ∈ nbrs graph a ∧ IsWalk graph e.dest.toNat p b

instance (graph : Graph) : ∀ (a : Nat) (p : List Edge) (b : Nat),
    Decidable (IsWalk graph a p b)
  | a, [], b => by unfold IsWalk; infer_instance
  | a, e :: p, b => by
    unfold IsWalk
    have := instDecidableIsWalk graph e.dest.toNat p b
    infer_instance

/-- The weight of a walk: the sum of the weights of its entries. -/
def walk_weight (p : List Edge) : Int := (p.map Edge.weight).sum

/-- Node `v` has a path from node `s`. -/
def Reachable (graph : Graph) (s v : Nat) : Prop := ∃ p, IsWalk graph s p v

/-- The integer `x` is the true shortest-path weight from `s` to `v`: some walk has
weight `x` and no walk weighs less. -/
def IsShortestDist (graph : Graph) (s v : Nat) (x : Int) : Prop :=
  (∃ p, IsWalk graph s p v ∧ walk_weight p = x) ∧
    ∀ p, IsWalk graph s p v → x ≤ walk_weight p

/-- The neighbor list an undirected edge list induces at node `u`: edge `(a, b, w)`
contributes `(b, w)` to the list of `a` and `(a, w)` to the list of `b`, in input order. -/
def adj_of (es : List EdgeRec) (u : Int) : List Edge :=
  es.flatMap (fun e =>
    (if e.u = u then [Edge.mk e.v e.weight] else []) ++
    (if e.v = u then [Edge.mk e.u e.weight] else []))

/-- The graph value stores the undirected edge list `es`. -/
def Represents (graph : Graph) (es : List EdgeRec) : Prop :=
  ∀ u, u < graph.num_nodes.toNat → neighbors graph u = some (adj_of es (u : Int))

instance (graph : Graph) (es : List EdgeRec) : Decidable (Represents graph es) := by
  unfold Represents; infer_instance

/-- The total edge-weight sum of an edge list. -/
def total_weight (es : List EdgeRec) : Int := (es.map EdgeRec.weight).sum

/-! ## Pure forms of the loop bodies -/

/-- The value `distances[v]` as a total function of `v` (`INF` outside the array). -/
def dist_at (distances : List Int) (v : Nat) : Int := distances.getD v INF

/-- The flag `visited[v]` as a total function of `v` (`true` outside the array). -/
def vis_at (visited : List Bool) (v : Nat) : Bool := visited.getD v true

/-- The effect of `scan_step` when both reads are in bounds. -/
def scan_fn (distances : List Int) (visited : List Bool) (acc : Int × Int) (v : Nat) :
    Int × Int :=
  if vis_at visited v = false ∧ dist_at distances v < acc.1 then
    (dist_at distances v, (v : Int)) else acc

/-- The effect of one iteration of rank 0's scan over the gathered candidates. -/
def pick (acc c : Int × Int) : Int × Int := if c.2 ≠ -1 ∧ c.1 < acc.1 then c else acc

/-- The effect of `crit_step`: the private scan of worker `t` followed by its critical
section. -/
def crit_fn (num_nodes : Int) (s : Schedule) (distances : List Int) (visited : List Bool)
    (acc : Int × Int) (t : Nat) : Int × Int :=
  if (((List.range num_nodes.toNat).filter (fun v => s.assign v = t)).foldl
      (scan_fn distances visited) (INF, -1)).1 < acc.1 then
    ((List.range num_nodes.toNat).filter (fun v => s.assign v = t)).foldl
      (scan_fn distances visited) (INF, -1)
  else acc

/-- The candidate held after the workers `done` have left the critical section. -/
def CritGood (num_nodes : Int) (s : Schedule) (d : List Int) (vis : List Bool) (done : Nat → Prop)
    (acc : Int × Int) : Prop :=
  (acc = (INF, -1) ∧
    ∀ v, v < num_nodes.toNat → done (s.assign v) → vis_at vis v = false → INF ≤ dist_at d v) ∨
  ∃ u, u < num_nodes.toNat ∧ acc = (dist_at d u, (u : Int)) ∧ vis_at vis u = false ∧
    dist_at d u < INF ∧
    ∀ v, v < num_nodes.toNat → done (s.assign v) → vis_at vis v = false → dist_at d u ≤ dist_at d v

/-- The effect of one relax iteration on entry `e` with base distance `base`, when all
reads are in bounds. -/
def relax_fn (visited : List Bool) (base : Int) (distances : List Int) (e : Edge) :
    List Int :=
  if vis_at visited e.dest.toNat = false ∧ base ≠ INF ∧
      wrap32 (base + e.weight) < dist_at distances e.dest.toNat then
    distances.set e.dest.toNat (wrap32 (base + e.weight))
  else distances

/-- The least of `x` and the candidates `wrap32 (base + weight)` of the entries of `l`
whose destination is `v`. -/
def cand_min (base : Int) (l : List Edge) (v : Nat) (x : Int) : Int :=
  l.foldl (fun m e =>
    if e.dest = (v : Int) ∧ wrap32 (base + e.weight) < m then wrap32 (base + e.weight)
    else m) x

/-- The effect of one round of `dijkstra_sequential` on a state whose arrays have
`num_nodes` cells, for a well-formed graph: `none` is the `break`. -/
def round_fn (graph : Graph) (distances : List Int) (visited : List Bool) :
    Option (List Int × List Bool) :=
  let m := (List.range graph.num_nodes.toNat).foldl (scan_fn distances visited) (INF, -1)
  if m.2 = -1 then none
  else some ((nbrs graph m.2.toNat).foldl
      (relax_fn (visited.set m.2.toNat true) (dist_at distances m.2.toNat)) distances,
    visited.set m.2.toNat true)

/-- What one round of any of the engines does to the state `(distances, visited)`:
either it breaks, and then no unvisited node has a distance below `INF`; or it marks
an unvisited node `u` of least distance, that distance being below `INF`, and relaxes
the entries of `u` in some order. -/
def RoundPost (graph : Graph) (distances : List Int) (visited : List Bool) :
    Option (List Int × List Bool) → Prop
  | none => ∀ v, v < graph.num_nodes.toNat → vis_at visited v = false →
      INF ≤ dist_at distances v
  | some st1 => ∃ u, u < graph.num_nodes.toNat ∧ vis_at visited u = false ∧
      dist_at distances u < INF ∧
      (∀ v, v < graph.num_nodes.toNat → vis_at visited v = false →
        dist_at distances u ≤ dist_at distances v) ∧
      st1.2 = visited.set u true ∧
      ∃ L : List Edge, L.Perm (nbrs graph u) ∧
        st1.1 = L.foldl (relax_fn (visited.set u true) (dist_at distances u)) distances

/-- Node `a` is visited or is the node `x`. -/
def in_set (visited : List Bool) (x : Nat) (a : Int) : Prop :=
  vis_at visited a.toNat = true ∨ a.toNat = x

instance (visited : List Bool) (x : Nat) (a : Int) : Decidable (in_set visited x a) := by
  unfold in_set; infer_instance

/-- The weight of the edges of `es` with both endpoints visited or equal to `x`. -/
def pot (es : List EdgeRec) (visited : List Bool) (x : Nat) : Int :=
  (es.map (fun e =>
    if in_set visited x e.u ∧ in_set visited x e.v then e.weight else 0)).sum

/-- The invariant of the round loop for a graph that stores the edge list `es` with
source `s`: array lengths, `distances[s] == 0`, every distance below `INF` is
non-negative, bounded by `pot` and the weight of a walk from `s`; every entry of a
visited node is relaxed; visited nodes are no farther than unvisited ones and have a
distance below `INF`. -/
structure DInv (graph : Graph) (es : List EdgeRec) (s : Nat) (distances : List Int)
    (visited : List Bool) : Prop where
  len_d : distances.length = graph.num_nodes.toNat
  len_v : visited.length = graph.num_nodes.toNat
  src : dist_at distances s = 0
  bd : ∀ v, v < graph.num_nodes.toNat → dist_at distances v ≠ INF →
    0 ≤ dist_at distances v ∧ dist_at distances v ≤ pot es visited v
  wk : ∀ v, v < graph.num_nodes.toNat → dist_at distances v ≠ INF →
    ∃ p, IsWalk graph s p v ∧ walk_weight p = dist_at distances v
  rel : ∀ u, u < graph.num_nodes.toNat → vis_at visited u = true → ∀ e ∈ nbrs graph u,
    dist_at distances e.dest.toNat ≤ dist_at distances u + e.weight ∧
    dist_at distances e.dest.toNat ≠ INF
  ord : ∀ u v, u < graph.num_nodes.toNat → v < graph.num_nodes.toNat →
    vis_at visited u = true → vis_at visited v = false →
    dist_at distances u ≤ dist_at distances v
  fin : ∀ u, u < graph.num_nodes.toNat → vis_at visited u = true →
    dist_at distances u ≠ INF

/-- The final distance array the engines must produce: `INF` at the nodes without a
path from `s`, the true shortest-path weight at the others. -/
def IsAnswer (graph : Graph) (s : Nat) (dist : List Int) : Prop :=
  dist.length = graph.num_nodes.toNat ∧
  ∀ v, v < graph.num_nodes.toNat →
    (Reachable graph s v → IsShortestDist graph s v (dist_at dist v)) ∧
    (¬ Reachable graph s v → dist_at dist v = INF)

/-! ## Example graphs -/

/-- The graph of scenario B as `build 3 [(0,1,1), (1,2,1), (0,2,5)]` leaves it. -/
def triangle : Graph :=
  { num_nodes := 3
    num_edges := 3
    adj_list := [[some ⟨1, 1⟩, some ⟨2, 5⟩], [some ⟨0, 1⟩, some ⟨2, 1⟩],
      [some ⟨1, 1⟩, some ⟨0, 5⟩]]
    adj_size := [2, 2, 2] }

/-- The graph of scenario C as `build 3 [(0,1,3)]` leaves it; node 2 is isolated. -/
def disconnected : Graph :=
  { num_nodes := 3
    num_edges := 1
    adj_list := [[some ⟨1, 3⟩], [some ⟨0, 3⟩], [none]]
    adj_size := [1, 1, 0] }

/-- The arrays of the graph have `num_nodes` cells and no recorded size is negative. -/
def Sized (graph : Graph) : Prop :=
  graph.adj_size.length = graph.num_nodes.toNat ∧
  graph.adj_list.length = graph.num_nodes.toNat ∧
  ∀ x ∈ graph.adj_size, 0 ≤ x

/-- The heap block that holds the neighbor list `l`: `create_graph` allocates one
slot, `add_edge` reallocates to exactly the number of entries. -/
def block_of (l : List Edge) : List (Option Edge) :=
  if l = [] then [none] else l.map some

/-- The graph of `num_nodes` nodes whose neighbor lists are given by `adj`, laid out
as `create_graph` and `add_edge` lay it out. -/
def Built (graph : Graph) (adj : Nat → List Edge) : Prop :=
  graph.adj_size = (List.range graph.num_nodes.toNat).map (fun u => ((adj u).length : Int)) ∧
  graph.adj_list = (List.range graph.num_nodes.toNat).map (fun u => block_of (adj u))

/-- A graph on which two workers can tie: nodes `{0, 1, 2}` and the
edges `(0,1,5)`, `(0,2,5)`, as `build 3 [(0,1,5), (0,2,5)]` leaves it. -/
def fork : Graph :=
  { num_nodes := 3
    num_edges := 2
    adj_list := [[some ⟨1, 5⟩, some ⟨2, 5⟩], [some ⟨0, 5⟩], [some ⟨0, 5⟩]]
    adj_size := [2, 1, 1] }

/-- The static schedule of two workers over three iterations (worker 0 runs
iterations 0 and 1, worker 1 runs iteration 2) in which worker 1 reaches the critical
section first. -/
def static_late : Schedule :=
  { assign := fun v => if v < 2 then 0 else 1
    crit := [1, 0]
    relax_order := fun k => List.range k }

/-- The edge list of scenario B. -/
def triangle_edges : List EdgeRec := [⟨0, 1, 1⟩, ⟨1, 2, 1⟩, ⟨0, 2, 5⟩]

/-- A schedule for two workers: even iterations on worker 0, odd ones on worker 1;
worker 1 enters the critical section first; relax iterations enter in descending
order. -/
def two_workers : Schedule :=
  { assign := fun v => v % 2
    crit := [1, 0]
    relax_order := fun k => (List.range k).reverse }

end Dijkstra

namespace Dijkstra

/-! ## Runs, round by round -/

/-- The state `(distances, visited)` of `dijkstra_sequential` after the first `rounds`
iterations of its main loop, or the state at the `break` when the loop ended earlier. -/
def run_state (graph : Graph) (source : Int) (rounds : Nat) :
    Option (List Int × List Bool) :=
  (init_state graph source).bind
    (fun st => for_break (fun _ st => round graph st) rounds 0 st)

/-- One more iteration of the main loop of `dijkstra_sequential`: the state after the
round, or the same state when the round takes the `break`. -/
def next_state (graph : Graph) (st : List Int × List Bool) :
    Option (List Int × List Bool) :=
  match round graph st with
  | none => none
  | some none => some st
  | some (some st1) => some st1

/-- The `distances` array inside a round: after the extract-min scan, the marking of
`min_node`, and the first `j` iterations of the relax loop.  The inner `none` is the
`break`. -/
def mid_round (graph : Graph) (st : List Int × List Bool) (j : Nat) :
    Option (Option (List Int)) := do
  let m ← extract_min graph.num_nodes st.1 st.2
  if m.2 = -1 then pure none else
  let visited ← wr st.2 m.2 true
  let sz ← rd graph.adj_size m.2
  let distances ← (List.range (min j sz.toNat)).foldlM
    (relax_step graph visited m.2) st.1
  pure (some distances)

namespace MPI

/-- The states of all ranks of `dijkstra_mpi` after the first `rounds` iterations of the
main loop, or at the `break` when the loop ended earlier. -/
def run_state (graph : Graph) (source : Int) (size rounds : Nat) :
    Option (List RankState) :=
  (init_states graph source size).bind
    (fun sts => for_break (fun _ sts => round graph size sts) rounds 0 sts)

end MPI

/-! ## Graph reader and drivers of the other programs -/

/-- The edge loop of `read_graph_from_file` in `dijkstra_sequential.c`, `dijkstra_mpi.c`
and `performance_test.c`: the result of `fscanf` is not tested, so when `input` (the
edges `fscanf` can parse) is exhausted `u`, `v` and `weight` are read uninitialised. -/
def read_edges : Nat → List EdgeRec → Graph → Option Graph
  | 0, _, graph => some graph
  | _ + 1, [], _ => none
  | k + 1, e :: rest, graph =>
    (add_edge graph e.u e.v e.weight).bind (fun g1 => read_edges k rest g1)

/-- The part of `read_graph_from_file` after the header `num_nodes num_edges` was parsed,
in `dijkstra_sequential.c`, `dijkstra_mpi.c` and `performance_test.c`: no size check,
`create_graph`, the edge loop. -/
def read_graph (num_nodes num_edges : Int) (input : List EdgeRec) : Option Graph :=
  read_edges num_edges.toNat input (create_graph num_nodes num_edges)

namespace Sequential

/-- The function `main` of `dijkstra_sequential.c` for a file with header
`num_nodes num_edges` and edges `input`, and argument `source`. -/
def main (num_nodes num_edges : Int) (input : List EdgeRec) (source : Int) :
    Option OpenMP.Exit :=
  match read_graph num_nodes num_edges input with
  | none => none
  | some graph =>
    if source < 0 ∨ source ≥ graph.num_nodes then some OpenMP.Exit.failure
    else (dijkstra_sequential graph source).map OpenMP.Exit.success

end Sequential

namespace MPI

/-- The function `main` of `dijkstra_mpi.c` as rank 0 of a group of `size` ranks
executes it: rank 0 reads the graph and checks the source before the engine is called. -/
def main (num_nodes num_edges : Int) (input : List EdgeRec) (source : Int) (size : Nat) :
    Option OpenMP.Exit :=
  match read_graph num_nodes num_edges input with
  | none => none
  | some graph =>
    if source < 0 ∨ source ≥ graph.num_nodes then some OpenMP.Exit.failure
    else (dijkstra_mpi graph source size).map OpenMP.Exit.success

end MPI

namespace PerfTest

/-- The loop of `verify_results` over the indices still to compare: `false` is returned
at the first index where the arrays differ. -/
def verify_loop (dist1 dist2 : List Int) : List Nat → Option Bool
  | [] => some true
  | i :: rest => do
    let a ← dist1[i]?
    let b ← dist2[i]?
    if a ≠ b then pure false else verify_loop dist1 dist2 rest

/-- The function `verify_results` of `performance_test.c`. -/
def verify_results (dist1 dist2 : List Int) (num_nodes : Int) : Option Bool :=
  verify_loop dist1 dist2 (List.range num_nodes.toNat)

/-- What `main` of `performance_test.c` computes: both distance arrays and the verdict
printed as `PASSED` or `FAILED`. -/
structure Report where
  dist_seq : List Int
  dist_par : List Int
  correct : Bool
deriving DecidableEq, Repr

/-- The function `main` of `performance_test.c` for a file with header
`num_nodes num_edges` and edges `input`.  The source is the constant `0`; nothing is
checked between `read_graph_from_file` and the two engine calls.  The thread count
(4 when the argument is missing or not positive) is the team of the schedule. -/
def main (num_nodes num_edges : Int) (input : List EdgeRec) (sched : Nat → Schedule) :
    Option Report :=
  match read_graph num_nodes num_edges input with
  | none => none
  | some graph => do
    let dist_seq ← dijkstra_sequential graph 0
    let dist_par ← dijkstra_parallel graph 0 sched
    let correct ← verify_results dist_seq dist_par graph.num_nodes
    pure { dist_seq := dist_seq, dist_par := dist_par, correct := correct }

end PerfTest

/-! ## More example graphs -/

/-- The path `0 - 1 - 2` with two edges of weight `2^30`, as
`build 3 [(0,1,2^30), (1,2,2^30)]` leaves it. -/
def heavy : Graph :=
  { num_nodes := 3
    num_edges := 2
    adj_list := [[some ⟨1, 1073741824⟩], [some ⟨0, 1073741824⟩, some ⟨2, 1073741824⟩],
      [some ⟨1, 1073741824⟩]]
    adj_size := [1, 2, 1] }

end Dijkstra

namespace Dijkstra

/-! ## The reduction engine `dijkstra_parallel` of `dijkstra_openmp.c` -/

namespace OpenMP

/-- One iteration of the reduction loop of `dijkstra_parallel`:
`if (!visited[v] && distances[v] < min_dist) { min_dist = distances[v]; }`. -/
def reduce_step (distances : List Int) (visited : List Bool) (min_dist : Int) (v : Nat) :
    Option Int := do
  let vis ← visited[v]?
  if vis then pure min_dist else
  let dv ← distances[v]?
  if dv < min_dist then pure dv else pure min_dist

/-- The private copy of `min_dist` of worker `t` after its share of the iterations; a
private copy of a `min` reduction starts at the largest `int`, which is `INF`. -/
def reduce_local (num_nodes : Int) (s : Schedule) (distances : List Int)
    (visited : List Bool) (t : Nat) : Option Int :=
  ((List.range num_nodes.toNat).filter (fun v => s.assign v = t)).foldlM
    (reduce_step distances visited) INF

/-- The value of `min_dist` after the loop with `reduction(min:min_dist)`: the original
value `INF` combined by `min` with the private copies, taken in the order `s.crit`. -/
def reduce_min (num_nodes : Int) (s : Schedule) (distances : List Int)
    (visited : List Bool) : Option Int :=
  s.crit.foldlM (fun acc t =>
    (reduce_local num_nodes s distances visited t).map (fun loc => min acc loc)) INF

/-- The ascending scan of `dijkstra_parallel` over the iterations that are left:
`if (!visited[v] && distances[v] == min_dist) { min_node = v; break; }`, from
`min_node = -1`. -/
def first_scan (distances : List Int) (visited : List Bool) (min_dist : Int) :
    List Nat → Option Int
  | [] => some (-1)
  | v :: rest => do
    let vis ← visited[v]?
    if vis then first_scan distances visited min_dist rest else
    let dv ← distances[v]?
    if dv = min_dist then pure (v : Int) else first_scan distances visited min_dist rest

/-- One round of `dijkstra_parallel` of `dijkstra_openmp.c` under schedule `s`.  The body
of its relax loop is the text of the loop of `dijkstra_sequential`, the test and the write
of `distances[neighbor]` inside a critical section. -/
def par_round (graph : Graph) (s : Schedule) (st : List Int × List Bool) :
    Option (Option (List Int × List Bool)) := do
  let min_dist ← reduce_min graph.num_nodes s st.1 st.2
  if min_dist = INF then pure none else
  let min_node ← first_scan st.1 st.2 min_dist (List.range graph.num_nodes.toNat)
  if min_node = -1 then pure none else
  let visited ← wr st.2 min_node true
  let adj_size ← rd graph.adj_size min_node
  let distances ← (s.relax_order adj_size.toNat).foldlM
    (Dijkstra.relax_step graph visited min_node) st.1
  pure (some (distances, visited))

/-- The state of `dijkstra_parallel` of `dijkstra_openmp.c` after the first `rounds`
iterations of its main loop, or at the `break` when the loop ended earlier. -/
def par_run_state (graph : Graph) (source : Int) (sched : Nat → Schedule) (rounds : Nat) :
    Option (List Int × List Bool) :=
  (init_state graph source).bind
    (fun st => for_break (fun count st => par_round graph (sched count) st) rounds 0 st)

/-- The function `dijkstra_parallel` of `dijkstra_openmp.c`; `sched count` is the
schedule of round `count`. -/
def dijkstra_parallel (graph : Graph) (source : Int) (sched : Nat → Schedule) :
    Option (List Int) := do
  let st ← init_state graph source
  let fin ← for_break (fun count st => par_round graph (sched count) st)
    graph.num_nodes.toNat 0 st
  pure fin.1

end OpenMP

/-! ## The loop counter and the printed lines of `dijkstra_sequential.c` -/

/-- The loop `for (count = 0; count < bound; count++)` with a body that may `break`,
returning the value of `count` when the loop is left together with the state. -/
def for_break_count {σ : Type} (body : Nat → σ → Option (Option σ)) :
    Nat → Nat → σ → Option (Nat × σ)
  | 0, count, st => some (count, st)
  | fuel + 1, count, st =>
    match body count st with
    | none => none
    | some none => some (count, st)
    | some (some st1) => for_break_count body fuel (count + 1) st1

/-- The function `dijkstra_sequential` observed right before `free(visited)`: the value
of `count` (the number of rounds that ran to their end), `distances` and `visited`. -/
def dijkstra_sequential_trace (graph : Graph) (source : Int) :
    Option (Nat × (List Int × List Bool)) :=
  (init_state graph source).bind
    (fun st => for_break_count (fun _ st => round graph st) graph.num_nodes.toNat 0 st)

/-- What the output loop of `main` prints after `Node i: `. -/
inductive Shown where
  | inf : Shown
  | value (distance : Int) : Shown
deriving DecidableEq, Repr

/-- One iteration of the output loop of `main` in `dijkstra_sequential.c`:
`if (distances[i] == INF) printf("Node %d: INF\n", i); else printf("Node %d: %d\n", ..)`. -/
def print_distance (distance : Int) : Shown :=
  if distance = INF then Shown.inf else Shown.value distance

/-! ## More example graphs -/

/-- The graph `build 2 [(0,1,3), (1,1,4)]` leaves: the self-loop at node 1 raised
`adj_size[1]` to 3 while the block of node 1 holds two slots. -/
def looped : Graph :=
  { num_nodes := 2
    num_edges := 2
    adj_list := [[some ⟨1, 3⟩], [some ⟨0, 3⟩, some ⟨1, 4⟩]]
    adj_size := [1, 3] }

/-- The graph `build 2 [(0,1,2147483647)]` leaves: one edge of weight `INT_MAX`. -/
def far : Graph :=
  { num_nodes := 2
    num_edges := 1
    adj_list := [[some ⟨1, 2147483647⟩], [some ⟨0, 2147483647⟩]]
    adj_size := [1, 1] }

/-! ## Slots that were allocated but never written -/

/-- The graph as the engines find it when every `Edge` slot that was allocated but never
written holds the value `junk`: `malloc` and `realloc` do not initialise the memory they
return, so a read of such a slot yields whatever the heap held there. -/
def fill_unwritten (graph : Graph) (junk : Edge) : Graph :=
  { graph with
    adj_list := graph.adj_list.map (fun blk => blk.map (fun slot => some (slot.getD junk))) }

/-- The edges of the input file `3 3` / `1 1 7` / `2 1 5` / `2 0 100`. -/
def stray_edges : List EdgeRec := [⟨1, 1, 7⟩, ⟨2, 1, 5⟩, ⟨2, 0, 100⟩]

/-- The graph `build 3 stray_edges` leaves: the self-loop stored one entry at node 1 and
raised `adj_size[1]` to 2, so the next `add_edge` reallocated the block of node 1 to three
slots and wrote slot 2; slot 1 was never written. -/
def stray : Graph :=
  { num_nodes := 3
    num_edges := 3
    adj_list := [[some ⟨2, 100⟩], [some ⟨1, 7⟩, none, some ⟨2, 5⟩],
      [some ⟨1, 5⟩, some ⟨0, 100⟩]]
    adj_size := [1, 3, 2] }

/-- The graph value that stores `stray_edges`: every edge appears in the neighbor lists of
both its endpoints. -/
def stray_intended : Graph :=
  { num_nodes := 3
    num_edges := 3
    adj_list := [[some ⟨2, 100⟩], [some ⟨1, 7⟩, some ⟨1, 7⟩, some ⟨2, 5⟩],
      [some ⟨1, 5⟩, some ⟨0, 100⟩]]
    adj_size := [1, 3, 2] }

end Dijkstra

namespace Dijkstra

/-! ## Checked accesses -/

theorem rd_natCast {α : Type} (xs : List α) (i : Nat) : rd xs (i : Int) = xs[i]? := by
  simp [rd]

theorem wr_natCast {α : Type} (xs : List α) (i : Nat) (x : α) (h : i < xs.length) :
    wr xs (i : Int) x = some (xs.set i x) := by
  simp [wr, h]

theorem dist_at_set (d : List Int) (i j : Nat) (a : Int) :
    dist_at (d.set i a) j = if i = j ∧ i < d.length then a else dist_at d j := by
  unfold dist_at
  simp only [List.getD_eq_getElem?_getD, List.getElem?_set]
  by_cases h : i = j
  · subst h
    by_cases h2 : i < d.length
    · simp [h2]
    · simp [h2, List.getElem?_eq_none (Nat.le_of_not_lt h2)]
  · simp [h]

theorem vis_at_set (vis : List Bool) (i j : Nat) (a : Bool) :
    vis_at (vis.set i a) j = if i = j ∧ i < vis.length then a else vis_at vis j := by
  unfold vis_at
  simp only [List.getD_eq_getElem?_getD, List.getElem?_set]
  by_cases h : i = j
  · subst h
    by_cases h2 : i < vis.length
    · simp [h2]
    · simp [h2, List.getElem?_eq_none (Nat.le_of_not_lt h2)]
  · simp [h]

theorem getElem?_dist_at (d : List Int) (i : Nat) (h : i < d.length) :
    d[i]? = some (dist_at d i) := by
  simp [dist_at, List.getD_eq_getElem?_getD, List.getElem?_eq_getElem h]

theorem getElem?_vis_at (vis : List Bool) (i : Nat) (h : i < vis.length) :
    vis[i]? = some (vis_at vis i) := by
  simp [vis_at, List.getD_eq_getElem?_getD, List.getElem?_eq_getElem h]

/-! ## Folds in the option monad -/

theorem foldlM_eq_foldl {σ ι α : Type} (P : σ → Prop) (step : σ → ι → Option σ)
    (f : σ → α → σ) (get : ι → α) (idxs : List ι)
    (hstep : ∀ s, P s → ∀ i ∈ idxs, step s i = some (f s (get i)))
    (hP : ∀ s, P s → ∀ i ∈ idxs, P (f s (get i))) :
    ∀ s, P s → idxs.foldlM step s = some ((idxs.map get).foldl f s) ∧
      P ((idxs.map get).foldl f s) := by
  induction idxs with
  | nil => intro s hs; exact ⟨rfl, hs⟩
  | cons i t ih =>
    intro s hs
    have h1 := hstep s hs i (List.mem_cons_self _ _)
    have h2 := hP s hs i (List.mem_cons_self _ _)
    have ih' := ih (fun s hs j hj => hstep s hs j (List.mem_cons_of_mem _ hj))
      (fun s hs j hj => hP s hs j (List.mem_cons_of_mem _ hj)) (f s (get i)) h2
    simp only [List.foldlM_cons, h1, List.map_cons, List.foldl_cons]
    exact ih'

theorem map_getD_range {α : Type} (l : List α) (x : α) :
    (List.range l.length).map (fun i => l.getD i x) = l := by
  apply List.ext_getElem
  · simp
  · intro i h1 h2
    simp [List.getD_eq_getElem?_getD, List.getElem?_eq_getElem h2]

theorem all_some_map {ι α : Type} (idxs : List ι) (f : ι → Option α) (g : ι → α)
    (h : ∀ i ∈ idxs, f i = some (g i)) : all_some (idxs.map f) = some (idxs.map g) := by
  induction idxs with
  | nil => rfl
  | cons i t ih =>
    have h1 := h i (List.mem_cons_self _ _)
    have h2 := ih (fun j hj => h j (List.mem_cons_of_mem _ hj))
    simp [all_some, h1, h2]

theorem all_some_eq_some {α : Type} (l : List (Option α)) (r : List α)
    (h : all_some l = some r) : l = r.map some := by
  induction l generalizing r with
  | nil => simp [all_some] at h; subst h; rfl
  | cons x t ih =>
    cases x with
    | none => simp [all_some] at h
    | some a =>
      cases hr : all_some t with
      | none => simp [all_some, hr] at h
      | some l' =>
        simp [all_some, hr] at h
        subst h
        simp [ih l' hr]

/-! ## The scan -/

theorem scan_step_eq (d : List Int) (vis : List Bool) (acc : Int × Int) (v : Nat)
    (hd : v < d.length) (hv : v < vis.length) :
    scan_step d vis acc v = some (scan_fn d vis acc v) := by
  unfold scan_step scan_fn
  rw [getElem?_vis_at vis v hv, getElem?_dist_at d v hd]
  cases h : vis_at vis v <;> by_cases h2 : dist_at d v < acc.1 <;> simp [h2]

theorem scan_foldlM (d : List Int) (vis : List Bool) (idxs : List Nat)
    (hd : ∀ v ∈ idxs, v < d.length) (hv : ∀ v ∈ idxs, v < vis.length) (acc : Int × Int) :
    idxs.foldlM (scan_step d vis) acc = some (idxs.foldl (scan_fn d vis) acc) := by
  have := (foldlM_eq_foldl (fun _ => True) (scan_step d vis) (scan_fn d vis) id idxs
    (fun s _ i hi => scan_step_eq d vis s i (hd i hi) (hv i hi)) (fun _ _ _ _ => trivial)
    acc trivial).1
  simpa using this

end Dijkstra

namespace Dijkstra

theorem scan_foldl_spec (d : List Int) (vis : List Bool) (l : List Nat) (acc : Int × Int) :
    (l.foldl (scan_fn d vis) acc = acc ∧
      ∀ v ∈ l, vis_at vis v = false → acc.1 ≤ dist_at d v) ∨
    (∃ v0 ∈ l, l.foldl (scan_fn d vis) acc = (dist_at d v0, (v0 : Int)) ∧
      vis_at vis v0 = false ∧ dist_at d v0 < acc.1 ∧
      (∀ v ∈ l, vis_at vis v = false → dist_at d v0 ≤ dist_at d v) ∧
      (l.Pairwise (fun a b => a < b) → ∀ v ∈ l, vis_at vis v = false →
        dist_at d v = dist_at d v0 → v0 ≤ v)) := by
  induction l generalizing acc with
  | nil => left; simp
  | cons x t ih =>
    simp only [List.foldl_cons]
    by_cases hx : vis_at vis x = false ∧ dist_at d x < acc.1
    · have hacc : scan_fn d vis acc x = (dist_at d x, (x : Int)) := by
        simp [scan_fn, hx.1, hx.2]
      rw [hacc]
      right
      rcases ih (dist_at d x, (x : Int)) with ⟨h1, h2⟩ | ⟨v0, hv0, h1, h2, h3, h4, h5⟩
      · refine ⟨x, List.mem_cons_self _ _, h1, hx.1, hx.2, ?_, ?_⟩
        · intro v hv hvis
          rcases List.mem_cons.1 hv with rfl | hv
          · exact le_refl _
          · exact h2 v hv hvis
        · intro hp v hv _ _
          rcases List.mem_cons.1 hv with rfl | hv
          · exact le_refl _
          · exact le_of_lt ((List.pairwise_cons.1 hp).1 v hv)
      · simp only at h3
        refine ⟨v0, List.mem_cons_of_mem _ hv0, h1, h2, lt_trans h3 hx.2, ?_, ?_⟩
        · intro v hv hvis
          rcases List.mem_cons.1 hv with rfl | hv
          · exact le_of_lt h3
          · exact h4 v hv hvis
        · intro hp v hv hvis heq
          rcases List.mem_cons.1 hv with rfl | hv
          · omega
          · exact h5 (List.pairwise_cons.1 hp).2 v hv hvis heq
    · have hacc : scan_fn d vis acc x = acc := by
        simp only [scan_fn, hx, if_false]
      rw [hacc]
      have hx' : vis_at vis x = false → acc.1 ≤ dist_at d x := by
        intro h
        by_contra hc
        exact hx ⟨h, lt_of_not_le hc⟩
      rcases ih acc with ⟨h1, h2⟩ | ⟨v0, hv0, h1, h2, h3, h4, h5⟩
      · left
        refine ⟨h1, ?_⟩
        intro v hv hvis
        rcases List.mem_cons.1 hv with rfl | hv
        · exact hx' hvis
        · exact h2 v hv hvis
      · right
        refine ⟨v0, List.mem_cons_of_mem _ hv0, h1, h2, h3, ?_, ?_⟩
        · intro v hv hvis
          rcases List.mem_cons.1 hv with rfl | hv
          · exact le_trans (le_of_lt h3) (hx' hvis)
          · exact h4 v hv hvis
        · intro hp v hv hvis heq
          rcases List.mem_cons.1 hv with rfl | hv
          · have := hx' hvis
            omega
          · exact h5 (List.pairwise_cons.1 hp).2 v hv hvis heq

theorem scan_foldl_fresh (d : List Int) (vis : List Bool) (l : List Nat) :
    (l.foldl (scan_fn d vis) (INF, -1)).1 ≤ INF ∧
    ((l.foldl (scan_fn d vis) (INF, -1)).2 = -1 →
      (l.foldl (scan_fn d vis) (INF, -1)).1 = INF) ∧
    ((l.foldl (scan_fn d vis) (INF, -1)).2 ≠ -1 →
      (l.foldl (scan_fn d vis) (INF, -1)).1 < INF) := by
  rcases scan_foldl_spec d vis l (INF, -1) with ⟨h1, _⟩ | ⟨v0, _, h1, _, h3, _, _⟩
  · rw [h1]; simp
  · rw [h1]
    simp only at h3
    refine ⟨le_of_lt h3, ?_, fun _ => h3⟩
    intro h
    simp only at h
    omega

theorem scan_foldl_pick (d : List Int) (vis : List Bool) (l : List Nat) (acc : Int × Int)
    (hacc : acc.1 ≤ INF) :
    l.foldl (scan_fn d vis) acc = pick acc (l.foldl (scan_fn d vis) (INF, -1)) := by
  induction l using List.reverseRecOn with
  | nil => simp [pick]
  | append_singleton l x ih =>
    simp only [List.foldl_append, List.foldl_cons, List.foldl_nil]
    rw [ih]
    obtain ⟨f1, f2, f3⟩ := scan_foldl_fresh d vis l
    generalize l.foldl (scan_fn d vis) (INF, -1) = loc at f1 f2 f3
    obtain ⟨a1, a2⟩ := acc
    obtain ⟨l1, l2⟩ := loc
    simp only at hacc f1 f2 f3
    unfold pick scan_fn
    simp only
    by_cases hv : vis_at vis x = false
    · simp only [hv, true_and]
      by_cases hl : l2 = -1
      · have := f2 hl
        subst this
        simp only [hl]
        split_ifs <;> simp_all <;> omega
      · have := f3 hl
        split_ifs <;> simp_all <;> omega
    · have hv' : vis_at vis x = true := by simpa using hv
      simp [hv']

end Dijkstra

namespace Dijkstra
namespace MPI

theorem slice_of_neg (n : Int) (r P : Nat) (hn : n < 0) : slice n r P = [] := by
  have hq : n.tdiv (P : Int) ≤ 0 := by
    have h := Int.neg_tdiv (-n) (P : Int)
    rw [neg_neg] at h
    rw [h]
    have := Int.tdiv_nonneg (a := -n) (b := (P : Int)) (by omega) (Int.ofNat_nonneg P)
    omega
  have h1 : (slice_end n r P).toNat = 0 := by
    unfold slice_end
    split_ifs
    · exact Int.toNat_eq_zero.2 (le_of_lt hn)
    · apply Int.toNat_eq_zero.2
      exact mul_nonpos_of_nonneg_of_nonpos (by omega) hq
  simp [slice, h1]

theorem slice_of_nonneg (n : Int) (r P : Nat) (hn : 0 ≤ n) :
    slice n r P =
      if r + 1 = P then List.range' (r * (n.toNat / P)) (n.toNat - r * (n.toNat / P))
      else List.range' (r * (n.toNat / P)) (n.toNat / P) := by
  obtain ⟨N, rfl⟩ := Int.eq_ofNat_of_zero_le hn
  have hq : (N : Int).tdiv (P : Int) = ((N / P : Nat) : Int) := by
    rw [Int.tdiv_eq_ediv (Int.ofNat_nonneg N) (Int.ofNat_nonneg P)]
    simp
  have hs : (slice_start (N : Int) r P).toNat = r * (N / P) := by
    unfold slice_start
    rw [hq, ← Nat.cast_mul, Int.toNat_natCast]
  unfold slice
  rw [hs]
  unfold slice_end
  by_cases h : r + 1 = P
  · have h' : (r : Int) = (P : Int) - 1 := by omega
    simp [h, h']
  · have h' : ¬ (r : Int) = (P : Int) - 1 := by omega
    rw [if_neg h', if_neg h, hq]
    have : ((r : Int) + 1) * ((N / P : Nat) : Int) = (((r + 1) * (N / P) : Nat) : Int) := by
      push_cast; ring
    rw [this, Int.toNat_natCast]
    simp only [Int.toNat_natCast]
    congr 1
    rw [Nat.add_mul, Nat.one_mul, Nat.add_sub_cancel_left]

theorem slices_prefix (n : Int) (P k : Nat) (hn : 0 ≤ n) (hk : k < P) :
    (List.range k).flatMap (fun r => slice n r P) = List.range (k * (n.toNat / P)) := by
  induction k with
  | zero => simp
  | succ k ih =>
    rw [List.range_succ, List.flatMap_append, ih (by omega)]
    simp only [List.flatMap_cons, List.flatMap_nil, List.append_nil]
    rw [slice_of_nonneg n k P hn, if_neg (by omega), List.range_eq_range', List.range_eq_range']
    have := List.range'_append 0 (k * (n.toNat / P)) (n.toNat / P) 1
    simp only [Nat.zero_add, Nat.one_mul] at this
    rw [this]
    congr 1
    rw [Nat.add_mul]; omega

theorem slices_concat (n : Int) (P : Nat) (hP : 1 ≤ P) :
    (List.range P).flatMap (fun r => slice n r P) = List.range n.toNat := by
  by_cases hn : 0 ≤ n
  · obtain ⟨k, rfl⟩ : ∃ k, P = k + 1 := ⟨P - 1, by omega⟩
    rw [List.range_succ, List.flatMap_append, slices_prefix n (k + 1) k hn (by omega)]
    simp only [List.flatMap_cons, List.flatMap_nil, List.append_nil]
    rw [slice_of_nonneg n k (k + 1) hn, if_pos rfl, List.range_eq_range', List.range_eq_range']
    have hle : k * (n.toNat / (k + 1)) ≤ n.toNat := by
      calc k * (n.toNat / (k + 1)) ≤ (k + 1) * (n.toNat / (k + 1)) :=
            Nat.mul_le_mul_right _ (by omega)
        _ ≤ n.toNat := Nat.mul_div_le _ _
    have := List.range'_append 0 (k * (n.toNat / (k + 1)))
      (n.toNat - k * (n.toNat / (k + 1))) 1
    simp only [Nat.zero_add, Nat.one_mul] at this
    rw [this]
    congr 1
    omega
  · have hn' : n < 0 := lt_of_not_le hn
    have h0 : n.toNat = 0 := Int.toNat_eq_zero.2 (le_of_lt hn')
    rw [h0]
    simp only [List.range_zero]
    apply List.flatMap_eq_nil_iff.2
    intro r _
    exact slice_of_neg n r P hn'

theorem mem_slice_lt (n : Int) (r P : Nat) (hP : 1 ≤ P) (hr : r < P) (v : Nat)
    (hv : v ∈ slice n r P) : v < n.toNat := by
  have : v ∈ (List.range P).flatMap (fun r => slice n r P) :=
    List.mem_flatMap.2 ⟨r, List.mem_range.2 hr, hv⟩
  rw [slices_concat n P hP] at this
  exact List.mem_range.1 this

end MPI
end Dijkstra

namespace Dijkstra

theorem extract_min_eq (n : Int) (d : List Int) (vis : List Bool)
    (hd : d.length = n.toNat) (hv : vis.length = n.toNat) :
    extract_min n d vis = some ((List.range n.toNat).foldl (scan_fn d vis) (INF, -1)) := by
  unfold extract_min
  apply scan_foldlM
  · intro v h; rw [hd]; exact List.mem_range.1 h
  · intro v h; rw [hv]; exact List.mem_range.1 h

theorem dist_at_le_INF (d : List Int) (hint : ∀ x ∈ d, x ≤ INF) (v : Nat) :
    dist_at d v ≤ INF := by
  unfold dist_at
  rw [List.getD_eq_getElem?_getD]
  by_cases h : v < d.length
  · rw [List.getElem?_eq_getElem h]
    exact hint _ (List.getElem_mem h)
  · rw [List.getElem?_eq_none (Nat.le_of_not_lt h)]
    exact le_refl _

/-- Characterisation of the scan over `0 .. n - 1` started from `(INF, -1)`. -/
theorem scan_range_spec (d : List Int) (vis : List Bool) (N : Nat) :
    ((List.range N).foldl (scan_fn d vis) (INF, -1) = (INF, -1) ∧
      ∀ v, v < N → vis_at vis v = false → INF ≤ dist_at d v) ∨
    (∃ v0, v0 < N ∧ (List.range N).foldl (scan_fn d vis) (INF, -1) = (dist_at d v0, (v0 : Int)) ∧
      vis_at vis v0 = false ∧ dist_at d v0 < INF ∧
      (∀ v, v < N → vis_at vis v = false → dist_at d v0 ≤ dist_at d v) ∧
      (∀ v, v < N → vis_at vis v = false → dist_at d v = dist_at d v0 → v0 ≤ v)) := by
  rcases scan_foldl_spec d vis (List.range N) (INF, -1) with
    ⟨h1, h2⟩ | ⟨v0, hv0, h1, h2, h3, h4, h5⟩
  · left
    exact ⟨h1, fun v hv => h2 v (List.mem_range.2 hv)⟩
  · right
    refine ⟨v0, List.mem_range.1 hv0, h1, h2, h3, fun v hv => h4 v (List.mem_range.2 hv), ?_⟩
    intro v hv
    exact h5 (List.pairwise_lt_range N) v (List.mem_range.2 hv)

namespace MPI

theorem pick_fold_eq_scan (n : Int) (P : Nat) (d : List Int) (vis : List Bool) (k : Nat) :
    ((List.range k).map (fun r => (slice n r P).foldl (scan_fn d vis) (INF, -1))).foldl
        pick (INF, -1) =
      ((List.range k).flatMap (fun r => slice n r P)).foldl (scan_fn d vis) (INF, -1) := by
  induction k with
  | zero => simp
  | succ k ih =>
    rw [List.range_succ, List.map_append, List.foldl_append, ih, List.flatMap_append,
      List.foldl_append]
    simp only [List.map_cons, List.map_nil, List.foldl_cons, List.foldl_nil,
      List.flatMap_cons, List.flatMap_nil, List.append_nil]
    rw [scan_foldl_pick d vis (slice n k P) _ (scan_foldl_fresh d vis _).1]

theorem global_min_eq (g : Graph) (P : Nat) (hP : 1 ≤ P) (d : List Int) (vis : List Bool)
    (hd : d.length = g.num_nodes.toNat) (hv : vis.length = g.num_nodes.toNat) :
    global_min g P (List.replicate P { distances := d, visited := vis }) =
      some ((List.range g.num_nodes.toNat).foldl (scan_fn d vis) (INF, -1)) := by
  unfold global_min
  have hloc : ∀ r ∈ List.range P,
      (do
        let st ← (List.replicate P ({ distances := d, visited := vis } : RankState))[r]?
        local_scan g r P st) =
      some ((slice g.num_nodes r P).foldl (scan_fn d vis) (INF, -1)) := by
    intro r hr
    have hr' := List.mem_range.1 hr
    simp only [List.getElem?_replicate, hr', if_true, Option.some_bind, local_scan]
    apply scan_foldlM
    · intro v h; rw [hd]; exact mem_slice_lt _ r P hP hr' v h
    · intro v h; rw [hv]; exact mem_slice_lt _ r P hP hr' v h
  rw [all_some_map _ _ _ hloc]
  have hfold := (foldlM_eq_foldl (fun _ => True)
    (pick_step ((List.range P).map (fun r =>
      (slice g.num_nodes r P).foldl (scan_fn d vis) (INF, -1))))
    pick (fun r => (slice g.num_nodes r P).foldl (scan_fn d vis) (INF, -1)) (List.range P)
    (by
      intro s _ i hi
      have hi' := List.mem_range.1 hi
      unfold pick_step pick
      simp only [List.getElem?_map, List.getElem?_range hi', Option.map_some',
        Option.bind_eq_bind, Option.some_bind, Option.pure_def]
      split_ifs <;> rfl)
    (fun _ _ _ _ => trivial) (INF, -1) trivial).1
  rw [← slices_concat _ P hP, ← pick_fold_eq_scan]
  exact hfold

end MPI
end Dijkstra

namespace Dijkstra

/-! ## Neighbor lists of a well-formed graph -/

theorem neighbors_spec (g : Graph) (u : Nat) (L : List Edge) (h : neighbors g u = some L) :
    ∃ sz blk, g.adj_size[u]? = some sz ∧ g.adj_list[u]? = some blk ∧ 0 ≤ sz ∧
      L.length = sz.toNat ∧ ∀ i, i < L.length → blk[i]? = some (some (L.getD i ⟨0, 0⟩)) := by
  unfold neighbors at h
  cases hs : g.adj_size[u]? with
  | none => simp [hs] at h
  | some sz =>
    cases hb : g.adj_list[u]? with
    | none => simp [hs, hb] at h
    | some blk =>
      simp only [hs, hb, Option.bind_eq_bind, Option.some_bind] at h
      by_cases hc : 0 ≤ sz ∧ sz.toNat ≤ blk.length
      · rw [if_pos hc] at h
        have ht := all_some_eq_some _ _ h
        have hlen : L.length = sz.toNat := by
          have := congrArg List.length ht
          simp only [List.length_take, List.length_map] at this
          omega
        refine ⟨sz, blk, rfl, rfl, hc.1, hlen, ?_⟩
        intro i hi
        have h1 : (blk.take sz.toNat)[i]? = blk[i]? := by
          rw [List.getElem?_take, if_pos (by omega)]
        rw [← h1, ht, List.getElem?_map, List.getElem?_eq_getElem hi]
        simp [List.getD_eq_getElem?_getD, List.getElem?_eq_getElem hi]
      · rw [if_neg hc] at h
        exact absurd h (by simp)

theorem WF.neighbors_eq {g : Graph} (hg : WF g) {u : Nat} (hu : u < g.num_nodes.toNat) :
    neighbors g u = some (nbrs g u) := by
  have := (hg.2.2 u hu).1
  unfold nbrs
  cases h : neighbors g u with
  | none => simp [h] at this
  | some L => simp

theorem WF.dest_lt {g : Graph} (hg : WF g) {u : Nat} (hu : u < g.num_nodes.toNat)
    {e : Edge} (he : e ∈ nbrs g u) : 0 ≤ e.dest ∧ e.dest.toNat < g.num_nodes.toNat := by
  have := (hg.2.2 u hu).2 e he
  refine ⟨this.1, ?_⟩
  have h2 := this.2
  omega

/-- The reads `adj_size[u]` and `adj_list[u][i]` of a well-formed graph. -/
theorem WF.reads {g : Graph} (hg : WF g) {u : Nat} (hu : u < g.num_nodes.toNat) :
    ∃ sz blk, rd g.adj_size (u : Int) = some sz ∧ rd g.adj_list (u : Int) = some blk ∧
      sz.toNat = (nbrs g u).length ∧ 0 ≤ sz ∧
      ∀ i, i < (nbrs g u).length → blk[i]? = some (some ((nbrs g u).getD i ⟨0, 0⟩)) := by
  obtain ⟨sz, blk, h1, h2, h3, h4, h5⟩ := neighbors_spec g u _ (hg.neighbors_eq hu)
  exact ⟨sz, blk, by rw [rd_natCast, h1], by rw [rd_natCast, h2], h4.symm, h3, h5⟩

theorem getD_mem {α : Type} (l : List α) (i : Nat) (x : α) (h : i < l.length) :
    l.getD i x ∈ l := by
  rw [List.getD_eq_getElem?_getD, List.getElem?_eq_getElem h]
  exact List.getElem_mem h

/-! ## The relax iteration -/

theorem relax_fn_length (vis : List Bool) (base : Int) (d : List Int) (e : Edge) :
    (relax_fn vis base d e).length = d.length := by
  unfold relax_fn
  split_ifs <;> simp

theorem dist_at_relax_fn (vis : List Bool) (base : Int) (d : List Int) (e : Edge) (v : Nat)
    (h0 : 0 ≤ e.dest) (hd : e.dest.toNat < d.length) :
    dist_at (relax_fn vis base d e) v =
      if vis_at vis v = false ∧ base ≠ INF then
        (if e.dest = (v : Int) ∧ wrap32 (base + e.weight) < dist_at d v
          then wrap32 (base + e.weight) else dist_at d v)
      else dist_at d v := by
  unfold relax_fn
  by_cases hev : e.dest = (v : Int)
  · have hv : e.dest.toNat = v := by omega
    subst hv
    by_cases hc : vis_at vis e.dest.toNat = false ∧ base ≠ INF ∧
        wrap32 (base + e.weight) < dist_at d e.dest.toNat
    · rw [if_pos hc, dist_at_set, if_pos ⟨rfl, hd⟩, if_pos ⟨hc.1, hc.2.1⟩, if_pos ⟨hev, hc.2.2⟩]
    · rw [if_neg hc]
      by_cases hc2 : vis_at vis e.dest.toNat = false ∧ base ≠ INF
      · rw [if_pos hc2, if_neg]
        intro h; exact hc ⟨hc2.1, hc2.2, h.2⟩
      · rw [if_neg hc2]
  · have hv : e.dest.toNat ≠ v := by omega
    have : dist_at (if vis_at vis e.dest.toNat = false ∧ base ≠ INF ∧
        wrap32 (base + e.weight) < dist_at d e.dest.toNat
        then d.set e.dest.toNat (wrap32 (base + e.weight)) else d) v = dist_at d v := by
      split_ifs
      · rw [dist_at_set, if_neg (fun h => hv h.1)]
      · rfl
    rw [this]
    split_ifs <;> simp_all

/-- Pointwise value of the relax loop over the entries `L`. -/
theorem dist_at_relax_fold (vis : List Bool) (base : Int) (L : List Edge) (d : List Int)
    (hL : ∀ e ∈ L, 0 ≤ e.dest ∧ e.dest.toNat < d.length) (v : Nat) :
    (L.foldl (relax_fn vis base) d).length = d.length ∧
    dist_at (L.foldl (relax_fn vis base) d) v =
      if vis_at vis v = false ∧ base ≠ INF then cand_min base L v (dist_at d v)
      else dist_at d v := by
  induction L generalizing d with
  | nil => simp [cand_min]
  | cons e t ih =>
    have he := hL e (List.mem_cons_self _ _)
    have hlen := relax_fn_length vis base d e
    have ih' := ih (relax_fn vis base d e) (fun e' he' => by
      rw [hlen]; exact hL e' (List.mem_cons_of_mem _ he'))
    simp only [List.foldl_cons]
    refine ⟨by rw [ih'.1, hlen], ?_⟩
    rw [ih'.2, dist_at_relax_fn vis base d e v he.1 he.2]
    by_cases hc : vis_at vis v = false ∧ base ≠ INF
    · simp only [if_pos hc, cand_min, List.foldl_cons]
    · simp only [if_neg hc]

theorem cand_min_le (base : Int) (L : List Edge) (v : Nat) (x : Int) :
    cand_min base L v x ≤ x := by
  induction L generalizing x with
  | nil => simp [cand_min]
  | cons e t ih =>
    simp only [cand_min, List.foldl_cons]
    split_ifs with h
    · exact le_trans (ih _) (le_of_lt h.2)
    · exact ih _

theorem cand_min_cases (base : Int) (L : List Edge) (v : Nat) (x : Int) :
    cand_min base L v x = x ∨
      ∃ e ∈ L, e.dest = (v : Int) ∧ cand_min base L v x = wrap32 (base + e.weight) ∧
        wrap32 (base + e.weight) < x := by
  induction L generalizing x with
  | nil => left; simp [cand_min]
  | cons e t ih =>
    simp only [cand_min, List.foldl_cons]
    split_ifs with h
    · right
      rcases ih (wrap32 (base + e.weight)) with h1 | ⟨e', he', h1, h2, h3⟩
      · exact ⟨e, List.mem_cons_self _ _, h.1, h1, h.2⟩
      · exact ⟨e', List.mem_cons_of_mem _ he', h1, h2, lt_trans h3 h.2⟩
    · rcases ih x with h1 | ⟨e', he', h1, h2, h3⟩
      · left; exact h1
      · right; exact ⟨e', List.mem_cons_of_mem _ he', h1, h2, h3⟩

theorem cand_min_le_cand (base : Int) (L : List Edge) (v : Nat) (x : Int) (e : Edge)
    (he : e ∈ L) (hv : e.dest = (v : Int)) :
    cand_min base L v x ≤ wrap32 (base + e.weight) := by
  induction L generalizing x with
  | nil => simp at he
  | cons a t ih =>
    simp only [cand_min, List.foldl_cons]
    rcases List.mem_cons.1 he with rfl | he'
    · split_ifs with h
      · exact cand_min_le _ _ _ _
      · have : x ≤ wrap32 (base + e.weight) := by
          by_contra hc
          exact h ⟨hv, lt_of_not_le hc⟩
        exact le_trans (cand_min_le _ _ _ _) this
    · exact ih _ he'

theorem cand_min_append (base : Int) (L1 L2 : List Edge) (v : Nat) (x : Int) :
    cand_min base (L1 ++ L2) v x = cand_min base L2 v (cand_min base L1 v x) := by
  simp [cand_min, List.foldl_append]

theorem cand_min_min (base : Int) (L : List Edge) (v : Nat) (a b : Int) :
    cand_min base L v (min a b) = min (cand_min base L v a) b := by
  induction L generalizing a with
  | nil => simp [cand_min]
  | cons e t ih =>
    simp only [cand_min, List.foldl_cons]
    have key : (if e.dest = (v : Int) ∧ wrap32 (base + e.weight) < min a b
        then wrap32 (base + e.weight) else min a b) =
        min (if e.dest = (v : Int) ∧ wrap32 (base + e.weight) < a
          then wrap32 (base + e.weight) else a) b := by
      by_cases h1 : e.dest = (v : Int)
      · simp only [h1, true_and]
        split_ifs with h2 h3 h3
        · rw [min_eq_left]; exact le_of_lt (lt_of_lt_of_le h2 (min_le_right _ _))
        · exact absurd (lt_of_lt_of_le h2 (min_le_left _ _)) h3
        · have : b ≤ wrap32 (base + e.weight) := by
            by_contra hc
            exact h2 (lt_min h3 (lt_of_not_le hc))
          rw [min_eq_right this, min_eq_right (le_trans this (le_of_lt h3))]
        · rfl
      · simp [h1]
    rw [key]
    exact ih _

end Dijkstra

namespace Dijkstra

/-! ## One round of the sequential engine -/

theorem relax_step_eq (g : Graph) (hg : WF g) (u : Nat) (hu : u < g.num_nodes.toNat)
    (vis : List Bool) (hv : vis.length = g.num_nodes.toNat) (d : List Int)
    (hd : d.length = g.num_nodes.toNat) (i : Nat) (hi : i < (nbrs g u).length) :
    relax_step g vis (u : Int) d i =
      some (relax_fn vis (dist_at d u) d ((nbrs g u).getD i ⟨0, 0⟩)) := by
  obtain ⟨sz, blk, _, h2, _, _, h5⟩ := hg.reads hu
  have he := hg.dest_lt hu (getD_mem (nbrs g u) i ⟨0, 0⟩ hi)
  have h5' := h5 i hi
  generalize (nbrs g u).getD i ⟨0, 0⟩ = e at he h5' ⊢
  have hrv : rd vis e.dest = some (vis_at vis e.dest.toNat) := by
    rw [rd, if_pos he.1, getElem?_vis_at vis _ (by omega)]
  have hrd : rd d e.dest = some (dist_at d e.dest.toNat) := by
    rw [rd, if_pos he.1, getElem?_dist_at d _ (by omega)]
  have hru : rd d (u : Int) = some (dist_at d u) := by
    rw [rd_natCast, getElem?_dist_at d _ (by omega)]
  have hwr : ∀ x, wr d e.dest x = some (d.set e.dest.toNat x) := by
    intro x; rw [wr, if_pos ⟨he.1, by omega⟩]
  unfold relax_step relax_fn
  simp only [h2, h5', hrv, hrd, hru, hwr, Option.bind_eq_bind, Option.some_bind,
    Option.pure_def]
  cases hvv : vis_at vis e.dest.toNat
  · by_cases hb : dist_at d u = INF
    · simp [hb]
    · by_cases hc : wrap32 (dist_at d u + e.weight) < dist_at d e.dest.toNat
      · simp [hb, hc]
      · simp [hb, hc]
  · simp

theorem relax_fn_keeps (vis : List Bool) (base : Int) (d : List Int) (e : Edge) (u : Nat)
    (hu : vis_at vis u = true) : dist_at (relax_fn vis base d e) u = dist_at d u := by
  unfold relax_fn
  split_ifs with h
  · rw [dist_at_set, if_neg]
    rintro ⟨h1, _⟩
    rw [h1, hu] at h
    exact absurd h.1 (by simp)
  · rfl

/-- The relax loop over any index order, as a pure fold. -/
theorem relax_foldlM (g : Graph) (hg : WF g) (u : Nat) (hu : u < g.num_nodes.toNat)
    (vis : List Bool) (hv : vis.length = g.num_nodes.toNat) (hvu : vis_at vis u = true)
    (d : List Int) (hd : d.length = g.num_nodes.toNat) (idxs : List Nat)
    (hidx : ∀ i ∈ idxs, i < (nbrs g u).length) :
    idxs.foldlM (relax_step g vis (u : Int)) d =
      some ((idxs.map (fun i => (nbrs g u).getD i ⟨0, 0⟩)).foldl
        (relax_fn vis (dist_at d u)) d) := by
  refine (foldlM_eq_foldl
    (fun s => s.length = g.num_nodes.toNat ∧ dist_at s u = dist_at d u)
    (relax_step g vis (u : Int)) (relax_fn vis (dist_at d u))
    (fun i => (nbrs g u).getD i ⟨0, 0⟩) idxs ?_ ?_ d ⟨hd, rfl⟩).1
  · intro s hs i hi
    rw [relax_step_eq g hg u hu vis hv s hs.1 i (hidx i hi), hs.2]
  · intro s hs i _
    exact ⟨by rw [relax_fn_length, hs.1], by rw [relax_fn_keeps _ _ _ _ _ hvu, hs.2]⟩

theorem relax_eq (g : Graph) (hg : WF g) (u : Nat) (hu : u < g.num_nodes.toNat)
    (vis : List Bool) (hv : vis.length = g.num_nodes.toNat) (hvu : vis_at vis u = true)
    (d : List Int) (hd : d.length = g.num_nodes.toNat) :
    relax g vis (u : Int) d = some ((nbrs g u).foldl (relax_fn vis (dist_at d u)) d) := by
  obtain ⟨sz, blk, h1, _, h3, _, _⟩ := hg.reads hu
  unfold relax
  simp only [h1, Option.bind_eq_bind, Option.some_bind, h3]
  rw [relax_foldlM g hg u hu vis hv hvu d hd _ (fun i hi => List.mem_range.1 hi),
    map_getD_range]

theorem round_eq (g : Graph) (hg : WF g) (d : List Int) (vis : List Bool)
    (hd : d.length = g.num_nodes.toNat) (hv : vis.length = g.num_nodes.toNat) :
    round g (d, vis) = some (round_fn g d vis) := by
  unfold round round_fn
  simp only [extract_min_eq g.num_nodes d vis hd hv, Option.bind_eq_bind, Option.some_bind]
  rcases scan_range_spec d vis g.num_nodes.toNat with ⟨h1, _⟩ | ⟨u, hu, h1, h2, _, _, _⟩
  · simp [h1]
  · rw [h1]
    have hne : ¬ ((u : Int) = -1) := by omega
    simp only [hne, if_false, Int.toNat_natCast]
    rw [wr_natCast vis u true (by omega)]
    simp only [Option.some_bind]
    rw [relax_eq g hg u hu _ (by simp [hv]) (by rw [vis_at_set]; simp; omega) d hd]
    rfl

theorem round_fn_post (g : Graph) (d : List Int) (vis : List Bool) :
    RoundPost g d vis (round_fn g d vis) := by
  unfold round_fn
  rcases scan_range_spec d vis g.num_nodes.toNat with ⟨h1, h2⟩ | ⟨u, hu, h1, h2, h3, h4, _⟩
  · simp only [h1, if_true]
    exact h2
  · rw [h1]
    have hne : ¬ ((u : Int) = -1) := by omega
    simp only [hne, if_false, Int.toNat_natCast]
    exact ⟨u, hu, h2, h3, h4, rfl, nbrs g u, List.Perm.refl _, rfl⟩

end Dijkstra

namespace Dijkstra

/-! ## The distributed round against the sequential round -/

theorem list_ext_dist_at (a b : List Int) (hlen : a.length = b.length)
    (h : ∀ v, v < a.length → dist_at a v = dist_at b v) : a = b := by
  apply List.ext_getElem hlen
  intro i h1 h2
  have := h i h1
  unfold dist_at at this
  rw [List.getD_eq_getElem?_getD, List.getD_eq_getElem?_getD, List.getElem?_eq_getElem h1,
    List.getElem?_eq_getElem h2] at this
  simpa using this

theorem dist_at_zipWith_min (a b : List Int) (v : Nat) (ha : v < a.length)
    (hb : v < b.length) :
    dist_at (List.zipWith min a b) v = min (dist_at a v) (dist_at b v) := by
  unfold dist_at
  simp only [List.getD_eq_getElem?_getD, List.getElem?_zipWith, List.getElem?_eq_getElem ha,
    List.getElem?_eq_getElem hb, Option.getD_some]

theorem zipWith_min_relax (vis : List Bool) (base : Int) (A B : List Edge) (d : List Int)
    (hA : ∀ e ∈ A, 0 ≤ e.dest ∧ e.dest.toNat < d.length)
    (hB : ∀ e ∈ B, 0 ≤ e.dest ∧ e.dest.toNat < d.length) :
    List.zipWith min (A.foldl (relax_fn vis base) d) (B.foldl (relax_fn vis base) d) =
      (A ++ B).foldl (relax_fn vis base) d := by
  have hAB : ∀ e ∈ A ++ B, 0 ≤ e.dest ∧ e.dest.toNat < d.length := by
    intro e he
    rcases List.mem_append.1 he with h | h
    · exact hA e h
    · exact hB e h
  have lA := fun v => dist_at_relax_fold vis base A d hA v
  have lB := fun v => dist_at_relax_fold vis base B d hB v
  have lAB := fun v => dist_at_relax_fold vis base (A ++ B) d hAB v
  apply list_ext_dist_at
  · rw [List.length_zipWith, (lA 0).1, (lB 0).1, (lAB 0).1]; simp
  · intro v hv
    rw [List.length_zipWith, (lA 0).1, (lB 0).1] at hv
    have hv' : v < d.length := by simpa using hv
    rw [dist_at_zipWith_min _ _ v (by rw [(lA 0).1]; exact hv') (by rw [(lB 0).1]; exact hv'),
      (lA v).2, (lB v).2, (lAB v).2]
    by_cases hc : vis_at vis v = false ∧ base ≠ INF
    · simp only [if_pos hc]
      rw [cand_min_append, min_comm, ← cand_min_min,
        min_eq_right (cand_min_le base A v (dist_at d v))]
    · simp only [if_neg hc, min_self]

namespace MPI

theorem allreduce_relax (vis : List Bool) (base : Int) (sl : Nat → List Edge) (d : List Int)
    (k : Nat) (hsl : ∀ r, r < k + 1 → ∀ e ∈ sl r, 0 ≤ e.dest ∧ e.dest.toNat < d.length) :
    allreduce_min ((List.range (k + 1)).map (fun r => (sl r).foldl (relax_fn vis base) d)) =
      ((List.range (k + 1)).flatMap sl).foldl (relax_fn vis base) d := by
  have key : ∀ j, j ≤ k →
      ((List.range j).map (fun r => (sl (r + 1)).foldl (relax_fn vis base) d)).foldl
        (fun acc x => List.zipWith min acc x) ((sl 0).foldl (relax_fn vis base) d) =
      ((List.range (j + 1)).flatMap sl).foldl (relax_fn vis base) d := by
    intro j
    induction j with
    | zero =>
      intro _
      rw [show List.range (0 + 1) = [0] from rfl]
      simp
    | succ j ih =>
      intro hj
      rw [List.range_succ, List.map_append, List.foldl_append, ih (by omega)]
      simp only [List.map_cons, List.map_nil, List.foldl_cons, List.foldl_nil]
      rw [zipWith_min_relax]
      · rw [List.range_succ (j + 1), List.flatMap_append]
        simp
      · intro e he
        obtain ⟨r, hr, her⟩ := List.mem_flatMap.1 he
        exact hsl r (by have := List.mem_range.1 hr; omega) e her
      · exact hsl (j + 1) (by omega)
  have hmap : (List.range (k + 1)).map (fun r => (sl r).foldl (relax_fn vis base) d) =
      (sl 0).foldl (relax_fn vis base) d ::
        (List.range k).map (fun r => (sl (r + 1)).foldl (relax_fn vis base) d) := by
    rw [List.range_succ_eq_map, List.map_cons, List.map_map]
    rfl
  rw [hmap, allreduce_min]
  exact key k (le_refl k)

theorem rank_relax_eq (g : Graph) (hg : WF g) (P : Nat) (hP : 1 ≤ P) (r : Nat) (hr : r < P)
    (u : Nat) (hu : u < g.num_nodes.toNat) (d : List Int) (vis : List Bool)
    (hd : d.length = g.num_nodes.toNat) (hv : vis.length = g.num_nodes.toNat) :
    rank_relax g r P (u : Int) { distances := d, visited := vis } =
      some { distances :=
              ((slice ((nbrs g u).length : Int) r P).map
                (fun i => (nbrs g u).getD i ⟨0, 0⟩)).foldl
                (relax_fn (vis.set u true) (dist_at d u)) d
             visited := vis.set u true } := by
  obtain ⟨sz, blk, h1, _, h3, h4, _⟩ := hg.reads hu
  have hsz : sz = ((nbrs g u).length : Int) := by omega
  unfold rank_relax
  simp only [wr_natCast vis u true (by omega), h1, Option.bind_eq_bind, Option.some_bind]
  rw [hsz, relax_foldlM g hg u hu (vis.set u true) (by simp [hv])
    (by rw [vis_at_set]; simp; omega) d hd]
  · rfl
  · intro i hi
    have := mem_slice_lt _ r P hP hr i hi
    simpa using this

theorem mpi_round_eq (g : Graph) (hg : WF g) (P : Nat) (hP : 1 ≤ P) (d : List Int)
    (vis : List Bool) (hd : d.length = g.num_nodes.toNat)
    (hv : vis.length = g.num_nodes.toNat) :
    MPI.round g P (List.replicate P { distances := d, visited := vis }) =
      some ((round_fn g d vis).map
        (fun st => List.replicate P { distances := st.1, visited := st.2 })) := by
  unfold MPI.round round_fn
  simp only [global_min_eq g P hP d vis hd hv, Option.bind_eq_bind, Option.some_bind]
  rcases scan_range_spec d vis g.num_nodes.toNat with ⟨h1, _⟩ | ⟨u, hu, h1, h2, h3, _, _⟩
  · simp [h1]
  · rw [h1]
    have hne : ¬ ((u : Int) = -1) := by omega
    have hne2 : ¬ (dist_at d u = INF ∨ (u : Int) = -1) := by
      rintro (h | h)
      · omega
      · exact hne h
    dsimp only
    rw [if_neg hne2, if_neg hne]
    simp only [Int.toNat_natCast, Option.map_some']
    have hloc : ∀ r ∈ List.range P,
        ((List.replicate P ({ distances := d, visited := vis } : RankState))[r]?.bind
          fun st => rank_relax g r P (u : Int) st) =
        some ({ distances :=
                  ((slice ((nbrs g u).length : Int) r P).map
                    (fun i => (nbrs g u).getD i ⟨0, 0⟩)).foldl
                    (relax_fn (vis.set u true) (dist_at d u)) d
                visited := vis.set u true } : RankState) := by
      intro r hr
      have hr' := List.mem_range.1 hr
      simp only [List.getElem?_replicate, hr', if_true, Option.bind_eq_bind, Option.some_bind]
      exact rank_relax_eq g hg P hP r hr' u hu d vis hd hv
    rw [all_some_map _ _ _ hloc]
    simp only [Option.some_bind, Option.pure_def, List.map_map]
    obtain ⟨k, rfl⟩ : ∃ k, P = k + 1 := ⟨P - 1, by omega⟩
    have hred := allreduce_relax (vis.set u true) (dist_at d u)
      (fun r => (slice ((nbrs g u).length : Int) r (k + 1)).map
        (fun i => (nbrs g u).getD i ⟨0, 0⟩)) d k (by
        intro r hr e he
        obtain ⟨i, hi, rfl⟩ := List.mem_map.1 he
        have hlt := mem_slice_lt _ r (k + 1) hP hr i hi
        rw [hd]
        exact hg.dest_lt hu (getD_mem _ _ _ (by simpa using hlt)))
    have hcat : (List.range (k + 1)).flatMap (fun r =>
        (slice ((nbrs g u).length : Int) r (k + 1)).map
          (fun i => (nbrs g u).getD i ⟨0, 0⟩)) = nbrs g u := by
      have := slices_concat ((nbrs g u).length : Int) (k + 1) hP
      rw [← List.map_flatMap, this]
      simpa using map_getD_range (nbrs g u) ⟨0, 0⟩
    rw [hcat] at hred
    simp only [Function.comp_def]
    rw [hred]
    simp
end MPI
end Dijkstra

namespace Dijkstra

/-! ## The round loop -/

theorem round_fn_lengths (g : Graph) (hg : WF g) (d : List Int) (vis : List Bool)
    (hd : d.length = g.num_nodes.toNat) (hv : vis.length = g.num_nodes.toNat)
    (st1 : List Int × List Bool) (h : round_fn g d vis = some st1) :
    st1.1.length = g.num_nodes.toNat ∧ st1.2.length = g.num_nodes.toNat := by
  unfold round_fn at h
  rcases scan_range_spec d vis g.num_nodes.toNat with ⟨h1, _⟩ | ⟨u, hu, h1, _, _, _, _⟩
  · simp [h1] at h
  · rw [h1] at h
    have hne : ¬ ((u : Int) = -1) := by omega
    dsimp only at h
    rw [if_neg hne] at h
    simp only [Int.toNat_natCast, Option.some.injEq] at h
    subst h
    refine ⟨?_, by simp [hv]⟩
    rw [(dist_at_relax_fold _ _ (nbrs g u) d (fun e he => by
      rw [hd]; exact hg.dest_lt hu he) 0).1, hd]

theorem init_state_eq (g : Graph) (source : Int) (h0 : 0 ≤ source)
    (h1 : source < g.num_nodes) :
    init_state g source =
      some ((List.replicate g.num_nodes.toNat INF).set source.toNat 0,
        List.replicate g.num_nodes.toNat false) := by
  unfold init_state
  have : wr (List.replicate g.num_nodes.toNat INF) source 0 =
      some ((List.replicate g.num_nodes.toNat INF).set source.toNat 0) := by
    rw [wr, if_pos]
    refine ⟨h0, ?_⟩
    simp only [List.length_replicate]
    omega
  rw [this]
  rfl

theorem mpi_loop_eq (g : Graph) (hg : WF g) (P : Nat) (hP : 1 ≤ P) (fuel : Nat) :
    ∀ (c1 c2 : Nat) (d : List Int) (vis : List Bool),
      d.length = g.num_nodes.toNat → vis.length = g.num_nodes.toNat →
      ∃ fin : List Int × List Bool,
        for_break (fun _ st => round g st) fuel c1 (d, vis) = some fin ∧
        for_break (fun _ sts => MPI.round g P sts) fuel c2
          (List.replicate P { distances := d, visited := vis }) =
          some (List.replicate P { distances := fin.1, visited := fin.2 }) := by
  induction fuel with
  | zero => intro c1 c2 d vis _ _; exact ⟨(d, vis), rfl, rfl⟩
  | succ k ih =>
    intro c1 c2 d vis hd hv
    unfold for_break
    simp only [round_eq g hg d vis hd hv, MPI.mpi_round_eq g hg P hP d vis hd hv]
    cases hr : round_fn g d vis with
    | none => exact ⟨(d, vis), rfl, rfl⟩
    | some st1 =>
      obtain ⟨l1, l2⟩ := round_fn_lengths g hg d vis hd hv st1 hr
      exact ih (c1 + 1) (c2 + 1) st1.1 st1.2 l1 l2

end Dijkstra

namespace Dijkstra

/-! ## Walks -/

theorem IsWalk.snoc {g : Graph} {a b : Nat} {p : List Edge} (h : IsWalk g a p b) {e : Edge}
    (he : e ∈ nbrs g b) : IsWalk g a (p ++ [e]) e.dest.toNat := by
  induction p generalizing a with
  | nil =>
    simp only [IsWalk] at h
    subst h
    exact ⟨he, rfl⟩
  | cons x t ih =>
    exact ⟨h.1, ih h.2⟩

theorem walk_weight_snoc (p : List Edge) (e : Edge) :
    walk_weight (p ++ [e]) = walk_weight p + e.weight := by
  simp [walk_weight]

theorem Reachable.refl (g : Graph) (s : Nat) : Reachable g s s := ⟨[], rfl⟩

theorem Reachable.step {g : Graph} {s u : Nat} (h : Reachable g s u) {e : Edge}
    (he : e ∈ nbrs g u) : Reachable g s e.dest.toNat := by
  obtain ⟨p, hp⟩ := h
  exact ⟨p ++ [e], hp.snoc he⟩

/-- A set of nodes that contains `s` and is closed under the neighbor lists contains
every node reachable from `s`. -/
theorem not_reachable_of_closed (g : Graph) (S : Nat → Bool) (s v : Nat) (hs : S s = true)
    (hcl : ∀ u, S u = true → ∀ e ∈ nbrs g u, S e.dest.toNat = true) (hv : S v = false) :
    ¬ Reachable g s v := by
  rintro ⟨p, hp⟩
  have : ∀ (p : List Edge) (a : Nat), S a = true → IsWalk g a p v → S v = true := by
    intro p
    induction p with
    | nil => intro a ha h; simp only [IsWalk] at h; rw [← h]; exact ha
    | cons e t ih => intro a ha h; exact ih _ (hcl a ha e h.1) h.2
  rw [this p s hs hp] at hv
  exact absurd hv (by simp)

/-! ## Loops with `break` -/

theorem for_break_inv {σ : Type} (Inv : σ → Prop) (body : Nat → σ → Option (Option σ))
    (h : ∀ c st, Inv st → ∃ r, body c st = some r ∧ ∀ st1, r = some st1 → Inv st1) :
    ∀ fuel c st, Inv st → ∃ fin, for_break body fuel c st = some fin ∧ Inv fin := by
  intro fuel
  induction fuel with
  | zero => intro c st hst; exact ⟨st, rfl, hst⟩
  | succ k ih =>
    intro c st hst
    obtain ⟨r, hr, hr2⟩ := h c st hst
    unfold for_break
    rw [hr]
    cases r with
    | none => exact ⟨st, rfl, hst⟩
    | some st1 => exact ih (c + 1) st1 (hr2 st1 rfl)

theorem for_break_term {σ : Type} (Inv Term : σ → Prop) (μ : σ → Nat)
    (body : Nat → σ → Option (Option σ))
    (h : ∀ c st, Inv st → ∃ r, body c st = some r ∧
      (r = none → Term st) ∧ ∀ st1, r = some st1 → Inv st1 ∧ μ st1 < μ st)
    (h0 : ∀ st, Inv st → μ st = 0 → Term st) :
    ∀ fuel c st, Inv st → μ st ≤ fuel →
      ∃ fin, for_break body fuel c st = some fin ∧ Inv fin ∧ Term fin := by
  intro fuel
  induction fuel with
  | zero =>
    intro c st hst hμ
    exact ⟨st, rfl, hst, h0 st hst (by omega)⟩
  | succ k ih =>
    intro c st hst hμ
    obtain ⟨r, hr, hr1, hr2⟩ := h c st hst
    unfold for_break
    rw [hr]
    cases r with
    | none => exact ⟨st, rfl, hst, hr1 rfl⟩
    | some st1 =>
      obtain ⟨i1, i2⟩ := hr2 st1 rfl
      exact ih (c + 1) st1 i1 (by omega)

/-! ## Only reachable nodes receive a distance -/

theorem cand_step_eq (base : Int) (v : Nat) (m : Int) (e : Edge) :
    (if e.dest = (v : Int) ∧ wrap32 (base + e.weight) < m then wrap32 (base + e.weight)
      else m) = if e.dest = (v : Int) then min m (wrap32 (base + e.weight)) else m := by
  by_cases h : e.dest = (v : Int)
  · simp only [h, true_and, if_true]
    by_cases h2 : wrap32 (base + e.weight) < m
    · rw [if_pos h2, min_eq_right (le_of_lt h2)]
    · rw [if_neg h2, min_eq_left (le_of_not_lt h2)]
  · simp [h]

theorem cand_min_perm (base : Int) {L1 L2 : List Edge} (h : L1.Perm L2) (v : Nat) (x : Int) :
    cand_min base L1 v x = cand_min base L2 v x := by
  unfold cand_min
  apply List.Perm.foldl_eq' h
  intro a _ b _ z
  simp only [cand_step_eq]
  by_cases ha : a.dest = (v : Int) <;> by_cases hb : b.dest = (v : Int) <;>
    simp only [ha, hb, if_true, if_false]
  rw [min_assoc, min_comm (wrap32 (base + a.weight)), ← min_assoc]

/-- Lengths and values after a round described by `RoundPost`. -/
theorem RoundPost.dist {g : Graph} (hg : WF g) {d : List Int} {vis : List Bool}
    (hd : d.length = g.num_nodes.toNat) {st1 : List Int × List Bool}
    (h : RoundPost g d vis (some st1)) :
    ∃ u, u < g.num_nodes.toNat ∧ vis_at vis u = false ∧ dist_at d u < INF ∧
      (∀ v, v < g.num_nodes.toNat → vis_at vis v = false → dist_at d u ≤ dist_at d v) ∧
      st1.2 = vis.set u true ∧ st1.1.length = g.num_nodes.toNat ∧
      ∀ v, dist_at st1.1 v =
        if vis_at (vis.set u true) v = false then
          cand_min (dist_at d u) (nbrs g u) v (dist_at d v)
        else dist_at d v := by
  obtain ⟨u, hu, h1, h2, h3, h4, L, hL, h5⟩ := h
  have hdest : ∀ e ∈ L, 0 ≤ e.dest ∧ e.dest.toNat < d.length := by
    intro e he
    rw [hd]
    exact hg.dest_lt hu (hL.mem_iff.1 he)
  refine ⟨u, hu, h1, h2, h3, h4, ?_, ?_⟩
  · rw [h5, (dist_at_relax_fold _ _ L d hdest 0).1, hd]
  · intro v
    rw [h5, (dist_at_relax_fold _ _ L d hdest v).2]
    have hne : dist_at d u ≠ INF := by omega
    simp only [hne, ne_eq, not_false_eq_true, and_true]
    rw [cand_min_perm _ hL]

end Dijkstra

namespace Dijkstra

theorem dist_at_init (N : Nat) (s v : Nat) :
    dist_at ((List.replicate N INF).set s 0) v = if s = v ∧ s < N then 0 else INF := by
  rw [dist_at_set]
  simp only [List.length_replicate]
  split_ifs
  · rfl
  · unfold dist_at
    rw [List.getD_eq_getElem?_getD, List.getElem?_replicate]
    split_ifs <;> rfl

theorem reach_inv_round (g : Graph) (hg : WF g) (s : Nat) (d : List Int) (vis : List Bool)
    (hd : d.length = g.num_nodes.toNat)
    (hinv : ∀ v, v < g.num_nodes.toNat → dist_at d v ≠ INF → Reachable g s v)
    (st1 : List Int × List Bool) (h : RoundPost g d vis (some st1)) :
    ∀ v, v < g.num_nodes.toNat → dist_at st1.1 v ≠ INF → Reachable g s v := by
  obtain ⟨u, hu, _, h2, _, _, _, h6⟩ := RoundPost.dist hg hd h
  intro v hv hne
  rw [h6 v] at hne
  by_cases hc : vis_at (vis.set u true) v = false
  · rw [if_pos hc] at hne
    rcases cand_min_cases (dist_at d u) (nbrs g u) v (dist_at d v) with h | ⟨e, he, hev, _, _⟩
    · rw [h] at hne
      exact hinv v hv hne
    · have hr : Reachable g s u := hinv u hu (by omega)
      have := hr.step he
      rw [hev, Int.toNat_natCast] at this
      exact this
  · rw [if_neg hc] at hne
    exact hinv v hv hne

end Dijkstra

namespace Dijkstra

/-! ## The stored edge list and the potential -/

theorem mem_adj_of (es : List EdgeRec) (u : Int) (e : Edge) :
    e ∈ adj_of es u ↔ ∃ r ∈ es, (r.u = u ∧ e = ⟨r.v, r.weight⟩) ∨
      (r.v = u ∧ e = ⟨r.u, r.weight⟩) := by
  unfold adj_of
  rw [List.mem_flatMap]
  constructor
  · rintro ⟨r, hr, he⟩
    refine ⟨r, hr, ?_⟩
    rcases List.mem_append.1 he with h | h
    · left
      split_ifs at h with hc
      · exact ⟨hc, by simpa using h⟩
      · simp at h
    · right
      split_ifs at h with hc
      · exact ⟨hc, by simpa using h⟩
      · simp at h
  · rintro ⟨r, hr, h | h⟩
    · exact ⟨r, hr, List.mem_append_left _ (by rw [if_pos h.1]; simp [h.2])⟩
    · exact ⟨r, hr, List.mem_append_right _ (by rw [if_pos h.1]; simp [h.2])⟩

theorem Represents.nbrs_eq {g : Graph} {es : List EdgeRec} (h : Represents g es) {u : Nat}
    (hu : u < g.num_nodes.toNat) : nbrs g u = adj_of es (u : Int) := by
  unfold nbrs
  rw [h u hu]
  rfl

theorem sum_map_le_sum_map {α : Type} (l : List α) (f k : α → Int)
    (h : ∀ a ∈ l, f a ≤ k a) : (l.map f).sum ≤ (l.map k).sum := by
  induction l with
  | nil => simp
  | cons a t ih =>
    simp only [List.map_cons, List.sum_cons]
    have h1 := h a (List.mem_cons_self _ _)
    have h2 := ih (fun b hb => h b (List.mem_cons_of_mem _ hb))
    omega

theorem sum_map_add_le {α : Type} (l : List α) (f k : α → Int) (w : Int)
    (h : ∀ a ∈ l, f a ≤ k a) (r : α) (hr : r ∈ l) (hw : f r + w ≤ k r) :
    (l.map f).sum + w ≤ (l.map k).sum := by
  induction l with
  | nil => simp at hr
  | cons a t ih =>
    simp only [List.map_cons, List.sum_cons]
    have h1 := h a (List.mem_cons_self _ _)
    have ht := fun b hb => h b (List.mem_cons_of_mem _ hb)
    rcases List.mem_cons.1 hr with rfl | hr'
    · have := sum_map_le_sum_map t f k ht
      omega
    · have := ih ht hr'
      omega

theorem pot_le_total (es : List EdgeRec) (hnn : ∀ e ∈ es, 0 ≤ e.weight) (vis : List Bool)
    (x : Nat) : pot es vis x ≤ total_weight es := by
  unfold pot total_weight
  apply sum_map_le_sum_map
  intro e he
  split_ifs
  · exact le_refl _
  · exact hnn e he

theorem in_set_mono (vis : List Bool) (u x : Nat) (a : Int)
    (h : in_set vis x a) : in_set (vis.set u true) x a := by
  unfold in_set at *
  rcases h with h | h
  · left
    rw [vis_at_set]
    split_ifs
    · rfl
    · exact h
  · right; exact h

theorem pot_mono (es : List EdgeRec) (hnn : ∀ e ∈ es, 0 ≤ e.weight) (vis : List Bool)
    (u x : Nat) : pot es vis x ≤ pot es (vis.set u true) x := by
  unfold pot
  apply sum_map_le_sum_map
  intro e he
  by_cases h : in_set vis x e.u ∧ in_set vis x e.v
  · rw [if_pos h, if_pos ⟨in_set_mono vis u x _ h.1, in_set_mono vis u x _ h.2⟩]
  · rw [if_neg h]
    split_ifs
    · exact hnn e he
    · exact le_refl _

/-- Taking an entry `(v, w)` of the newly visited node `u` towards an unvisited node
`v` stays within the potential of `v`. -/
theorem pot_step (es : List EdgeRec) (hnn : ∀ e ∈ es, 0 ≤ e.weight) (vis : List Bool)
    (u v : Nat) (hu : u < vis.length) (huv : u ≠ v) (hv : vis_at vis v = false) (e : Edge)
    (he : e ∈ adj_of es (u : Int)) (hev : e.dest = (v : Int)) :
    0 ≤ e.weight ∧ pot es vis u + e.weight ≤ pot es (vis.set u true) v := by
  obtain ⟨r, hr, hcase⟩ := (mem_adj_of es (u : Int) e).1 he
  have hends : (r.u = (u : Int) ∧ r.v = (v : Int)) ∨ (r.v = (u : Int) ∧ r.u = (v : Int)) := by
    rcases hcase with ⟨h1, h2⟩ | ⟨h1, h2⟩
    · left; refine ⟨h1, ?_⟩; rw [h2] at hev; exact hev
    · right; refine ⟨h1, ?_⟩; rw [h2] at hev; exact hev
  have hw : e.weight = r.weight := by
    rcases hcase with ⟨_, h2⟩ | ⟨_, h2⟩ <;> rw [h2]
  have hsu : in_set (vis.set u true) v (u : Int) := by
    left; rw [vis_at_set, Int.toNat_natCast, if_pos ⟨rfl, hu⟩]
  have hsv : in_set (vis.set u true) v (v : Int) := by
    right; exact Int.toNat_natCast v
  have hnv : ¬ in_set vis u (v : Int) := by
    unfold in_set
    rw [Int.toNat_natCast, hv]
    rintro (h | h)
    · exact absurd h (by simp)
    · exact huv h.symm
  refine ⟨by rw [hw]; exact hnn r hr, ?_⟩
  unfold pot
  refine sum_map_add_le _ _ _ _ ?_ r hr ?_
  · intro a ha
    by_cases h : in_set vis u a.u ∧ in_set vis u a.v
    · have mono : ∀ b, in_set vis u b → in_set (vis.set u true) v b := by
        intro b hb
        unfold in_set at *
        rcases hb with hb | hb
        · left; rw [vis_at_set]; split_ifs
          · rfl
          · exact hb
        · left; rw [vis_at_set, if_pos ⟨hb.symm, hu⟩]
      rw [if_pos h, if_pos ⟨mono _ h.1, mono _ h.2⟩]
    · rw [if_neg h]
      split_ifs
      · exact hnn a ha
      · exact le_refl _
  · rcases hends with ⟨h1, h2⟩ | ⟨h1, h2⟩
    · have hn : ¬ (in_set vis u r.u ∧ in_set vis u r.v) := by
        rw [h2]; exact fun h => hnv h.2
      have hp : in_set (vis.set u true) v r.u ∧ in_set (vis.set u true) v r.v := by
        rw [h1, h2]; exact ⟨hsu, hsv⟩
      rw [if_neg hn, if_pos hp, hw]
      omega
    · have hn : ¬ (in_set vis u r.u ∧ in_set vis u r.v) := by
        rw [h2]; exact fun h => hnv h.1
      have hp : in_set (vis.set u true) v r.u ∧ in_set (vis.set u true) v r.v := by
        rw [h1, h2]; exact ⟨hsv, hsu⟩
      rw [if_neg hn, if_pos hp, hw]
      omega

theorem wrap32_of_range (x : Int) (h0 : 0 ≤ x) (h1 : x < INF) : wrap32 x = x := by
  unfold wrap32
  unfold INF at h1
  omega

end Dijkstra

namespace Dijkstra

/-! ## The loop invariant is kept by every round -/

theorem nbrs_weight_nonneg {g : Graph} {es : List EdgeRec} (hrep : Represents g es)
    (hnn : ∀ e ∈ es, 0 ≤ e.weight) {a : Nat} (ha : a < g.num_nodes.toNat) {e : Edge}
    (he : e ∈ nbrs g a) : 0 ≤ e.weight := by
  rw [hrep.nbrs_eq ha] at he
  obtain ⟨r, hr, h | h⟩ := (mem_adj_of es _ e).1 he
  · rw [h.2]; exact hnn r hr
  · rw [h.2]; exact hnn r hr

theorem DInv.lt_INF {g : Graph} {es : List EdgeRec} {s : Nat} {d : List Int}
    {vis : List Bool} (h : DInv g es s d vis) (hnn : ∀ e ∈ es, 0 ≤ e.weight)
    (hsum : total_weight es < INF) {v : Nat} (hv : v < g.num_nodes.toNat)
    (hne : dist_at d v ≠ INF) : 0 ≤ dist_at d v ∧ dist_at d v < INF := by
  have := h.bd v hv hne
  have := pot_le_total es hnn vis v
  omega

theorem count_false_set (vis : List Bool) (u : Nat) (hu : u < vis.length)
    (hvu : vis_at vis u = false) :
    (vis.set u true).count false < vis.count false := by
  have hget : vis[u] = false := by
    have := getElem?_vis_at vis u hu
    rw [hvu, List.getElem?_eq_getElem hu] at this
    simpa using this
  rw [List.count_set true false vis u hu, hget]
  have hpos : 0 < vis.count false := by
    apply List.count_pos_iff.2
    rw [← hget]
    exact List.getElem_mem hu
  have e1 : ((false : Bool) == false) = true := rfl
  have e2 : ((true : Bool) == false) = false := rfl
  rw [e1, e2]
  simp only [if_true, Bool.false_eq_true, if_false, Nat.add_zero]
  omega

/-- The values of the distance array after a round, with the 32-bit addition resolved. -/
theorem DInv.round_vals {g : Graph} {es : List EdgeRec} {s : Nat} {d : List Int}
    {vis : List Bool} (hg : WF g) (hrep : Represents g es) (hnn : ∀ e ∈ es, 0 ≤ e.weight)
    (hsum : total_weight es < INF) (h : DInv g es s d vis) {st1 : List Int × List Bool}
    (hpost : RoundPost g d vis (some st1)) :
    ∃ u, u < g.num_nodes.toNat ∧ vis_at vis u = false ∧ dist_at d u < INF ∧
      0 ≤ dist_at d u ∧
      (∀ v, v < g.num_nodes.toNat → vis_at vis v = false → dist_at d u ≤ dist_at d v) ∧
      st1.2 = vis.set u true ∧ st1.1.length = g.num_nodes.toNat ∧
      (∀ x, vis_at (vis.set u true) x = if u = x then true else vis_at vis x) ∧
      (∀ v, vis_at (vis.set u true) v = true → dist_at st1.1 v = dist_at d v) ∧
      (∀ v, dist_at st1.1 v ≤ dist_at d v) ∧
      (∀ v, v < g.num_nodes.toNat → vis_at (vis.set u true) v = false →
        ∀ e ∈ nbrs g u, e.dest = (v : Int) →
          0 ≤ e.weight ∧ dist_at d u + e.weight ≤ pot es (vis.set u true) v ∧
          dist_at st1.1 v ≤ dist_at d u + e.weight) ∧
      (∀ v, v < g.num_nodes.toNat → dist_at st1.1 v ≠ dist_at d v →
        vis_at (vis.set u true) v = false ∧
        ∃ e ∈ nbrs g u, e.dest = (v : Int) ∧ dist_at st1.1 v = dist_at d u + e.weight) := by
  obtain ⟨u, hu, hvu, hdu, hmin, hvis1, hlen1, hval⟩ := RoundPost.dist hg h.len_d hpost
  have hbu := h.lt_INF hnn hsum hu (by omega)
  have hvs : ∀ x, vis_at (vis.set u true) x = if u = x then true else vis_at vis x := by
    intro x
    rw [vis_at_set]
    by_cases hx : u = x
    · rw [if_pos ⟨hx, by rw [h.len_v]; exact hu⟩, if_pos hx]
    · rw [if_neg (fun hc => hx hc.1), if_neg hx]
  have hcand : ∀ v, v < g.num_nodes.toNat → vis_at (vis.set u true) v = false →
      ∀ e ∈ nbrs g u, e.dest = (v : Int) →
        0 ≤ e.weight ∧ dist_at d u + e.weight ≤ pot es (vis.set u true) v ∧
        wrap32 (dist_at d u + e.weight) = dist_at d u + e.weight := by
    intro v _ hv1 e he hev
    rw [hvs v] at hv1
    have huv : u ≠ v := by
      intro hc; rw [if_pos hc] at hv1; exact absurd hv1 (by simp)
    rw [if_neg huv] at hv1
    have he' : e ∈ adj_of es (u : Int) := by rw [← hrep.nbrs_eq hu]; exact he
    obtain ⟨w0, hstep⟩ := pot_step es hnn vis u v (by rw [h.len_v]; exact hu) huv hv1 e he' hev
    have hpu := (h.bd u hu (by omega)).2
    have htot := pot_le_total es hnn (vis.set u true) v
    refine ⟨w0, by omega, wrap32_of_range _ (by omega) (by omega)⟩
  refine ⟨u, hu, hvu, hdu, hbu.1, hmin, hvis1, hlen1, hvs, ?_, ?_, ?_, ?_⟩
  · intro v hv
    rw [hval v, hv]
    simp
  · intro v
    rw [hval v]
    split_ifs
    · exact cand_min_le _ _ _ _
    · exact le_refl _
  · intro v hv hv1 e he hev
    obtain ⟨c1, c2, c3⟩ := hcand v hv hv1 e he hev
    refine ⟨c1, c2, ?_⟩
    rw [hval v, if_pos hv1, ← c3]
    exact cand_min_le_cand _ _ _ _ e he hev
  · intro v hv hne
    rw [hval v] at hne ⊢
    by_cases hv1 : vis_at (vis.set u true) v = false
    · rw [if_pos hv1] at hne ⊢
      refine ⟨hv1, ?_⟩
      rcases cand_min_cases (dist_at d u) (nbrs g u) v (dist_at d v) with hc | ⟨e, he, hev, hc, _⟩
      · exact absurd hc hne
      · exact ⟨e, he, hev, by rw [hc, (hcand v hv hv1 e he hev).2.2]⟩
    · rw [if_neg hv1] at hne
      exact absurd rfl hne

end Dijkstra

namespace Dijkstra

theorem DInv.round {g : Graph} {es : List EdgeRec} {s : Nat} {d : List Int}
    {vis : List Bool} (hg : WF g) (hrep : Represents g es) (hnn : ∀ e ∈ es, 0 ≤ e.weight)
    (hsum : total_weight es < INF) (h : DInv g es s d vis) (hs : s < g.num_nodes.toNat)
    {st1 : List Int × List Bool} (hpost : RoundPost g d vis (some st1)) :
    DInv g es s st1.1 st1.2 ∧ st1.2.count false < vis.count false := by
  obtain ⟨u, hu, hvu, hdu, hdu0, hmin, hvis1, hlen1, hvs, hkeep, hle, hcand, hchg⟩ :=
    h.round_vals hg hrep hnn hsum hpost
  obtain ⟨d1, vis1⟩ := st1
  simp only at hvis1 hlen1 hkeep hle hcand hchg ⊢
  subst hvis1
  have hlt := fun v hv hne => h.lt_INF hnn hsum (v := v) hv hne
  -- every new value below INF is non-negative, bounded, and the weight of a walk
  have hnew : ∀ v, v < g.num_nodes.toNat → dist_at d1 v ≠ INF →
      (0 ≤ dist_at d1 v ∧ dist_at d1 v ≤ pot es (vis.set u true) v) ∧
      ∃ p, IsWalk g s p v ∧ walk_weight p = dist_at d1 v := by
    intro v hv hne
    by_cases hc : dist_at d1 v = dist_at d v
    · rw [hc] at hne ⊢
      have b := h.bd v hv hne
      have m := pot_mono es hnn vis u v
      exact ⟨⟨b.1, by omega⟩, h.wk v hv hne⟩
    · obtain ⟨hv1, e, he, hev, hval⟩ := hchg v hv hc
      obtain ⟨c1, c2, _⟩ := hcand v hv hv1 e he hev
      refine ⟨⟨by omega, by omega⟩, ?_⟩
      obtain ⟨p, hp, hw⟩ := h.wk u hu (by omega)
      refine ⟨p ++ [e], ?_, by rw [walk_weight_snoc, hw, hval]⟩
      have := hp.snoc he
      rw [hev, Int.toNat_natCast] at this
      exact this
  refine ⟨⟨hlen1, by rw [List.length_set]; exact h.len_v, ?_, fun v hv hne => (hnew v hv hne).1,
    fun v hv hne => (hnew v hv hne).2, ?_, ?_, ?_⟩, ?_⟩
  · -- distances[s] = 0
    have h1 := hle s
    rw [h.src] at h1
    have h2 : dist_at d1 s ≠ INF := by unfold INF; omega
    have := (hnew s hs h2).1.1
    omega
  · -- every entry of a visited node is relaxed
    intro a ha hva e he
    have hb := hg.dest_lt ha he
    have hw := nbrs_weight_nonneg hrep hnn ha he
    have hda : dist_at d1 a = dist_at d a := hkeep a hva
    rw [hda]
    rw [hvs a] at hva
    by_cases hau : u = a
    · subst hau
      by_cases hvb : vis_at (vis.set u true) e.dest.toNat = true
      · rw [hkeep _ hvb]
        rw [hvs] at hvb
        by_cases hbu : u = e.dest.toNat
        · rw [← hbu]; exact ⟨by omega, by omega⟩
        · rw [if_neg hbu] at hvb
          have := h.ord _ u hb.2 hu hvb hvu
          have := h.fin _ hb.2 hvb
          exact ⟨by omega, this⟩
      · have hvb' : vis_at (vis.set u true) e.dest.toNat = false := by simpa using hvb
        obtain ⟨_, c2, c3⟩ := hcand e.dest.toNat hb.2 hvb' e he (by omega)
        have := pot_le_total es hnn (vis.set u true) e.dest.toNat
        exact ⟨c3, by omega⟩
    · rw [if_neg hau] at hva
      obtain ⟨r1, r2⟩ := h.rel a ha hva e he
      have := hle e.dest.toNat
      have := hlt _ hb.2 r2
      exact ⟨by omega, by omega⟩
  · -- visited nodes are no farther than unvisited ones
    intro a b ha hb hva hvb
    rw [hkeep a hva]
    have hvb0 := hvb
    rw [hvs] at hva hvb
    have hbu : ¬ u = b := by
      intro hc; rw [if_pos hc] at hvb; exact absurd hvb (by simp)
    rw [if_neg hbu] at hvb
    have hdau : dist_at d a ≤ dist_at d u := by
      by_cases hau : u = a
      · rw [hau]
      · rw [if_neg hau] at hva
        exact h.ord a u ha hu hva hvu
    by_cases hc : dist_at d1 b = dist_at d b
    · rw [hc]
      have := hmin b hb hvb
      omega
    · obtain ⟨_, e, he, hev, hval⟩ := hchg b hb hc
      have := (hcand b hb hvb0 e he hev).1
      omega
  · -- visited nodes have a distance below INF
    intro a ha hva
    rw [hkeep a hva]
    rw [hvs] at hva
    by_cases hau : u = a
    · rw [← hau]; omega
    · rw [if_neg hau] at hva
      exact h.fin a ha hva
  · exact count_false_set vis u (by rw [h.len_v]; exact hu) hvu

theorem DInv.init (g : Graph) (es : List EdgeRec) (hnn : ∀ e ∈ es, 0 ≤ e.weight) (s : Nat)
    (hs : s < g.num_nodes.toNat) :
    DInv g es s ((List.replicate g.num_nodes.toNat INF).set s 0)
      (List.replicate g.num_nodes.toNat false) := by
  have hvis : ∀ v, v < g.num_nodes.toNat →
      vis_at (List.replicate g.num_nodes.toNat false) v = false := by
    intro v hv
    unfold vis_at
    rw [List.getD_eq_getElem?_getD, List.getElem?_replicate, if_pos hv]
    rfl
  have hval : ∀ v, dist_at ((List.replicate g.num_nodes.toNat INF).set s 0) v ≠ INF →
      v = s ∧ dist_at ((List.replicate g.num_nodes.toNat INF).set s 0) v = 0 := by
    intro v hne
    rw [dist_at_init] at hne ⊢
    split_ifs at hne ⊢ with hc
    · exact ⟨hc.1.symm, rfl⟩
    · exact absurd rfl hne
  refine ⟨by simp, by simp, ?_, ?_, ?_, ?_, ?_, ?_⟩
  · rw [dist_at_init, if_pos ⟨rfl, hs⟩]
  · intro v _ hne
    obtain ⟨_, h0⟩ := hval v hne
    rw [h0]
    refine ⟨le_refl _, ?_⟩
    unfold pot
    apply List.sum_nonneg
    intro x hx
    obtain ⟨e, he, rfl⟩ := List.mem_map.1 hx
    split_ifs
    · exact hnn e he
    · exact le_refl _
  · intro v _ hne
    obtain ⟨h1, h0⟩ := hval v hne
    subst h1
    exact ⟨[], rfl, by rw [h0]; rfl⟩
  · intro u hu hvu
    rw [hvis u hu] at hvu
    exact absurd hvu (by simp)
  · intro u v hu _ hvu
    rw [hvis u hu] at hvu
    exact absurd hvu (by simp)
  · intro u hu hvu
    rw [hvis u hu] at hvu
    exact absurd hvu (by simp)

end Dijkstra

namespace Dijkstra

/-! ## What the invariant gives when the loop ends -/

theorem DInv.final {g : Graph} {es : List EdgeRec} {s : Nat} {d : List Int}
    {vis : List Bool} (hg : WF g) (hnn : ∀ e ∈ es, 0 ≤ e.weight)
    (hsum : total_weight es < INF) (h : DInv g es s d vis) (hs : s < g.num_nodes.toNat)
    (hterm : ∀ v, v < g.num_nodes.toNat → vis_at vis v = false → INF ≤ dist_at d v) :
    IsAnswer g s d := by
  have hvis : ∀ v, v < g.num_nodes.toNat → dist_at d v ≠ INF → vis_at vis v = true := by
    intro v hv hne
    by_contra hc
    have hc' : vis_at vis v = false := by simpa using hc
    have := hterm v hv hc'
    have := h.lt_INF hnn hsum hv hne
    omega
  have hclos : ∀ (p : List Edge) (a v : Nat), a < g.num_nodes.toNat → vis_at vis a = true →
      IsWalk g a p v →
      v < g.num_nodes.toNat ∧ vis_at vis v = true ∧
        dist_at d v ≤ dist_at d a + walk_weight p := by
    intro p
    induction p with
    | nil =>
      intro a v ha hva hw
      simp only [IsWalk] at hw
      subst hw
      exact ⟨ha, hva, by simp [walk_weight]⟩
    | cons e t ih =>
      intro a v ha hva hw
      obtain ⟨r1, r2⟩ := h.rel a ha hva e hw.1
      have hb := hg.dest_lt ha hw.1
      obtain ⟨i1, i2, i3⟩ := ih e.dest.toNat v hb.2 (hvis _ hb.2 r2) hw.2
      refine ⟨i1, i2, ?_⟩
      simp only [walk_weight, List.map_cons, List.sum_cons] at i3 ⊢
      omega
  have hsv : vis_at vis s = true := hvis s hs (by rw [h.src]; unfold INF; omega)
  refine ⟨h.len_d, fun v hv => ⟨?_, ?_⟩⟩
  · rintro ⟨p, hp⟩
    obtain ⟨_, c2, _⟩ := hclos p s v hs hsv hp
    refine ⟨h.wk v hv (h.fin v hv c2), ?_⟩
    intro q hq
    have := (hclos q s v hs hsv hq).2.2
    rw [h.src] at this
    omega
  · intro hnr
    by_contra hne
    obtain ⟨p, hp, _⟩ := h.wk v hv hne
    exact hnr ⟨p, hp⟩

theorem IsAnswer.unique {g : Graph} {s : Nat} {a b : List Int} (ha : IsAnswer g s a)
    (hb : IsAnswer g s b) : a = b := by
  apply list_ext_dist_at a b (by rw [ha.1, hb.1])
  intro v hv
  rw [ha.1] at hv
  by_cases hr : Reachable g s v
  · obtain ⟨⟨p, hp, hpw⟩, hmin⟩ := (ha.2 v hv).1 hr
    obtain ⟨⟨q, hq, hqw⟩, hmin'⟩ := (hb.2 v hv).1 hr
    have := hmin q hq
    have := hmin' p hp
    omega
  · rw [(ha.2 v hv).2 hr, (hb.2 v hv).2 hr]

/-- Any engine whose rounds behave as `RoundPost` describes returns the answer. -/
theorem engine_correct {g : Graph} {es : List EdgeRec} (hg : WF g) (hrep : Represents g es)
    (hnn : ∀ e ∈ es, 0 ≤ e.weight) (hsum : total_weight es < INF) (s : Nat)
    (hs : s < g.num_nodes.toNat)
    (body : Nat → List Int × List Bool → Option (Option (List Int × List Bool)))
    (hbody : ∀ c d vis, d.length = g.num_nodes.toNat → vis.length = g.num_nodes.toNat →
      ∃ r, body c (d, vis) = some r ∧ RoundPost g d vis r) :
    ∃ fin, for_break body g.num_nodes.toNat 0
        ((List.replicate g.num_nodes.toNat INF).set s 0,
          List.replicate g.num_nodes.toNat false) = some fin ∧
      IsAnswer g s fin.1 := by
  have hloop := for_break_term
    (fun st : List Int × List Bool => DInv g es s st.1 st.2)
    (fun st => ∀ v, v < g.num_nodes.toNat → vis_at st.2 v = false → INF ≤ dist_at st.1 v)
    (fun st => st.2.count false) body
    (by
      rintro c ⟨d, vis⟩ hinv
      obtain ⟨r, hr, hpost⟩ := hbody c d vis hinv.len_d hinv.len_v
      refine ⟨r, hr, ?_, ?_⟩
      · intro hnone
        rw [hnone] at hpost
        exact hpost
      · intro st1 hst1
        rw [hst1] at hpost
        exact hinv.round hg hrep hnn hsum hs hpost)
    (by
      rintro ⟨d, vis⟩ hinv hμ v hv hvv
      exfalso
      have hlen := hinv.len_v
      simp only at hμ hvv hlen
      have hmem : false ∈ vis := by
        have := getElem?_vis_at vis v (by omega)
        rw [hvv] at this
        exact List.getElem?_mem this
      have := List.count_pos_iff.2 hmem
      omega)
    g.num_nodes.toNat 0
    ((List.replicate g.num_nodes.toNat INF).set s 0, List.replicate g.num_nodes.toNat false)
    (DInv.init g es hnn s hs)
    (by simp)
  obtain ⟨fin, hfin, hinv, hterm⟩ := hloop
  exact ⟨fin, hfin, hinv.final hg hnn hsum hs hterm⟩

end Dijkstra

namespace Dijkstra

/-! ## One round of the shared-memory engines -/

theorem crit_step_eq (n : Int) (s : Schedule) (d : List Int) (vis : List Bool)
    (hd : d.length = n.toNat) (hv : vis.length = n.toNat) (acc : Int × Int) (t : Nat) :
    crit_step n s d vis acc t = some (crit_fn n s d vis acc t) := by
  unfold crit_step crit_fn local_scan
  rw [scan_foldlM d vis _ (fun v h => by rw [hd]; exact List.mem_range.1 (List.mem_filter.1 h).1)
    (fun v h => by rw [hv]; exact List.mem_range.1 (List.mem_filter.1 h).1)]
  simp only [Option.bind_eq_bind, Option.some_bind, Option.pure_def]
  split_ifs <;> rfl

theorem crit_fn_good (n : Int) (s : Schedule) (d : List Int) (vis : List Bool)
    (done : Nat → Prop) (acc : Int × Int) (t : Nat) (h : CritGood n s d vis done acc) :
    CritGood n s d vis (fun w => done w ∨ w = t) (crit_fn n s d vis acc t) := by
  have hmem : ∀ v, v ∈ (List.range n.toNat).filter (fun v => s.assign v = t) ↔
      v < n.toNat ∧ s.assign v = t := by
    intro v
    rw [List.mem_filter, List.mem_range]
    simp
  unfold crit_fn
  rcases scan_foldl_spec d vis ((List.range n.toNat).filter (fun v => s.assign v = t))
    (INF, -1) with ⟨l1, l2⟩ | ⟨v0, hv0, l1, l2, l3, l4, _⟩
  · rw [l1]
    rcases h with ⟨a1, a2⟩ | ⟨u, hu, a1, a2, a3, a4⟩
    · rw [a1]
      simp only [lt_self_iff_false, if_false]
      left
      refine ⟨rfl, ?_⟩
      rintro v hv (hdone | ht) hvv
      · exact a2 v hv hdone hvv
      · exact l2 v ((hmem v).2 ⟨hv, ht⟩) hvv
    · rw [a1]
      have : ¬ (INF < dist_at d u) := by omega
      simp only [this, if_false]
      right
      refine ⟨u, hu, rfl, a2, a3, ?_⟩
      rintro v hv (hdone | ht) hvv
      · exact a4 v hv hdone hvv
      · have := l2 v ((hmem v).2 ⟨hv, ht⟩) hvv
        simp only at this
        omega
  · rw [l1]
    have hv0' := (hmem v0).1 hv0
    simp only at l3
    rcases h with ⟨a1, a2⟩ | ⟨u, hu, a1, a2, a3, a4⟩
    · rw [a1]
      simp only [l3, if_true]
      right
      refine ⟨v0, hv0'.1, rfl, l2, l3, ?_⟩
      rintro v hv (hdone | ht) hvv
      · have := a2 v hv hdone hvv
        omega
      · exact l4 v ((hmem v).2 ⟨hv, ht⟩) hvv
    · rw [a1]
      simp only
      by_cases hc : dist_at d v0 < dist_at d u
      · rw [if_pos hc]
        right
        refine ⟨v0, hv0'.1, rfl, l2, l3, ?_⟩
        rintro v hv (hdone | ht) hvv
        · have := a4 v hv hdone hvv
          omega
        · exact l4 v ((hmem v).2 ⟨hv, ht⟩) hvv
      · rw [if_neg hc]
        right
        refine ⟨u, hu, rfl, a2, a3, ?_⟩
        rintro v hv (hdone | ht) hvv
        · exact a4 v hv hdone hvv
        · have := l4 v ((hmem v).2 ⟨hv, ht⟩) hvv
          omega

theorem crit_fold_good (n : Int) (s : Schedule) (d : List Int) (vis : List Bool)
    (ts : List Nat) : ∀ (done : Nat → Prop) (acc : Int × Int),
      CritGood n s d vis done acc →
      CritGood n s d vis (fun w => done w ∨ w ∈ ts) (ts.foldl (crit_fn n s d vis) acc) := by
  induction ts with
  | nil =>
    intro done acc h
    simpa using h
  | cons t r ih =>
    intro done acc h
    have := ih _ _ (crit_fn_good n s d vis done acc t h)
    simp only [List.foldl_cons]
    have heq : (fun w => (done w ∨ w = t) ∨ w ∈ r) = (fun w => done w ∨ w ∈ t :: r) := by
      funext w
      simp only [List.mem_cons, or_assoc]
    rw [← heq]
    exact this

theorem par_extract_min_spec (n : Int) (s : Schedule) (T : Nat) (hs : s.Valid T)
    (d : List Int) (vis : List Bool) (hd : d.length = n.toNat) (hv : vis.length = n.toNat) :
    ∃ m, par_extract_min n s d vis = some m ∧
      ((m = (INF, -1) ∧ ∀ v, v < n.toNat → vis_at vis v = false → INF ≤ dist_at d v) ∨
        ∃ u, u < n.toNat ∧ m = (dist_at d u, (u : Int)) ∧ vis_at vis u = false ∧
          dist_at d u < INF ∧
          ∀ v, v < n.toNat → vis_at vis v = false → dist_at d u ≤ dist_at d v) := by
  have hfold : par_extract_min n s d vis = some (s.crit.foldl (crit_fn n s d vis) (INF, -1)) := by
    have := (foldlM_eq_foldl (fun _ => True) (crit_step n s d vis) (crit_fn n s d vis) id
      s.crit (fun acc _ t _ => crit_step_eq n s d vis hd hv acc t) (fun _ _ _ _ => trivial)
      (INF, -1) trivial).1
    simpa [par_extract_min] using this
  refine ⟨_, hfold, ?_⟩
  have hall : ∀ v, s.assign v ∈ s.crit := by
    intro v
    exact hs.2.1.mem_iff.2 (List.mem_range.2 (hs.1 v))
  have := crit_fold_good n s d vis s.crit (fun _ => False) (INF, -1)
    (Or.inl ⟨rfl, fun _ _ hf => absurd hf id⟩)
  rcases this with ⟨a1, a2⟩ | ⟨u, hu, a1, a2, a3, a4⟩
  · left
    exact ⟨a1, fun v hv hvv => a2 v hv (Or.inr (hall v)) hvv⟩
  · right
    exact ⟨u, hu, a1, a2, a3, fun v hv hvv => a4 v hv (Or.inr (hall v)) hvv⟩

end Dijkstra

namespace Dijkstra

theorem par_relax_body (vis : List Bool) (base : Int) (d : List Int) (e : Edge)
    (h0 : 0 ≤ e.dest) (hv : e.dest.toNat < vis.length) (hd : e.dest.toNat < d.length) :
    ((rd vis e.dest).bind fun v =>
      if v = true then some d
      else if base = INF then some d
      else (rd d e.dest).bind fun dn =>
        if wrap32 (base + e.weight) < dn then wr d e.dest (wrap32 (base + e.weight))
        else some d) = some (relax_fn vis base d e) := by
  have hrv : rd vis e.dest = some (vis_at vis e.dest.toNat) := by
    rw [rd, if_pos h0, getElem?_vis_at vis _ hv]
  have hrd : rd d e.dest = some (dist_at d e.dest.toNat) := by
    rw [rd, if_pos h0, getElem?_dist_at d _ hd]
  have hwr : ∀ x, wr d e.dest x = some (d.set e.dest.toNat x) := by
    intro x; rw [wr, if_pos ⟨h0, hd⟩]
  unfold relax_fn
  simp only [hrv, hrd, hwr, Option.some_bind]
  cases hvv : vis_at vis e.dest.toNat
  · by_cases hb : base = INF
    · simp [hb]
    · by_cases hc : wrap32 (base + e.weight) < dist_at d e.dest.toNat
      · simp [hb, hc]
      · simp [hb, hc]
  · simp

theorem perf_relax_step_eq (g : Graph) (hg : WF g) (u : Nat)
    (hu : u < g.num_nodes.toNat) (vis : List Bool) (hv : vis.length = g.num_nodes.toNat)
    (base : Int) (d : List Int) (hd : d.length = g.num_nodes.toNat) (i : Nat)
    (hi : i < (nbrs g u).length) :
    PerfTest.relax_step g vis (u : Int) base d i =
      some (relax_fn vis base d ((nbrs g u).getD i ⟨0, 0⟩)) := by
  obtain ⟨sz, blk, _, h2, _, _, h5⟩ := hg.reads hu
  have he := hg.dest_lt hu (getD_mem (nbrs g u) i ⟨0, 0⟩ hi)
  have h5' := h5 i hi
  generalize (nbrs g u).getD i ⟨0, 0⟩ = e at he h5' ⊢
  unfold PerfTest.relax_step
  simp only [h2, h5', Option.bind_eq_bind, Option.some_bind, Option.pure_def]
  exact par_relax_body vis base d e he.1 (by omega) (by omega)

theorem omp_relax_step_eq (g : Graph) (hg : WF g) (u : Nat)
    (hu : u < g.num_nodes.toNat) (vis : List Bool) (hv : vis.length = g.num_nodes.toNat)
    (base : Int) (d : List Int) (hd : d.length = g.num_nodes.toNat) (i : Nat)
    (hi : i < (nbrs g u).length) :
    OpenMP.relax_step g vis (u : Int) base d i =
      some (relax_fn vis base d ((nbrs g u).getD i ⟨0, 0⟩)) := by
  obtain ⟨sz, blk, _, h2, _, _, h5⟩ := hg.reads hu
  have he := hg.dest_lt hu (getD_mem (nbrs g u) i ⟨0, 0⟩ hi)
  have h5' := h5 i hi
  generalize (nbrs g u).getD i ⟨0, 0⟩ = e at he h5' ⊢
  have hin : 0 ≤ e.dest ∧ e.dest < g.num_nodes := ⟨he.1, by omega⟩
  unfold OpenMP.relax_step
  simp only [h2, h5', Option.bind_eq_bind, Option.some_bind, Option.pure_def, hin,
    and_self, not_true_eq_false, if_false]
  exact par_relax_body vis base d e he.1 (by omega) (by omega)

/-- A relax loop run in the order `idxs`, a permutation of the entry indices, is a
fold of `relax_fn` over a permutation of the neighbor list. -/
theorem par_relax_foldlM (g : Graph) (u : Nat) (vis : List Bool) (base : Int)
    (step : List Int → Nat → Option (List Int))
    (hstep : ∀ d, d.length = g.num_nodes.toNat → ∀ i, i < (nbrs g u).length →
      step d i = some (relax_fn vis base d ((nbrs g u).getD i ⟨0, 0⟩)))
    (d : List Int) (hd : d.length = g.num_nodes.toNat) (idxs : List Nat)
    (hperm : idxs.Perm (List.range (nbrs g u).length)) :
    ∃ L : List Edge, L.Perm (nbrs g u) ∧
      idxs.foldlM step d = some (L.foldl (relax_fn vis base) d) := by
  refine ⟨idxs.map (fun i => (nbrs g u).getD i ⟨0, 0⟩), ?_, ?_⟩
  · have := hperm.map (fun i => (nbrs g u).getD i ⟨0, 0⟩)
    rw [map_getD_range] at this
    exact this
  · exact (foldlM_eq_foldl (fun s => s.length = g.num_nodes.toNat) step (relax_fn vis base)
      (fun i => (nbrs g u).getD i ⟨0, 0⟩) idxs
      (fun s hs i hi => hstep s hs i (List.mem_range.1 (hperm.mem_iff.1 hi)))
      (fun s hs i _ => by
        show (relax_fn vis base s _).length = g.num_nodes.toNat
        rw [relax_fn_length]; exact hs) d hd).1

theorem perf_round_post (g : Graph) (hg : WF g) (s : Schedule) (T : Nat)
    (hs : s.Valid T) (d : List Int) (vis : List Bool) (hd : d.length = g.num_nodes.toNat)
    (hv : vis.length = g.num_nodes.toNat) :
    ∃ r, PerfTest.round g s (d, vis) = some r ∧ RoundPost g d vis r := by
  obtain ⟨m, hm, hspec⟩ := par_extract_min_spec g.num_nodes s T hs d vis hd hv
  unfold PerfTest.round
  simp only [hm, Option.bind_eq_bind, Option.some_bind]
  rcases hspec with ⟨h1, h2⟩ | ⟨u, hu, h1, h2, h3, h4⟩
  · subst h1
    exact ⟨none, by simp, h2⟩
  · subst h1
    have hne : ¬ (dist_at d u = INF ∨ (u : Int) = -1) := by omega
    obtain ⟨sz, blk, r1, _, r3, _, _⟩ := hg.reads hu
    obtain ⟨L, hL, hfold⟩ := par_relax_foldlM g u (vis.set u true) (dist_at d u)
      (PerfTest.relax_step g (vis.set u true) (u : Int) (dist_at d u))
      (fun d' hd' i hi => perf_relax_step_eq g hg u hu _ (by simp [hv]) _ d' hd' i hi)
      d hd (s.relax_order sz.toNat) (by rw [r3]; exact hs.2.2 _)
    refine ⟨some (L.foldl (relax_fn (vis.set u true) (dist_at d u)) d, vis.set u true), ?_,
      u, hu, h2, h3, h4, rfl, L, hL, rfl⟩
    dsimp only
    rw [if_neg hne, wr_natCast vis u true (by omega), r1, rd_natCast,
      getElem?_dist_at d u (by omega)]
    simp only [Option.some_bind, hfold, Option.pure_def]

theorem omp_round_post (g : Graph) (hg : WF g) (s : Schedule) (T : Nat)
    (hs : s.Valid T) (d : List Int) (vis : List Bool) (hd : d.length = g.num_nodes.toNat)
    (hv : vis.length = g.num_nodes.toNat) :
    ∃ r, OpenMP.round g s (d, vis) = some r ∧ RoundPost g d vis r := by
  obtain ⟨m, hm, hspec⟩ := par_extract_min_spec g.num_nodes s T hs d vis hd hv
  unfold OpenMP.round
  simp only [hm, Option.bind_eq_bind, Option.some_bind]
  rcases hspec with ⟨h1, h2⟩ | ⟨u, hu, h1, h2, h3, h4⟩
  · subst h1
    exact ⟨none, by simp, h2⟩
  · subst h1
    have hne : ¬ (dist_at d u = INF ∨ (u : Int) = -1) := by omega
    obtain ⟨sz, blk, r1, _, r3, r4, _⟩ := hg.reads hu
    dsimp only
    rw [if_neg hne, wr_natCast vis u true (by omega), r1, rd_natCast,
      getElem?_dist_at d u (by omega)]
    simp only [Option.some_bind]
    by_cases hpos : sz > 0
    · obtain ⟨L, hL, hfold⟩ := par_relax_foldlM g u (vis.set u true) (dist_at d u)
        (OpenMP.relax_step g (vis.set u true) (u : Int) (dist_at d u))
        (fun d' hd' i hi => omp_relax_step_eq g hg u hu _ (by simp [hv]) _ d' hd' i hi)
        d hd (s.relax_order sz.toNat) (by rw [r3]; exact hs.2.2 _)
      refine ⟨some (L.foldl (relax_fn (vis.set u true) (dist_at d u)) d, vis.set u true), ?_,
        u, hu, h2, h3, h4, rfl, L, hL, rfl⟩
      rw [if_pos hpos]
      simp only [Option.bind_eq_bind, Option.some_bind, hfold, Option.pure_def]
    · have hnil : nbrs g u = [] := by
        apply List.length_eq_zero.1
        omega
      refine ⟨some (d, vis.set u true), by rw [if_neg hpos]; rfl,
        u, hu, h2, h3, h4, rfl, [], by rw [hnil], rfl⟩

end Dijkstra

namespace Dijkstra

/-! ## The engines return the answer -/

theorem dijkstra_sequential_answer {g : Graph} {es : List EdgeRec} (hg : WF g)
    (hrep : Represents g es) (hnn : ∀ e ∈ es, 0 ≤ e.weight) (hsum : total_weight es < INF)
    (source : Int) (h0 : 0 ≤ source) (h1 : source < g.num_nodes) :
    ∃ dist, dijkstra_sequential g source = some dist ∧ IsAnswer g source.toNat dist := by
  obtain ⟨fin, hfin, hans⟩ := engine_correct hg hrep hnn hsum source.toNat (by omega)
    (fun _ st => round g st)
    (fun _ d vis hd hv => ⟨_, round_eq g hg d vis hd hv, round_fn_post g d vis⟩)
  refine ⟨fin.1, ?_, hans⟩
  unfold dijkstra_sequential
  rw [init_state_eq g source h0 h1]
  simp only [Option.bind_eq_bind, Option.some_bind, hfin, Option.pure_def]

theorem perf_parallel_answer {g : Graph} {es : List EdgeRec} (hg : WF g)
    (hrep : Represents g es) (hnn : ∀ e ∈ es, 0 ≤ e.weight) (hsum : total_weight es < INF)
    (source : Int) (h0 : 0 ≤ source) (h1 : source < g.num_nodes) (T : Nat)
    (sched : Nat → Schedule) (hsched : ∀ c, (sched c).Valid T) :
    ∃ dist, PerfTest.dijkstra_parallel g source sched = some dist ∧
      IsAnswer g source.toNat dist := by
  obtain ⟨fin, hfin, hans⟩ := engine_correct hg hrep hnn hsum source.toNat (by omega)
    (fun c st => PerfTest.round g (sched c) st)
    (fun c d vis hd hv => perf_round_post g hg (sched c) T (hsched c) d vis hd hv)
  refine ⟨fin.1, ?_, hans⟩
  unfold PerfTest.dijkstra_parallel
  rw [init_state_eq g source h0 h1]
  simp only [Option.bind_eq_bind, Option.some_bind, hfin, Option.pure_def]

theorem omp_parallel_answer {g : Graph} {es : List EdgeRec} (hg : WF g)
    (hrep : Represents g es) (hnn : ∀ e ∈ es, 0 ≤ e.weight) (hsum : total_weight es < INF)
    (source : Int) (h0 : 0 ≤ source) (h1 : source < g.num_nodes) (T : Nat)
    (sched : Nat → Schedule) (hsched : ∀ c, (sched c).Valid T) :
    ∃ dist, OpenMP.dijkstra_parallel_optimized g source sched = some dist ∧
      IsAnswer g source.toNat dist := by
  obtain ⟨fin, hfin, hans⟩ := engine_correct hg hrep hnn hsum source.toNat (by omega)
    (fun c st => OpenMP.round g (sched c) st)
    (fun c d vis hd hv => omp_round_post g hg (sched c) T (hsched c) d vis hd hv)
  refine ⟨fin.1, ?_, hans⟩
  unfold OpenMP.dijkstra_parallel_optimized
  rw [init_state_eq g source h0 h1]
  simp only [Option.bind_eq_bind, Option.some_bind, hfin, Option.pure_def]

end Dijkstra

namespace Dijkstra

/-! ## `add_edge` never leaves its blocks when the endpoints are in range -/

theorem rd_of_lt {α : Type} (xs : List α) (i : Int) (h0 : 0 ≤ i) (h1 : i.toNat < xs.length) :
    rd xs i = some xs[i.toNat] := by
  rw [rd, if_pos h0, List.getElem?_eq_getElem h1]

theorem wr_of_lt {α : Type} (xs : List α) (i : Int) (x : α) (h0 : 0 ≤ i)
    (h1 : i.toNat < xs.length) : wr xs i x = some (xs.set i.toNat x) := by
  rw [wr, if_pos ⟨h0, h1⟩]

theorem realloc_length (blk : List (Option Edge)) (k : Int) :
    (realloc blk k).length = k.toNat := by
  unfold realloc
  rw [List.length_take, List.length_append, List.length_replicate]
  omega

theorem store_entry_eq (g : Graph) (node size : Int) (e : Edge) (h0 : 0 ≤ node)
    (h1 : node.toNat < g.adj_list.length) (h2 : node.toNat < g.adj_size.length)
    (hs : 0 ≤ size) :
    store_entry g node size e =
      some { g with
        adj_list := g.adj_list.set node.toNat
          ((realloc g.adj_list[node.toNat] (size + 1)).set size.toNat (some e))
        adj_size := g.adj_size.set node.toNat (g.adj_size[node.toNat] + 1) } := by
  unfold store_entry
  rw [rd_of_lt g.adj_list node h0 h1]
  simp only [Option.bind_eq_bind, Option.some_bind]
  rw [wr_of_lt g.adj_list node _ h0 h1]
  simp only [Option.some_bind]
  rw [rd_of_lt _ node h0 (by rw [List.length_set]; exact h1)]
  simp only [Option.some_bind, List.getElem_set_self]
  rw [wr_of_lt _ size _ hs (by rw [realloc_length]; omega)]
  simp only [Option.some_bind]
  rw [wr_of_lt _ node _ h0 (by rw [List.length_set]; exact h1), rd_of_lt g.adj_size node h0 h2]
  simp only [Option.some_bind]
  rw [wr_of_lt g.adj_size node _ h0 h2]
  simp only [Option.some_bind, Option.pure_def, List.set_set]

theorem Sized.store_entry_ok {g : Graph} (hg : Sized g) (node size : Int) (e : Edge)
    (h0 : 0 ≤ node) (h1 : node < g.num_nodes) (hs : 0 ≤ size) :
    ∃ g1, store_entry g node size e = some g1 ∧ Sized g1 ∧ g1.num_nodes = g.num_nodes ∧
      g1.num_edges = g.num_edges := by
  have l1 : node.toNat < g.adj_list.length := by rw [hg.2.1]; omega
  have l2 : node.toNat < g.adj_size.length := by rw [hg.1]; omega
  refine ⟨_, store_entry_eq g node size e h0 l1 l2 hs, ⟨?_, ?_, ?_⟩, rfl, rfl⟩
  · simp only [List.length_set]; exact hg.1
  · simp only [List.length_set]; exact hg.2.1
  · intro x hx
    simp only at hx
    rcases List.mem_or_eq_of_mem_set hx with h | h
    · exact hg.2.2 x h
    · have := hg.2.2 _ (List.getElem_mem l2)
      omega

theorem Sized.add_edge_ok {g : Graph} (hg : Sized g) (u v w : Int) (hu0 : 0 ≤ u)
    (hu1 : u < g.num_nodes) (hv0 : 0 ≤ v) (hv1 : v < g.num_nodes) :
    ∃ g1, add_edge g u v w = some g1 ∧ Sized g1 ∧ g1.num_nodes = g.num_nodes ∧
      g1.num_edges = g.num_edges := by
  have l1 : u.toNat < g.adj_size.length := by rw [hg.1]; omega
  have l2 : v.toNat < g.adj_size.length := by rw [hg.1]; omega
  unfold Dijkstra.add_edge
  rw [rd_of_lt g.adj_size u hu0 l1, rd_of_lt g.adj_size v hv0 l2]
  simp only [Option.bind_eq_bind, Option.some_bind]
  obtain ⟨g1, e1, s1, n1, m1⟩ := hg.store_entry_ok u g.adj_size[u.toNat] ⟨v, w⟩ hu0 hu1
    (hg.2.2 _ (List.getElem_mem l1))
  rw [e1]
  simp only [Option.some_bind]
  obtain ⟨g2, e2, s2, n2, m2⟩ := s1.store_entry_ok v g.adj_size[v.toNat] ⟨u, w⟩ hv0
    (by rw [n1]; exact hv1) (hg.2.2 _ (List.getElem_mem l2))
  exact ⟨g2, e2, s2, by rw [n2, n1], by rw [m2, m1]⟩

theorem Sized.create_graph_ok (n m : Int) : Sized (create_graph n m) := by
  refine ⟨by simp [Dijkstra.create_graph], by simp [Dijkstra.create_graph], ?_⟩
  intro x hx
  simp only [Dijkstra.create_graph] at hx
  rw [List.eq_of_mem_replicate hx]

end Dijkstra

namespace Dijkstra
namespace OpenMP

theorem add_edge_invalid (g : Graph) (e : EdgeRec) (h : ¬ e.in_range g.num_nodes) :
    add_edge g e.u e.v e.weight = some { graph := g, invalid_edge := true } := by
  unfold add_edge
  rw [if_pos]
  unfold EdgeRec.in_range at h
  omega

theorem add_edge_valid (g : Graph) (hg : Sized g) (e : EdgeRec) (h : e.in_range g.num_nodes) :
    ∃ g1, add_edge g e.u e.v e.weight = some { graph := g1, invalid_edge := false } ∧
      Sized g1 ∧ g1.num_nodes = g.num_nodes ∧ g1.num_edges = g.num_edges := by
  unfold EdgeRec.in_range at h
  obtain ⟨g1, e1, s1, n1, m1⟩ := hg.add_edge_ok e.u e.v e.weight h.1 h.2.1 h.2.2.1 h.2.2.2
  refine ⟨g1, ?_, s1, n1, m1⟩
  unfold add_edge
  rw [if_neg (by omega), e1]
  rfl

/-- The edge loop over a complete edge list returns a graph, and it is the graph the
loop returns for the list without the out-of-range edges. -/
theorem edge_loop_skips (es : List EdgeRec) : ∀ g : Graph, Sized g →
    ∃ g1, edge_loop es.length es g = some (some g1) ∧
      edge_loop (es.filter (fun e => e.in_range g.num_nodes)).length
        (es.filter (fun e => e.in_range g.num_nodes)) g = some (some g1) ∧
      g1.num_nodes = g.num_nodes := by
  induction es with
  | nil => intro g _; exact ⟨g, rfl, rfl, rfl⟩
  | cons e t ih =>
    intro g hg
    by_cases h : e.in_range g.num_nodes
    · obtain ⟨g1, e1, s1, n1, _⟩ := add_edge_valid g hg e h
      obtain ⟨g2, e2, e3, n2⟩ := ih g1 s1
      refine ⟨g2, ?_, ?_, by rw [n2, n1]⟩
      · simp only [List.length_cons, edge_loop, e1]
        exact e2
      · rw [List.filter_cons_of_pos (by simpa using h)]
        simp only [List.length_cons, edge_loop, e1]
        rw [n1] at e3
        exact e3
    · obtain ⟨g2, e2, e3, n2⟩ := ih g hg
      refine ⟨g2, ?_, ?_, n2⟩
      · simp only [List.length_cons, edge_loop, add_edge_invalid g e h]
        exact e2
      · rw [List.filter_cons_of_neg (by simpa using h)]
        exact e3

end OpenMP

end Dijkstra

namespace Dijkstra

/-! ## The layout `add_edge` produces when the endpoints differ -/

theorem block_push (L : List Edge) (e : Edge) :
    (realloc (block_of L) ((L.length : Int) + 1)).set L.length (some e) =
      block_of (L ++ [e]) := by
  have hne : L ++ [e] ≠ [] := by simp
  have hk : ((L.length : Int) + 1).toNat = L.length + 1 := by omega
  unfold realloc block_of
  rw [if_neg hne, hk]
  by_cases h : L = []
  · subst h
    simp
  · rw [if_neg h]
    simp only [List.length_map, Nat.add_sub_cancel_left, List.replicate_one, List.map_append,
      List.map_cons, List.map_nil]
    rw [List.take_of_length_le (by simp)]
    rw [List.set_append_right _ _ (by simp)]
    simp

theorem map_range_set {α : Type} (N : Nat) (f : Nat → α) (u : Nat) (y : α) :
    ((List.range N).map f).set u y = (List.range N).map (fun x => if x = u then y else f x) := by
  apply List.ext_getElem
  · simp
  · intro i h1 h2
    simp only [List.length_set, List.length_map, List.length_range] at h1
    rw [List.getElem_set]
    simp only [List.getElem_map, List.getElem_range]
    by_cases h : u = i
    · subst h; simp
    · rw [if_neg h, if_neg (fun hc => h hc.symm)]

theorem Built.store_entry_built {g : Graph} {adj : Nat → List Edge} (hg : Built g adj) (node : Nat)
    (hn : node < g.num_nodes.toNat) (e : Edge) :
    ∃ g1, Dijkstra.store_entry g (node : Int) ((adj node).length : Int) e = some g1 ∧
      Built g1 (fun x => if x = node then adj node ++ [e] else adj x) ∧
      g1.num_nodes = g.num_nodes := by
  have l1 : (node : Int).toNat < g.adj_list.length := by rw [hg.2]; simpa using hn
  have l2 : (node : Int).toNat < g.adj_size.length := by rw [hg.1]; simpa using hn
  refine ⟨_, store_entry_eq g (node : Int) _ e (by omega) l1 l2 (by omega), ⟨?_, ?_⟩, rfl⟩
  · simp only [Int.toNat_natCast]
    have hsz : g.adj_size[node] = ((adj node).length : Int) := by
      simp only [hg.1, List.getElem_map, List.getElem_range]
    rw [hsz]
    conv_lhs => rw [hg.1]
    rw [map_range_set]
    apply List.map_congr_left
    intro x _
    by_cases hx : x = node
    · simp [hx]
    · simp [hx]
  · simp only [Int.toNat_natCast]
    have hblk : g.adj_list[node] = block_of (adj node) := by
      simp only [hg.2, List.getElem_map, List.getElem_range]
    rw [hblk, block_push]
    conv_lhs => rw [hg.2]
    rw [map_range_set]
    apply List.map_congr_left
    intro x _
    by_cases hx : x = node
    · simp [hx]
    · simp [hx]

theorem Built.add_edge_built {g : Graph} {adj : Nat → List Edge} (hg : Built g adj) (u v w : Int)
    (hu0 : 0 ≤ u) (hu1 : u < g.num_nodes) (hv0 : 0 ≤ v) (hv1 : v < g.num_nodes)
    (huv : u ≠ v) :
    ∃ g1, Dijkstra.add_edge g u v w = some g1 ∧
      Built g1 (fun x => adj x ++ ((if u = (x : Int) then [Edge.mk v w] else []) ++
        (if v = (x : Int) then [Edge.mk u w] else []))) ∧
      g1.num_nodes = g.num_nodes := by
  obtain ⟨a, rfl⟩ := Int.eq_ofNat_of_zero_le hu0
  obtain ⟨b, rfl⟩ := Int.eq_ofNat_of_zero_le hv0
  have ha : a < g.num_nodes.toNat := by omega
  have hb : b < g.num_nodes.toNat := by omega
  have hab : a ≠ b := fun h => huv (by rw [h])
  have hsa : rd g.adj_size (a : Int) = some ((adj a).length : Int) := by
    rw [rd_natCast, hg.1, List.getElem?_map, List.getElem?_range ha]; rfl
  have hsb : rd g.adj_size (b : Int) = some ((adj b).length : Int) := by
    rw [rd_natCast, hg.1, List.getElem?_map, List.getElem?_range hb]; rfl
  obtain ⟨g1, e1, b1, n1⟩ := hg.store_entry_built a ha ⟨(b : Int), w⟩
  obtain ⟨g2, e2, b2, n2⟩ := b1.store_entry_built b (by rw [n1]; exact hb) ⟨(a : Int), w⟩
  simp only [if_neg hab.symm] at e2
  refine ⟨g2, ?_, ?_, by rw [n2, n1]⟩
  · unfold Dijkstra.add_edge
    rw [hsa, hsb]
    simp only [Option.bind_eq_bind, Option.some_bind, e1, e2]
  · have hfun : (fun x => if x = b then (if b = a then adj a ++ [Edge.mk (b : Int) w] else adj b) ++
          [Edge.mk (a : Int) w]
        else if x = a then adj a ++ [Edge.mk (b : Int) w] else adj x) =
        (fun x => adj x ++ ((if (a : Int) = (x : Int) then [Edge.mk (b : Int) w] else []) ++
          (if (b : Int) = (x : Int) then [Edge.mk (a : Int) w] else []))) := by
      funext x
      by_cases hxb : x = b
      · subst hxb
        have : ¬ ((a : Int) = (x : Int)) := by omega
        simp [hab.symm, this]
      · by_cases hxa : x = a
        · subst hxa
          have : ¬ ((b : Int) = (x : Int)) := by omega
          simp [hxb, this]
        · have h1 : ¬ ((a : Int) = (x : Int)) := by omega
          have h2 : ¬ ((b : Int) = (x : Int)) := by omega
          simp [hxb, hxa, h1, h2]
    rw [← hfun]
    exact b2

theorem adj_of_append (es : List EdgeRec) (r : EdgeRec) (x : Int) :
    adj_of (es ++ [r]) x = adj_of es x ++
      ((if r.u = x then [Edge.mk r.v r.weight] else []) ++
        (if r.v = x then [Edge.mk r.u r.weight] else [])) := by
  simp [adj_of, List.flatMap_append]

theorem Built.create_graph_built (n m : Int) : Built (create_graph n m) (fun x => adj_of [] (x : Int)) := by
  constructor
  · simp [Dijkstra.create_graph, adj_of, List.map_const']
  · simp [Dijkstra.create_graph, adj_of, block_of, List.map_const']

theorem Built.fold_add_edge (rest : List EdgeRec) : ∀ (pre : List EdgeRec) (g : Graph),
    Built g (fun x => adj_of pre (x : Int)) →
    (∀ r ∈ rest, r.in_range g.num_nodes ∧ r.u ≠ r.v) →
    ∃ g1, rest.foldlM (fun g e => Dijkstra.add_edge g e.u e.v e.weight) g = some g1 ∧
      Built g1 (fun x => adj_of (pre ++ rest) (x : Int)) ∧ g1.num_nodes = g.num_nodes := by
  induction rest with
  | nil => intro pre g hg _; exact ⟨g, rfl, by simpa using hg, rfl⟩
  | cons r t ih =>
    intro pre g hg hok
    obtain ⟨hr, hne⟩ := hok r (List.mem_cons_self _ _)
    unfold EdgeRec.in_range at hr
    obtain ⟨g1, e1, b1, n1⟩ := hg.add_edge_built r.u r.v r.weight hr.1 hr.2.1 hr.2.2.1 hr.2.2.2 hne
    have b1' : Built g1 (fun x => adj_of (pre ++ [r]) (x : Int)) := by
      have : (fun x : Nat => adj_of (pre ++ [r]) (x : Int)) = fun x : Nat => adj_of pre (x : Int) ++
          ((if r.u = (x : Int) then [Edge.mk r.v r.weight] else []) ++
            (if r.v = (x : Int) then [Edge.mk r.u r.weight] else [])) := by
        funext x; exact adj_of_append pre r x
      rw [this]; exact b1
    obtain ⟨g2, e2, b2, n2⟩ := ih (pre ++ [r]) g1 b1' (fun r' hr' => by
      rw [n1]; exact hok r' (List.mem_cons_of_mem _ hr'))
    refine ⟨g2, ?_, by simpa using b2, by rw [n2, n1]⟩
    simp only [List.foldlM_cons, e1, Option.bind_eq_bind, Option.some_bind]
    exact e2

theorem all_some_map_some {α : Type} (l : List α) : all_some (l.map some) = some l := by
  induction l with
  | nil => rfl
  | cons a t ih => simp [all_some, ih]

theorem Built.neighbors {g : Graph} {adj : Nat → List Edge} (hg : Built g adj) (u : Nat)
    (hu : u < g.num_nodes.toNat) : neighbors g u = some (adj u) := by
  unfold Dijkstra.neighbors
  rw [hg.1, hg.2]
  simp only [List.getElem?_map, List.getElem?_range hu, Option.map_some', Option.bind_eq_bind,
    Option.some_bind]
  have hlen : (adj u).length ≤ (block_of (adj u)).length := by
    unfold block_of
    split_ifs with h
    · simp [h]
    · simp
  rw [if_pos ⟨by omega, by simpa using hlen⟩]
  simp only [Int.toNat_natCast]
  unfold block_of
  split_ifs with h
  · simp [h, all_some]
  · rw [List.take_of_length_le (by simp)]
    exact all_some_map_some _

/-- Graphs built by `create_graph` and `add_edge` from an edge list with in-range
endpoints and no self-loop are well formed and store that edge list. -/
theorem build_spec (n : Int) (es : List EdgeRec)
    (hok : ∀ r ∈ es, r.in_range n ∧ r.u ≠ r.v) :
    ∃ g, build n es = some g ∧ g.num_nodes = n ∧ WF g ∧ Represents g es := by
  obtain ⟨g, e1, b1, n1⟩ := Built.fold_add_edge es [] (create_graph n es.length)
    (Built.create_graph_built n es.length) hok
  have n1' : g.num_nodes = n := n1
  simp only [List.nil_append] at b1
  refine ⟨g, e1, n1', ⟨?_, ?_, ?_⟩, ?_⟩
  · rw [b1.1]; simp
  · rw [b1.2]; simp
  · intro u hu
    have hnb := b1.neighbors u hu
    refine ⟨by rw [hnb]; rfl, ?_⟩
    intro e he
    unfold nbrs at he
    rw [hnb] at he
    simp only [Option.getD_some] at he
    obtain ⟨r, hr, hcase⟩ := (mem_adj_of es _ e).1 he
    have := (hok r hr).1
    unfold EdgeRec.in_range at this
    rcases hcase with ⟨_, h2⟩ | ⟨_, h2⟩
    · rw [h2, n1']; exact ⟨this.2.2.1, this.2.2.2⟩
    · rw [h2, n1']; exact ⟨this.1, this.2.1⟩
  · intro u hu
    exact b1.neighbors u hu

end Dijkstra

namespace Dijkstra

/-- Neighbor lists after `add_edge` with distinct in-range endpoints: `(v, w)` is
appended to the list of `u`, `(u, w)` to the list of `v`, every other list and
`num_nodes` are unchanged. -/
theorem add_edge_appends {g : Graph} {adj : Nat → List Edge} (hg : Built g adj) (u v : Nat)
    (w : Int) (hu : u < g.num_nodes.toNat) (hv : v < g.num_nodes.toNat) (huv : u ≠ v) :
    ∃ g1, add_edge g (u : Int) (v : Int) w = some g1 ∧ g1.num_nodes = g.num_nodes ∧
      neighbors g1 u = some (adj u ++ [Edge.mk (v : Int) w]) ∧
      neighbors g1 v = some (adj v ++ [Edge.mk (u : Int) w]) ∧
      ∀ x, x < g.num_nodes.toNat → x ≠ u → x ≠ v → neighbors g1 x = some (adj x) := by
  obtain ⟨g1, e1, b1, n1⟩ := hg.add_edge_built (u : Int) (v : Int) w (by omega) (by omega) (by omega)
    (by omega) (by omega)
  have huv' : ¬ ((v : Int) = (u : Int)) := by omega
  have hvu' : ¬ ((u : Int) = (v : Int)) := by omega
  refine ⟨g1, e1, n1, ?_, ?_, ?_⟩
  · rw [b1.neighbors u (by rw [n1]; exact hu)]
    simp [huv']
  · rw [b1.neighbors v (by rw [n1]; exact hv)]
    simp [hvu']
  · intro x hx hxu hxv
    rw [b1.neighbors x (by rw [n1]; exact hx)]
    have h1 : ¬ ((u : Int) = (x : Int)) := by omega
    have h2 : ¬ ((v : Int) = (x : Int)) := by omega
    simp [h1, h2]

/-- For an edge list with in-range endpoints, no self-loop, non-negative weights and a
total weight below `INT_MAX`, `create_graph` and `add_edge` build a graph on which
`dijkstra_sequential` returns the true shortest-path weight of every reachable node and
`INF` for every other node. -/
theorem dijkstra_sequential_correct_of_build (n : Int) (es : List EdgeRec)
    (hok : ∀ r ∈ es, r.in_range n ∧ r.u ≠ r.v) (hnn : ∀ e ∈ es, 0 ≤ e.weight)
    (hsum : total_weight es < INF) (source : Int) (h0 : 0 ≤ source) (h1 : source < n) :
    ∃ g dist, build n es = some g ∧ dijkstra_sequential g source = some dist ∧
      IsAnswer g source.toNat dist := by
  obtain ⟨g, e1, n1, hwf, hrep⟩ := build_spec n es hok
  obtain ⟨dist, e2, hans⟩ := dijkstra_sequential_answer hwf hrep hnn hsum source h0
    (by rw [n1]; exact h1)
  exact ⟨g, dist, e1, e2, hans⟩

/-- Scenario A evaluated: one edge `(0, 1, 5)`, source 0. -/
theorem scenario_A :
    (build 2 [⟨0, 1, 5⟩]).bind (fun g => dijkstra_sequential g 0) = some [0, 5] := by decide

/-- Scenario B evaluated: the distances of `triangle` from node 0. -/
theorem scenario_B : dijkstra_sequential triangle 0 = some [0, 1, 2] := by decide

end Dijkstra

namespace Dijkstra

/-! ## What a relax iteration and a round can do, without any assumption -/

theorem rd_some_iff {α : Type} (xs : List α) (i : Int) (x : α) :
    rd xs i = some x ↔ 0 ≤ i ∧ xs[i.toNat]? = some x := by
  unfold rd
  split_ifs with h
  · simp [h]
  · simp [h]

theorem wr_some_iff {α : Type} (xs : List α) (i : Int) (x : α) (ys : List α) :
    wr xs i x = some ys ↔ 0 ≤ i ∧ i.toNat < xs.length ∧ ys = xs.set i.toNat x := by
  unfold wr
  split_ifs with h
  · simp only [Option.some.injEq]
    constructor
    · intro e; exact ⟨h.1, h.2, e.symm⟩
    · intro e; exact e.2.2.symm
  · simp only [false_iff]
    intro e
    exact h ⟨e.1, e.2.1⟩

theorem dist_at_of_getElem? (d : List Int) (v : Nat) (x : Int) (h : d[v]? = some x) :
    dist_at d v = x := by
  unfold dist_at
  rw [List.getD_eq_getElem?_getD, h]
  rfl

theorem vis_at_of_getElem? (vis : List Bool) (v : Nat) (x : Bool) (h : vis[v]? = some x) :
    vis_at vis v = x := by
  unfold vis_at
  rw [List.getD_eq_getElem?_getD, h]
  rfl

/-- A relax iteration that returns either leaves `distances` as it is or lowers the
entry of one unvisited destination to the candidate. -/
theorem relax_step_cases (g : Graph) (vis : List Bool) (mn : Int) (d : List Int) (i : Nat)
    (d1 : List Int) (h : relax_step g vis mn d i = some d1) :
    d1 = d ∨ ∃ (e : Edge) (dm : Int), 0 ≤ e.dest ∧ e.dest.toNat < d.length ∧
      rd vis e.dest = some false ∧ rd d mn = some dm ∧ dm ≠ INF ∧
      wrap32 (dm + e.weight) < dist_at d e.dest.toNat ∧
      d1 = d.set e.dest.toNat (wrap32 (dm + e.weight)) := by
  unfold relax_step at h
  simp only [Option.bind_eq_bind, Option.bind_eq_some, Option.pure_def] at h
  obtain ⟨blk, _, slot, _, e, _, b, hb, h⟩ := h
  cases b with
  | true =>
    simp only [if_true, Option.some.injEq] at h
    left; exact h.symm
  | false =>
    simp only [Bool.false_eq_true, if_false, Option.bind_eq_some] at h
    obtain ⟨dm, hdm, h⟩ := h
    by_cases hinf : dm = INF
    · rw [if_pos hinf] at h
      left; exact (Option.some.inj h).symm
    · rw [if_neg hinf, Option.bind_eq_some] at h
      obtain ⟨dn, hdn, h⟩ := h
      by_cases hlt : wrap32 (dm + e.weight) < dn
      · rw [if_pos hlt] at h
        obtain ⟨h0, h1, h2⟩ := (wr_some_iff _ _ _ _).1 h
        right
        refine ⟨e, dm, h0, h1, hb, hdm, hinf, ?_, h2⟩
        rw [dist_at_of_getElem? d _ dn ((rd_some_iff _ _ _).1 hdn).2]
        exact hlt
      · rw [if_neg hlt] at h
        left; exact (Option.some.inj h).symm

theorem relax_step_le (g : Graph) (vis : List Bool) (mn : Int) (d : List Int) (i : Nat)
    (d1 : List Int) (h : relax_step g vis mn d i = some d1) :
    d1.length = d.length ∧ ∀ v, dist_at d1 v ≤ dist_at d v := by
  rcases relax_step_cases g vis mn d i d1 h with rfl | ⟨e, dm, _, h1, _, _, _, h5, rfl⟩
  · exact ⟨rfl, fun _ => le_refl _⟩
  · refine ⟨by simp, fun v => ?_⟩
    rw [dist_at_set]
    split_ifs with hc
    · rw [← hc.1]; exact le_of_lt h5
    · exact le_refl _

theorem foldlM_rel {σ ι : Type} (R : σ → σ → Prop) (hrefl : ∀ s, R s s)
    (htrans : ∀ a b c, R a b → R b c → R a c) (step : σ → ι → Option σ)
    (hstep : ∀ s i s1, step s i = some s1 → R s s1) (l : List ι) :
    ∀ s s1, l.foldlM step s = some s1 → R s s1 := by
  induction l with
  | nil =>
    intro s s1 h
    simp only [List.foldlM_nil, Option.pure_def, Option.some.injEq] at h
    rw [h]; exact hrefl _
  | cons i t ih =>
    intro s s1 h
    simp only [List.foldlM_cons, Option.bind_eq_bind, Option.bind_eq_some] at h
    obtain ⟨s2, h1, h2⟩ := h
    exact htrans _ _ _ (hstep s i s2 h1) (ih s2 s1 h2)

theorem relax_le (g : Graph) (vis : List Bool) (mn : Int) (d d1 : List Int)
    (h : relax g vis mn d = some d1) :
    d1.length = d.length ∧ ∀ v, dist_at d1 v ≤ dist_at d v := by
  unfold relax at h
  simp only [Option.bind_eq_bind, Option.bind_eq_some] at h
  obtain ⟨sz, _, h⟩ := h
  exact foldlM_rel (fun a b : List Int => b.length = a.length ∧ ∀ v, dist_at b v ≤ dist_at a v)
    (fun _ => ⟨rfl, fun _ => le_refl _⟩)
    (fun a b c h1 h2 => ⟨by rw [h2.1, h1.1], fun v => le_trans (h2.2 v) (h1.2 v)⟩)
    (relax_step g vis mn) (fun s i s1 hs => relax_step_le g vis mn s i s1 hs) _ d d1 h

/-- The scan returns `-1` or an unvisited node together with its distance, which is
below `INF`. -/
theorem scan_foldlM_unvisited (d : List Int) (vis : List Bool) (l : List Nat) :
    ∀ acc m : Int × Int, l.foldlM (scan_step d vis) acc = some m →
      (acc.1 ≤ INF ∧ (acc.2 = -1 ∨ ∃ v : Nat, acc.2 = (v : Int) ∧ vis[v]? = some false ∧
        d[v]? = some acc.1 ∧ acc.1 < INF)) →
      (m.1 ≤ INF ∧ (m.2 = -1 ∨ ∃ v : Nat, m.2 = (v : Int) ∧ vis[v]? = some false ∧
        d[v]? = some m.1 ∧ m.1 < INF)) := by
  induction l with
  | nil =>
    intro acc m h hacc
    simp only [List.foldlM_nil, Option.pure_def, Option.some.injEq] at h
    rw [← h]; exact hacc
  | cons x t ih =>
    intro acc m h hacc
    simp only [List.foldlM_cons, Option.bind_eq_bind, Option.bind_eq_some] at h
    obtain ⟨acc1, h1, h2⟩ := h
    apply ih acc1 m h2
    unfold scan_step at h1
    simp only [Option.bind_eq_bind, Option.bind_eq_some, Option.pure_def] at h1
    obtain ⟨b, hb, h1⟩ := h1
    cases b with
    | true =>
      simp only [if_true, Option.some.injEq] at h1
      rw [← h1]; exact hacc
    | false =>
      simp only [Bool.false_eq_true, if_false, Option.bind_eq_some] at h1
      obtain ⟨dv, hdv, h1⟩ := h1
      by_cases hlt : dv < acc.1
      · rw [if_pos hlt] at h1
        have := Option.some.inj h1
        rw [← this]
        exact ⟨by simp only; omega, Or.inr ⟨x, rfl, hb, hdv, by simp only; omega⟩⟩
      · rw [if_neg hlt] at h1
        rw [← Option.some.inj h1]; exact hacc

theorem extract_min_unvisited (n : Int) (d : List Int) (vis : List Bool) (m : Int × Int)
    (h : extract_min n d vis = some m) :
    m.2 = -1 ∨ ∃ v : Nat, m.2 = (v : Int) ∧ vis[v]? = some false ∧ d[v]? = some m.1 ∧
      m.1 < INF :=
  (scan_foldlM_unvisited d vis _ (INF, -1) m h ⟨le_refl _, Or.inl rfl⟩).2

/-- A round that is executed marks one node that was unvisited, whose distance was
below `INF`, and lowers or keeps every distance. -/
theorem round_cases (g : Graph) (d : List Int) (vis : List Bool)
    (st1 : List Int × List Bool) (h : round g (d, vis) = some (some st1)) :
    ∃ u : Nat, u < vis.length ∧ vis[u]? = some false ∧ dist_at d u < INF ∧
      extract_min g.num_nodes d vis = some (dist_at d u, (u : Int)) ∧
      st1.2 = vis.set u true ∧ relax g (vis.set u true) (u : Int) d = some st1.1 ∧
      st1.1.length = d.length ∧ ∀ v, dist_at st1.1 v ≤ dist_at d v := by
  unfold round at h
  simp only [Option.bind_eq_bind, Option.bind_eq_some] at h
  obtain ⟨m, hm, h⟩ := h
  by_cases hneg : m.2 = -1
  · rw [if_pos hneg] at h
    simp at h
  · rw [if_neg hneg] at h
    simp only [Option.bind_eq_some, Option.pure_def, Option.some.injEq] at h
    obtain ⟨vis1, hvis1, d1, hd1, h⟩ := h
    rcases extract_min_unvisited _ d vis m hm with h0 | ⟨u, hu, hvu, hdu, hlt⟩
    · exact absurd h0 hneg
    · obtain ⟨_, w1, w2⟩ := (wr_some_iff _ _ _ _).1 hvis1
      rw [hu, Int.toNat_natCast] at w1 w2
      have hdist : dist_at d u = m.1 := dist_at_of_getElem? d u _ hdu
      obtain ⟨l1, l2⟩ := relax_le g vis1 m.2 d d1 hd1
      refine ⟨u, w1, hvu, by rw [hdist]; exact hlt, ?_, ?_, ?_, ?_, ?_⟩
      · rw [hm, hdist, ← hu]
      · rw [← h]; exact w2
      · rw [← h, ← w2, ← hu]; exact hd1
      · rw [← h]; exact l1
      · rw [← h]; exact l2

end Dijkstra

namespace Dijkstra

/-! ## Runs -/

theorem for_break_succ {σ : Type} (b : σ → Option (Option σ)) (k : Nat) :
    ∀ (c : Nat) (st : σ), for_break (fun _ => b) (k + 1) c st =
      (for_break (fun _ => b) k c st).bind (fun st1 =>
        match b st1 with
        | none => none
        | some none => some st1
        | some (some st2) => some st2) := by
  induction k with
  | zero =>
    intro c st
    cases h : b st with
    | none => simp [for_break, h]
    | some r => cases r <;> simp [for_break, h]
  | succ k ih =>
    intro c st
    rw [for_break]
    cases h : b st with
    | none => simp [for_break, h]
    | some r =>
      cases r with
      | none => simp [for_break, h]
      | some st1 =>
        simp only [h]
        rw [ih (c + 1) st1]
        conv_rhs => rw [for_break]
        simp only [h]

theorem run_state_succ (g : Graph) (source : Int) (k : Nat) :
    run_state g source (k + 1) = (run_state g source k).bind (next_state g) := by
  unfold run_state
  cases init_state g source with
  | none => rfl
  | some st =>
    simp only [Option.some_bind]
    rw [for_break_succ (round g) k 0 st]
    congr 1
    funext st1
    unfold next_state
    cases round g st1 with
    | none => rfl
    | some r => cases r <;> rfl

theorem dijkstra_sequential_eq_run (g : Graph) (source : Int) :
    dijkstra_sequential g source =
      (run_state g source g.num_nodes.toNat).map (fun st => st.1) := by
  unfold dijkstra_sequential run_state
  cases init_state g source with
  | none => rfl
  | some st =>
    simp only [Option.bind_eq_bind, Option.some_bind]
    cases for_break (fun _ st => round g st) g.num_nodes.toNat 0 st <;> rfl

theorem next_state_cases (g : Graph) (st st1 : List Int × List Bool)
    (h : next_state g st = some st1) :
    (round g st = some none ∧ st1 = st) ∨ round g st = some (some st1) := by
  unfold next_state at h
  cases hr : round g st with
  | none => simp [hr] at h
  | some r =>
    cases r with
    | none => simp only [hr, Option.some.injEq] at h; left; exact ⟨rfl, h.symm⟩
    | some st2 => simp only [hr, Option.some.injEq] at h; right; rw [h]

/-- A property kept by every round holds along the whole run once it holds at a
state of the run. -/
theorem run_state_rel (g : Graph) (source : Int) (R : List Int × List Bool →
    List Int × List Bool → Prop) (hrefl : ∀ s, R s s) (htrans : ∀ a b c, R a b → R b c → R a c)
    (hstep : ∀ st st1, round g st = some (some st1) → R st st1) (k j : Nat)
    (st st1 : List Int × List Bool) (h : run_state g source k = some st)
    (h1 : run_state g source (k + j) = some st1) : R st st1 := by
  induction j generalizing st1 with
  | zero =>
    rw [Nat.add_zero, h] at h1
    rw [← Option.some.inj h1]; exact hrefl _
  | succ j ih =>
    rw [← Nat.add_assoc, run_state_succ, Option.bind_eq_some] at h1
    obtain ⟨st2, h2, h3⟩ := h1
    have r1 := ih st2 h2
    rcases next_state_cases g st2 st1 h3 with ⟨_, rfl⟩ | hr
    · exact r1
    · exact htrans _ _ _ r1 (hstep st2 st1 hr)

theorem init_state_some (g : Graph) (source : Int) (st : List Int × List Bool)
    (h : init_state g source = some st) :
    0 ≤ source ∧ source.toNat < g.num_nodes.toNat ∧
      st = ((List.replicate g.num_nodes.toNat INF).set source.toNat 0,
        List.replicate g.num_nodes.toNat false) := by
  unfold init_state at h
  simp only [Option.bind_eq_bind, Option.bind_eq_some, Option.pure_def, Option.some.injEq] at h
  obtain ⟨d, hd, h⟩ := h
  obtain ⟨h0, h1, h2⟩ := (wr_some_iff _ _ _ _).1 hd
  refine ⟨h0, by simpa using h1, ?_⟩
  rw [← h, h2]

theorem run_state_zero (g : Graph) (source : Int) :
    run_state g source 0 = init_state g source := by
  unfold run_state
  cases init_state g source <;> rfl

end Dijkstra

namespace Dijkstra

theorem run_state_inv (g : Graph) (source : Int) (I : List Int × List Bool → Prop)
    (hinit : ∀ st, init_state g source = some st → I st)
    (hstep : ∀ st st1, I st → round g st = some (some st1) → I st1) (k : Nat) :
    ∀ st, run_state g source k = some st → I st := by
  induction k with
  | zero =>
    intro st h
    rw [run_state_zero] at h
    exact hinit st h
  | succ k ih =>
    intro st h
    rw [run_state_succ, Option.bind_eq_some] at h
    obtain ⟨st0, h0, h1⟩ := h
    rcases next_state_cases g st0 st h1 with ⟨_, e⟩ | hr
    · rw [e]; exact ih st0 h0
    · exact hstep st0 st (ih st0 h0) hr

/-- On a well-formed graph with an in-range source the run reaches every round. -/
theorem run_state_exists (g : Graph) (hg : WF g) (source : Int) (h0 : 0 ≤ source)
    (h1 : source < g.num_nodes) (k : Nat) :
    ∃ st, run_state g source k = some st ∧ st.1.length = g.num_nodes.toNat ∧
      st.2.length = g.num_nodes.toNat := by
  have hloop := for_break_inv
    (fun st : List Int × List Bool => st.1.length = g.num_nodes.toNat ∧
      st.2.length = g.num_nodes.toNat)
    (fun _ st => round g st)
    (by
      rintro _ ⟨d, vis⟩ ⟨hd, hv⟩
      refine ⟨_, round_eq g hg d vis hd hv, ?_⟩
      intro st1 hst1
      exact round_fn_lengths g hg d vis hd hv st1 hst1)
    k 0
    ((List.replicate g.num_nodes.toNat INF).set source.toNat 0,
      List.replicate g.num_nodes.toNat false)
    ⟨by simp, by simp⟩
  obtain ⟨fin, hfin, hl⟩ := hloop
  refine ⟨fin, ?_, hl⟩
  unfold run_state
  rw [init_state_eq g source h0 h1]
  exact hfin

/-- With non-negative weights of total below `INF` the loop invariant holds at every
round of the run. -/
theorem run_state_DInv {g : Graph} {es : List EdgeRec} (hg : WF g) (hrep : Represents g es)
    (hnn : ∀ e ∈ es, 0 ≤ e.weight) (hsum : total_weight es < INF) (source : Int)
    (h0 : 0 ≤ source) (h1 : source < g.num_nodes) (k : Nat) :
    ∃ st, run_state g source k = some st ∧ DInv g es source.toNat st.1 st.2 := by
  have hs : source.toNat < g.num_nodes.toNat := by omega
  have hloop := for_break_inv
    (fun st : List Int × List Bool => DInv g es source.toNat st.1 st.2)
    (fun _ st => round g st)
    (by
      rintro _ ⟨d, vis⟩ hinv
      refine ⟨_, round_eq g hg d vis hinv.len_d hinv.len_v, ?_⟩
      intro st1 hst1
      have hpost := round_fn_post g d vis
      rw [hst1] at hpost
      exact (hinv.round hg hrep hnn hsum hs hpost).1)
    k 0
    ((List.replicate g.num_nodes.toNat INF).set source.toNat 0,
      List.replicate g.num_nodes.toNat false)
    (DInv.init g es hnn source.toNat hs)
  obtain ⟨fin, hfin, hl⟩ := hloop
  refine ⟨fin, ?_, hl⟩
  unfold run_state
  rw [init_state_eq g source h0 h1]
  exact hfin

/-- The relax loop never writes the entry of a visited node. -/
theorem relax_keeps_visited (g : Graph) (vis : List Bool) (mn : Int) (d d1 : List Int)
    (h : relax g vis mn d = some d1) (v : Nat) (hv : vis[v]? = some true) :
    dist_at d1 v = dist_at d v := by
  unfold relax at h
  simp only [Option.bind_eq_bind, Option.bind_eq_some] at h
  obtain ⟨sz, _, h⟩ := h
  refine foldlM_rel (fun a b : List Int => dist_at b v = dist_at a v) (fun _ => rfl)
    (fun a b c h1 h2 => by show dist_at c v = dist_at a v; rw [h2, h1]) (relax_step g vis mn) ?_ _ d d1 h
  intro s i s1 hs
  rcases relax_step_cases g vis mn s i s1 hs with rfl | ⟨e, dm, e0, _, e2, _, _, _, rfl⟩
  · rfl
  · rw [dist_at_set, if_neg]
    rintro ⟨hc, _⟩
    have := ((rd_some_iff _ _ _).1 e2).2
    rw [hc, hv] at this
    exact absurd this (by simp)

theorem getElem?_set_true (vis : List Bool) (u v : Nat) (h : vis[v]? = some true) :
    (vis.set u true)[v]? = some true := by
  rw [List.getElem?_set]
  split_ifs with h1 h2
  · rfl
  · subst h1
    rw [List.getElem?_eq_none (Nat.le_of_not_lt h2)] at h
    exact absurd h (by simp)
  · exact h

end Dijkstra

namespace Dijkstra

/-- Scenario B: `create_graph` and three `add_edge` calls produce `triangle`. -/
theorem build_triangle : build 3 [⟨0, 1, 1⟩, ⟨1, 2, 1⟩, ⟨0, 2, 5⟩] = some triangle := by
  decide

/-- Scenario C: `create_graph` and one `add_edge` call produce `disconnected`. -/
theorem build_disconnected : build 3 [⟨0, 1, 3⟩] = some disconnected := by decide

/-- C4. For every well-formed graph (all stored endpoints in range), every in-range
source and every group size `P ≥ 1`, `dijkstra_mpi` run by `P` ranks returns on rank 0 the
same distance array as `dijkstra_sequential`, and both calls return. -/
theorem dijkstra_mpi_eq_sequential (g : Graph) (hg : WF g) (source : Int)
    (h0 : 0 ≤ source) (h1 : source < g.num_nodes) (P : Nat) (hP : 1 ≤ P) :
    ∃ dist, dijkstra_sequential g source = some dist ∧
      MPI.dijkstra_mpi g source P = some dist := by
  obtain ⟨fin, hs, hm⟩ := mpi_loop_eq g hg P hP g.num_nodes.toNat 0 0
    ((List.replicate g.num_nodes.toNat INF).set source.toNat 0)
    (List.replicate g.num_nodes.toNat false) (by simp) (by simp)
  refine ⟨fin.1, ?_, ?_⟩
  · unfold dijkstra_sequential
    rw [init_state_eq g source h0 h1]
    simp only [Option.bind_eq_bind, Option.some_bind, hs, Option.pure_def]
  · unfold MPI.dijkstra_mpi MPI.init_states
    rw [init_state_eq g source h0 h1]
    simp only [Option.bind_eq_bind, Option.some_bind, Option.pure_def, hm]
    rw [List.getElem?_replicate, if_pos (by omega)]
    rfl

theorem dijkstra_mpi_eq_sequential_witness :
    WF triangle ∧ (0 : Int) ≤ 0 ∧ (0 : Int) < triangle.num_nodes ∧ 1 ≤ 2 ∧
    ∃ dist, dijkstra_sequential triangle 0 = some dist ∧
      MPI.dijkstra_mpi triangle 0 2 = some dist :=
  ⟨by decide, by decide, by decide, by decide,
    dijkstra_mpi_eq_sequential triangle (by decide) 0 (by decide) (by decide) 2 (by decide)⟩

end Dijkstra

namespace Dijkstra

/-- C8. For every state whose arrays have `num_nodes` cells holding C `int` values, the
extract-min scan of `dijkstra_sequential` returns; if some unvisited node has a distance
below `INF`, `min_node` is the smallest id among the unvisited nodes of least distance;
`min_node` is `-1` exactly when every unvisited node has distance `INF`, and then the
round takes the `break`. -/
theorem sequential_extract_min_spec (g : Graph) (d : List Int) (vis : List Bool)
    (hd : d.length = g.num_nodes.toNat) (hv : vis.length = g.num_nodes.toNat)
    (hint : ∀ x ∈ d, x ≤ INF) :
    ∃ m, extract_min g.num_nodes d vis = some m ∧
      ((∃ v, v < g.num_nodes.toNat ∧ vis_at vis v = false ∧ dist_at d v < INF) →
        ∃ v0, v0 < g.num_nodes.toNat ∧ m = (dist_at d v0, (v0 : Int)) ∧
          vis_at vis v0 = false ∧
          (∀ v, v < g.num_nodes.toNat → vis_at vis v = false →
            dist_at d v0 ≤ dist_at d v) ∧
          (∀ v, v < g.num_nodes.toNat → vis_at vis v = false →
            dist_at d v = dist_at d v0 → v0 ≤ v)) ∧
      (m.2 = -1 ↔
        ∀ v, v < g.num_nodes.toNat → vis_at vis v = false → dist_at d v = INF) ∧
      (m.2 = -1 → round g (d, vis) = some none) := by
  refine ⟨_, extract_min_eq g.num_nodes d vis hd hv, ?_, ?_, ?_⟩
  · rintro ⟨v, hv1, hv2, hv3⟩
    rcases scan_range_spec d vis g.num_nodes.toNat with
      ⟨_, h2⟩ | ⟨v0, hv0, h1, h2, _, h4, h5⟩
    · have := h2 v hv1 hv2
      omega
    · exact ⟨v0, hv0, h1, h2, h4, h5⟩
  · rcases scan_range_spec d vis g.num_nodes.toNat with
      ⟨h1, h2⟩ | ⟨v0, hv0, h1, h2, h3, _, _⟩
    · rw [h1]
      refine ⟨fun _ v hv1 hv2 => le_antisymm (dist_at_le_INF d hint v) (h2 v hv1 hv2),
        fun _ => rfl⟩
    · rw [h1]
      constructor
      · intro h
        simp only at h
        omega
      · intro h
        have := h v0 hv0 h2
        omega
  · intro h
    unfold round
    simp only [extract_min_eq g.num_nodes d vis hd hv, Option.bind_eq_bind, Option.some_bind]
    rw [if_pos h]
    rfl

theorem sequential_extract_min_spec_witness :
    ([0, 5, 5] : List Int).length = triangle.num_nodes.toNat ∧
    ([true, false, false] : List Bool).length = triangle.num_nodes.toNat ∧
    (∀ x ∈ ([0, 5, 5] : List Int), x ≤ INF) ∧
    ∃ m, extract_min triangle.num_nodes [0, 5, 5] [true, false, false] = some m ∧
      ((∃ v, v < triangle.num_nodes.toNat ∧ vis_at [true, false, false] v = false ∧
          dist_at [0, 5, 5] v < INF) →
        ∃ v0, v0 < triangle.num_nodes.toNat ∧ m = (dist_at [0, 5, 5] v0, (v0 : Int)) ∧
          vis_at [true, false, false] v0 = false ∧
          (∀ v, v < triangle.num_nodes.toNat → vis_at [true, false, false] v = false →
            dist_at [0, 5, 5] v0 ≤ dist_at [0, 5, 5] v) ∧
          (∀ v, v < triangle.num_nodes.toNat → vis_at [true, false, false] v = false →
            dist_at [0, 5, 5] v = dist_at [0, 5, 5] v0 → v0 ≤ v)) ∧
      (m.2 = -1 ↔
        ∀ v, v < triangle.num_nodes.toNat → vis_at [true, false, false] v = false →
          dist_at [0, 5, 5] v = INF) ∧
      (m.2 = -1 → round triangle ([0, 5, 5], [true, false, false]) = some none) :=
  ⟨by decide, by decide, by decide,
    sequential_extract_min_spec triangle [0, 5, 5] [true, false, false] (by decide) (by decide)
      (by decide)⟩

/-- C10. For every state shared by all ranks (arrays of `num_nodes` cells) and every
`P ≥ 1`, the pair `(min_dist, min_node)` that `dijkstra_mpi` obtains from the per-rank
slice scans and rank 0's scan over the gathered candidates is the pair the sequential
extract-min returns: `(INF, -1)` when no unvisited node has a distance below `INF`, and
otherwise the least distance with the smallest node id attaining it. -/
theorem mpi_global_min_eq_extract_min (g : Graph) (P : Nat) (hP : 1 ≤ P) (d : List Int)
    (vis : List Bool) (hd : d.length = g.num_nodes.toNat)
    (hv : vis.length = g.num_nodes.toNat) :
    ∃ m, extract_min g.num_nodes d vis = some m ∧
      MPI.global_min g P (List.replicate P { distances := d, visited := vis }) = some m ∧
      ((m = (INF, -1) ∧
          ∀ v, v < g.num_nodes.toNat → vis_at vis v = false → INF ≤ dist_at d v) ∨
        ∃ v0, v0 < g.num_nodes.toNat ∧ m = (dist_at d v0, (v0 : Int)) ∧
          vis_at vis v0 = false ∧ dist_at d v0 < INF ∧
          (∀ v, v < g.num_nodes.toNat → vis_at vis v = false →
            dist_at d v0 ≤ dist_at d v) ∧
          (∀ v, v < g.num_nodes.toNat → vis_at vis v = false →
            dist_at d v = dist_at d v0 → v0 ≤ v)) :=
  ⟨_, extract_min_eq g.num_nodes d vis hd hv, MPI.global_min_eq g P hP d vis hd hv,
    scan_range_spec d vis g.num_nodes.toNat⟩

theorem mpi_global_min_eq_extract_min_witness :
    1 ≤ 2 ∧ ([0, 5, 5] : List Int).length = triangle.num_nodes.toNat ∧
    ([true, false, false] : List Bool).length = triangle.num_nodes.toNat ∧
    ∃ m, extract_min triangle.num_nodes [0, 5, 5] [true, false, false] = some m ∧
      MPI.global_min triangle 2
        (List.replicate 2 { distances := [0, 5, 5], visited := [true, false, false] }) =
        some m ∧
      ((m = (INF, -1) ∧
          ∀ v, v < triangle.num_nodes.toNat → vis_at [true, false, false] v = false →
            INF ≤ dist_at [0, 5, 5] v) ∨
        ∃ v0, v0 < triangle.num_nodes.toNat ∧ m = (dist_at [0, 5, 5] v0, (v0 : Int)) ∧
          vis_at [true, false, false] v0 = false ∧ dist_at [0, 5, 5] v0 < INF ∧
          (∀ v, v < triangle.num_nodes.toNat → vis_at [true, false, false] v = false →
            dist_at [0, 5, 5] v0 ≤ dist_at [0, 5, 5] v) ∧
          (∀ v, v < triangle.num_nodes.toNat → vis_at [true, false, false] v = false →
            dist_at [0, 5, 5] v = dist_at [0, 5, 5] v0 → v0 ≤ v)) :=
  ⟨by decide, by decide, by decide,
    mpi_global_min_eq_extract_min triangle 2 (by decide) [0, 5, 5] [true, false, false]
      (by decide) (by decide)⟩

end Dijkstra

namespace Dijkstra

/-- C2. For every well-formed graph (all stored endpoints in range, any weights) and
every in-range source, `dijkstra_sequential` returns, and every node with no path from
the source holds `INF` in the returned array. -/
theorem unreachable_keeps_INF (g : Graph) (hg : WF g) (source : Int) (h0 : 0 ≤ source)
    (h1 : source < g.num_nodes) :
    ∃ dist, dijkstra_sequential g source = some dist ∧
      ∀ v, v < g.num_nodes.toNat → ¬ Reachable g source.toNat v → dist[v]? = some INF := by
  have hloop := for_break_inv
    (fun st : List Int × List Bool => st.1.length = g.num_nodes.toNat ∧
      st.2.length = g.num_nodes.toNat ∧
      ∀ v, v < g.num_nodes.toNat → dist_at st.1 v ≠ INF → Reachable g source.toNat v)
    (fun _ st => round g st)
    (by
      rintro _ ⟨d, vis⟩ ⟨hd, hv, hinv⟩
      refine ⟨_, round_eq g hg d vis hd hv, ?_⟩
      intro st1 hst1
      obtain ⟨l1, l2⟩ := round_fn_lengths g hg d vis hd hv st1 hst1
      refine ⟨l1, l2, reach_inv_round g hg _ d vis hd hinv st1 ?_⟩
      rw [← hst1]
      exact round_fn_post g d vis)
    g.num_nodes.toNat 0
    ((List.replicate g.num_nodes.toNat INF).set source.toNat 0,
      List.replicate g.num_nodes.toNat false)
    (by
      refine ⟨by simp, by simp, ?_⟩
      intro v _ hne
      rw [dist_at_init] at hne
      split_ifs at hne with hc
      · rw [hc.1]; exact Reachable.refl g v
      · exact absurd rfl hne)
  obtain ⟨fin, hfin, hlen, _, hinv⟩ := hloop
  refine ⟨fin.1, ?_, ?_⟩
  · unfold dijkstra_sequential
    rw [init_state_eq g source h0 h1]
    simp only [Option.bind_eq_bind, Option.some_bind, hfin, Option.pure_def]
  · intro v hv hnr
    rw [getElem?_dist_at fin.1 v (by omega)]
    congr 1
    by_contra hne
    exact hnr (hinv v hv hne)

theorem unreachable_keeps_INF_witness :
    WF disconnected ∧ (0 : Int) ≤ 0 ∧ (0 : Int) < disconnected.num_nodes ∧
    ¬ Reachable disconnected 0 2 ∧
    ∃ dist, dijkstra_sequential disconnected 0 = some dist ∧ dist[2]? = some INF := by
  have hnr : ¬ Reachable disconnected 0 2 := by
    apply not_reachable_of_closed disconnected (fun u => decide (u < 2)) 0 2 (by decide)
    · intro u hu e he
      have hu' : u < 2 := by simpa using hu
      interval_cases u
      · revert e; decide
      · revert e; decide
    · decide
  obtain ⟨dist, hd, hv⟩ := unreachable_keeps_INF disconnected (by decide) 0 (by decide)
    (by decide)
  exact ⟨by decide, by decide, by decide, hnr, dist, hd, hv 2 (by decide) hnr⟩

/-- Scenario C evaluated: the distances of `disconnected` from node 0. -/
theorem scenario_C : dijkstra_sequential disconnected 0 = some [0, 3, INF] := by decide

end Dijkstra

namespace Dijkstra

theorem two_workers_valid : two_workers.Valid 2 := by
  refine ⟨fun v => Nat.mod_lt v (by decide), by decide, fun k => List.reverse_perm _⟩

/-- C3. For every well-formed graph that stores an edge list with non-negative weights
whose sum is below `INT_MAX`, every in-range source, every team size `T` and every valid
schedule of every round (any assignment of scan iterations to the `T` workers, any
order of entry into the critical sections), `dijkstra_parallel_optimized` of
`dijkstra_openmp.c` and `dijkstra_parallel` of `performance_test.c` return the same
distance array as `dijkstra_sequential`. -/
theorem shared_memory_eq_sequential (g : Graph) (es : List EdgeRec) (hg : WF g)
    (hrep : Represents g es) (hnn : ∀ e ∈ es, 0 ≤ e.weight) (hsum : total_weight es < INF)
    (source : Int) (h0 : 0 ≤ source) (h1 : source < g.num_nodes) (T : Nat) (hT : 1 ≤ T)
    (sched : Nat → Schedule) (hsched : ∀ c, (sched c).Valid T) :
    ∃ dist, dijkstra_sequential g source = some dist ∧
      OpenMP.dijkstra_parallel_optimized g source sched = some dist ∧
      PerfTest.dijkstra_parallel g source sched = some dist := by
  have _ := hT
  obtain ⟨a, ha, ha'⟩ := dijkstra_sequential_answer hg hrep hnn hsum source h0 h1
  obtain ⟨b, hb, hb'⟩ := omp_parallel_answer hg hrep hnn hsum source h0 h1 T sched hsched
  obtain ⟨c, hc, hc'⟩ := perf_parallel_answer hg hrep hnn hsum source h0 h1 T sched hsched
  refine ⟨a, ha, ?_, ?_⟩
  · rw [hb, ha'.unique hb']
  · rw [hc, ha'.unique hc']

theorem shared_memory_eq_sequential_witness :
    WF triangle ∧ Represents triangle triangle_edges ∧
    (∀ e ∈ triangle_edges, 0 ≤ e.weight) ∧ total_weight triangle_edges < INF ∧
    (0 : Int) ≤ 0 ∧ (0 : Int) < triangle.num_nodes ∧ 1 ≤ 2 ∧
    (∀ c : Nat, ((fun _ => two_workers) c).Valid 2) ∧
    ∃ dist, dijkstra_sequential triangle 0 = some dist ∧
      OpenMP.dijkstra_parallel_optimized triangle 0 (fun _ => two_workers) = some dist ∧
      PerfTest.dijkstra_parallel triangle 0 (fun _ => two_workers) = some dist :=
  ⟨by decide, by decide, by decide, by decide, by decide, by decide, by decide,
    fun _ => two_workers_valid,
    shared_memory_eq_sequential triangle triangle_edges (by decide) (by decide) (by decide)
      (by decide) 0 (by decide) (by decide) 2 (by decide) (fun _ => two_workers)
      (fun _ => two_workers_valid)⟩

end Dijkstra

namespace Dijkstra

/-- C9 (fails on the code). The graph `fork` with source 0 and two workers: after
round 1, nodes 1 and 2 are unvisited at distance 5.  In round 2 worker 0 proposes node
1, worker 1 proposes node 2; when worker 1 enters the critical section first the strict
comparison keeps node 2, while the sequential scan selects node 1. -/
theorem par_extract_min_tie :
    build 3 [⟨0, 1, 5⟩, ⟨0, 2, 5⟩] = some fork ∧
    init_state fork 0 = some ([0, INF, INF], [false, false, false]) ∧
    PerfTest.round fork static_late ([0, INF, INF], [false, false, false]) =
      some (some ([0, 5, 5], [true, false, false])) ∧
    OpenMP.round fork static_late ([0, INF, INF], [false, false, false]) =
      some (some ([0, 5, 5], [true, false, false])) ∧
    par_extract_min fork.num_nodes static_late [0, 5, 5] [true, false, false] = some (5, 2) ∧
    extract_min fork.num_nodes [0, 5, 5] [true, false, false] = some (5, 1) ∧
    static_late.Valid 2 :=
  ⟨by decide, by decide, by decide, by decide, by decide, by decide,
    fun v => by show (if v < 2 then 0 else 1) < 2; split_ifs <;> decide,
    by decide, fun k => List.Perm.refl _⟩

/-- C5 (fails on the code). A self-loop on the one-node graph: both sizes are read
before the first write, so the second entry overwrites slot 0; `adj_size[0]` becomes 2
while the block holds one slot, and the neighbor list of node 0 is not defined.  The
`add_edge` of `dijkstra_openmp.c` behaves the same. -/
theorem add_edge_self_loop :
    add_edge (create_graph 1 1) 0 0 7 =
      some { num_nodes := 1, num_edges := 1, adj_list := [[some ⟨0, 7⟩]], adj_size := [2] } ∧
    neighbors { num_nodes := 1, num_edges := 1, adj_list := [[some ⟨0, 7⟩]], adj_size := [2] }
      0 = none ∧
    OpenMP.add_edge (create_graph 1 1) 0 0 7 =
      some { graph := { num_nodes := 1, num_edges := 1, adj_list := [[some ⟨0, 7⟩]],
                        adj_size := [2] },
             invalid_edge := false } := by
  decide

/-- C6 (fails on the code). Edge `(0, 5, 1)` in a 3-node graph: the `add_edge` of
`dijkstra_sequential.c`, `dijkstra_mpi.c` and `performance_test.c` has no check and
reads `adj_size[5]` outside the array; the `add_edge` of `dijkstra_openmp.c` reports the
edge and leaves the graph as it was. -/
theorem add_edge_out_of_range :
    add_edge (create_graph 3 1) 0 5 1 = none ∧
    OpenMP.add_edge (create_graph 3 1) 0 5 1 =
      some { graph := create_graph 3 1, invalid_edge := true } := by
  decide

/-- C1 (fails on the code). The input file `3 3` / `1 1 7` / `2 1 5` / `2 0 100` with
source 2: endpoints in range, weights non-negative with total 112. The self-loop makes
`add_edge` count two entries at node 1 and store one, so slot 1 of `adj_list[1]`, inside the
reallocated block and below `adj_size[1] == 3`, is never written. The true shortest-path
weight from node 2 to node 0 is 100. When the unwritten slot holds zero bytes the relax
loop of node 1 reads it as the entry `(0, 0)` and `dijkstra_sequential` returns
`distances[0] == 5`; with other contents it returns the right array, or indexes
`visited` out of bounds. -/
theorem self_loop_gives_wrong_distance :
    (∀ e ∈ stray_edges, e.in_range 3 ∧ 0 ≤ e.weight) ∧ total_weight stray_edges < INF ∧
    (0 : Int) ≤ 2 ∧ (2 : Int) < 3 ∧
    build 3 stray_edges = some stray ∧
    rd stray.adj_size 1 = some 3 ∧
    rd stray.adj_list 1 = some [some ⟨1, 7⟩, none, some ⟨2, 5⟩] ∧
    dijkstra_sequential (fill_unwritten stray ⟨0, 0⟩) 2 = some [5, 5, 0] ∧
    WF stray_intended ∧ Represents stray_intended stray_edges ∧
    Reachable stray_intended 2 0 ∧ IsShortestDist stray_intended 2 0 100 ∧
    dist_at [5, 5, 0] 0 ≠ 100 ∧
    dijkstra_sequential (fill_unwritten stray ⟨1, 0⟩) 2 = some [100, 5, 0] ∧
    dijkstra_sequential (fill_unwritten stray ⟨7, 0⟩) 2 = none ∧
    dijkstra_sequential stray 2 = none := by
  have hans := dijkstra_sequential_answer (g := stray_intended) (by decide)
    (by decide : Represents stray_intended stray_edges) (by decide) (by decide) 2 (by decide)
    (by decide)
  obtain ⟨dist, hd, hdist⟩ := hans
  have hval : dijkstra_sequential stray_intended 2 = some [100, 5, 0] := by decide
  rw [hval] at hd
  have hreach : Reachable stray_intended 2 0 := ⟨[⟨0, 100⟩], by decide⟩
  have hshort : IsShortestDist stray_intended 2 0 100 := by
    have := (hdist.2 0 (by decide)).1 hreach
    rw [← Option.some.inj hd] at this
    exact this
  exact ⟨by decide, by decide, by decide, by decide, by decide, by decide, by decide,
    by decide, by decide, by decide, hreach, hshort, by decide, by decide, by decide,
    by decide⟩

/-- C7 (fails on the code). Scenario D: the edge `(0, 5, 1)` names node 5 in a 3-node
graph; `read_graph_from_file` of `dijkstra_openmp.c` returns the graph without the edge
and `main` runs the engine. -/
theorem invalid_edge_does_not_fail :
    (∃ e ∈ ([⟨0, 5, 1⟩] : List EdgeRec), ¬ e.in_range 3) ∧
    OpenMP.read_graph 3 1 [⟨0, 5, 1⟩] = some (some (create_graph 3 1)) ∧
    OpenMP.main 3 1 [⟨0, 5, 1⟩] 0 2 (fun _ => two_workers) =
      some (OpenMP.Exit.success [0, INF, INF]) := by
  decide

/-- C7 (amended). For every edge list of a graph with at least one node, an edge with an
endpoint outside `0 .. num_nodes - 1` does not make the edge loop of
`read_graph_from_file` (`dijkstra_openmp.c`) fail: the loop returns a graph, the same
graph it returns for the list without the out-of-range edges, and with a positive
thread count and an in-range source `main` runs `dijkstra_parallel_optimized` on it. -/
theorem invalid_edges_are_skipped (num_nodes : Int) (hn : 0 < num_nodes)
    (es : List EdgeRec) (source num_threads : Int) (hs0 : 0 ≤ source)
    (hs1 : source < num_nodes) (ht : 0 < num_threads) (sched : Nat → Schedule) :
    ∃ g, OpenMP.read_graph num_nodes es.length es = some (some g) ∧
      OpenMP.edge_loop (es.filter (fun e => e.in_range num_nodes)).length
        (es.filter (fun e => e.in_range num_nodes)) (create_graph num_nodes es.length) =
        some (some g) ∧
      OpenMP.main num_nodes es.length es source num_threads sched =
        (OpenMP.dijkstra_parallel_optimized g source sched).map OpenMP.Exit.success := by
  obtain ⟨g, e1, e2, n1⟩ := OpenMP.edge_loop_skips es (create_graph num_nodes es.length)
    (Sized.create_graph_ok _ _)
  have hread : OpenMP.read_graph num_nodes es.length es = some (some g) := by
    unfold OpenMP.read_graph
    rw [if_neg (by omega)]
    simpa using e1
  refine ⟨g, hread, e2, ?_⟩
  unfold OpenMP.main
  rw [if_neg (by omega), hread]
  have hnn : g.num_nodes = num_nodes := n1
  simp only
  rw [if_neg (by omega)]

theorem invalid_edges_are_skipped_witness :
    (0 : Int) < 3 ∧ (0 : Int) ≤ 0 ∧ (0 : Int) < 3 ∧ (0 : Int) < 2 ∧
    ∃ g, OpenMP.read_graph 3 ([⟨0, 5, 1⟩, ⟨0, 1, 4⟩] : List EdgeRec).length
        [⟨0, 5, 1⟩, ⟨0, 1, 4⟩] = some (some g) ∧
      OpenMP.edge_loop
        (([⟨0, 5, 1⟩, ⟨0, 1, 4⟩] : List EdgeRec).filter (fun e => e.in_range 3)).length
        (([⟨0, 5, 1⟩, ⟨0, 1, 4⟩] : List EdgeRec).filter (fun e => e.in_range 3))
        (create_graph 3 ([⟨0, 5, 1⟩, ⟨0, 1, 4⟩] : List EdgeRec).length) = some (some g) ∧
      OpenMP.main 3 ([⟨0, 5, 1⟩, ⟨0, 1, 4⟩] : List EdgeRec).length [⟨0, 5, 1⟩, ⟨0, 1, 4⟩] 0 2
          (fun _ => two_workers) =
        (OpenMP.dijkstra_parallel_optimized g 0 (fun _ => two_workers)).map
          OpenMP.Exit.success :=
  ⟨by decide, by decide, by decide, by decide,
    invalid_edges_are_skipped 3 (by decide) [⟨0, 5, 1⟩, ⟨0, 1, 4⟩] 0 2 (by decide) (by decide)
      (by decide) (fun _ => two_workers)⟩

end Dijkstra

namespace Dijkstra

/-! ## Claims C16, C17: monotone distances and visited flags -/

/-- C16. In a run of `dijkstra_sequential` the distance of every node after any later
round is at most its distance before: for the state `st` after `k` rounds and the state
`st1` after `k + j` rounds, `distances[v]` in `st1` is at most `distances[v]` in `st`
for every node `v`. No write of the relax loop ever increases an entry: every relax step
that returns leaves every entry at most what it was, and keeps the array length. -/
theorem distances_never_increase (g : Graph) (source : Int) (k j : Nat)
    (st st1 : List Int × List Bool) (h : run_state g source k = some st)
    (h1 : run_state g source (k + j) = some st1) :
    (∀ v, dist_at st1.1 v ≤ dist_at st.1 v) ∧
      ∀ (vis : List Bool) (mn : Int) (d : List Int) (i : Nat) (d1 : List Int),
        relax_step g vis mn d i = some d1 →
          d1.length = d.length ∧ ∀ v, dist_at d1 v ≤ dist_at d v := by
  refine ⟨?_, fun vis mn d i d1 hs => relax_step_le g vis mn d i d1 hs⟩
  refine run_state_rel g source
    (fun a b : List Int × List Bool => ∀ v, dist_at b.1 v ≤ dist_at a.1 v)
    (fun _ _ => le_refl _) (fun a b c h1 h2 v => le_trans (h2 v) (h1 v)) ?_ k j st st1 h h1
  rintro ⟨d, vis⟩ s1 hr
  obtain ⟨u, _, _, _, _, _, _, _, hle⟩ := round_cases g d vis s1 hr
  exact hle

theorem distances_never_increase_witness :
    run_state triangle 0 0 = some ([0, 2147483647, 2147483647], [false, false, false]) ∧
    run_state triangle 0 (0 + 2) = some ([0, 1, 2], [true, true, false]) ∧
    ((∀ v, dist_at ([0, 1, 2], [true, true, false]).1 v ≤
        dist_at ([0, 2147483647, 2147483647], [false, false, false]).1 v) ∧
      ∀ (vis : List Bool) (mn : Int) (d : List Int) (i : Nat) (d1 : List Int),
        relax_step triangle vis mn d i = some d1 →
          d1.length = d.length ∧ ∀ v, dist_at d1 v ≤ dist_at d v) :=
  ⟨by decide, by decide,
    distances_never_increase triangle 0 0 2 _ _ (by decide) (by decide)⟩

/-- C17. In a run of `dijkstra_sequential` every executed round sets `visited` for
exactly one node `u` that was unvisited before the round (the node `extract_min`
returned, whose neighbor list is the one the round relaxes) and changes no other flag.
In every later state of the run `u` and every node visited before are still visited, and
every later executed round selects a node different from `u`. -/
theorem visited_set_once (g : Graph) (source : Int) (k : Nat)
    (st st1 : List Int × List Bool) (h : run_state g source k = some st)
    (hr : round g st = some (some st1)) :
    ∃ u : Nat, u < st.2.length ∧ st.2[u]? = some false ∧ st1.2 = st.2.set u true ∧
      extract_min g.num_nodes st.1 st.2 = some (dist_at st.1 u, (u : Int)) ∧
      relax g (st.2.set u true) (u : Int) st.1 = some st1.1 ∧
      run_state g source (k + 1) = some st1 ∧
      ∀ (j : Nat) (st2 : List Int × List Bool), run_state g source (k + 1 + j) = some st2 →
        st2.2[u]? = some true ∧ (∀ v : Nat, st.2[v]? = some true → st2.2[v]? = some true) ∧
        ∀ st3, round g st2 = some (some st3) →
          ∃ u2 : Nat, u2 ≠ u ∧ st2.2[u2]? = some false ∧ st3.2 = st2.2.set u2 true ∧
            extract_min g.num_nodes st2.1 st2.2 = some (dist_at st2.1 u2, (u2 : Int)) := by
  obtain ⟨d, vis⟩ := st
  obtain ⟨u, hu, hf, _, hext, hset, hrel, _, _⟩ := round_cases g d vis st1 hr
  have hnext : run_state g source (k + 1) = some st1 := by
    rw [run_state_succ, h, Option.some_bind]
    unfold next_state
    rw [hr]
  have hmono : ∀ (a b : List Int × List Bool), round g a = some (some b) →
      ∀ v : Nat, a.2[v]? = some true → b.2[v]? = some true := by
    rintro ⟨da, va⟩ b hab v hv
    obtain ⟨w, _, _, _, _, hs, _, _, _⟩ := round_cases g da va b hab
    rw [hs]
    exact getElem?_set_true va w v hv
  refine ⟨u, hu, hf, hset, hext, hrel, hnext, ?_⟩
  intro j st2 h2
  have hkeep := run_state_rel g source
    (fun a b : List Int × List Bool => ∀ v : Nat, a.2[v]? = some true → b.2[v]? = some true)
    (fun _ _ hv => hv) (fun a b c h1 h2 v hv => h2 v (h1 v hv)) hmono (k + 1) j st1 st2
    hnext h2
  have hu1 : st1.2[u]? = some true := by
    rw [hset, List.getElem?_set]
    simp [hu]
  have hu2 := hkeep u hu1
  refine ⟨hu2, fun v hv => hkeep v (hmono (d, vis) st1 hr v hv), ?_⟩
  intro st3 h3
  obtain ⟨d2, vis2⟩ := st2
  obtain ⟨u2, _, hf2, _, hext2, hset2, _, _, _⟩ := round_cases g d2 vis2 st3 h3
  refine ⟨u2, ?_, hf2, hset2, hext2⟩
  rintro rfl
  rw [hf2] at hu2
  exact absurd hu2 (by simp)

theorem visited_set_once_witness :
    run_state triangle 0 1 = some ([0, 1, 5], [true, false, false]) ∧
    round triangle ([0, 1, 5], [true, false, false]) =
      some (some ([0, 1, 2], [true, true, false])) ∧
    ∃ u : Nat, u < ([0, 1, 5], [true, false, false]).2.length ∧
      ([0, 1, 5], [true, false, false]).2[u]? = some false ∧
      ([0, 1, 2], [true, true, false]).2 = ([0, 1, 5], [true, false, false]).2.set u true ∧
      extract_min triangle.num_nodes ([0, 1, 5], [true, false, false]).1
        ([0, 1, 5], [true, false, false]).2 =
          some (dist_at ([0, 1, 5], [true, false, false]).1 u, (u : Int)) ∧
      relax triangle (([0, 1, 5], [true, false, false]).2.set u true) (u : Int)
        ([0, 1, 5], [true, false, false]).1 = some ([0, 1, 2], [true, true, false]).1 ∧
      run_state triangle 0 (1 + 1) = some ([0, 1, 2], [true, true, false]) ∧
      ∀ (j : Nat) (st2 : List Int × List Bool),
        run_state triangle 0 (1 + 1 + j) = some st2 →
        st2.2[u]? = some true ∧
        (∀ v : Nat, ([0, 1, 5], [true, false, false]).2[v]? = some true → st2.2[v]? = some true) ∧
        ∀ st3, round triangle st2 = some (some st3) →
          ∃ u2 : Nat, u2 ≠ u ∧ st2.2[u2]? = some false ∧ st3.2 = st2.2.set u2 true ∧
            extract_min triangle.num_nodes st2.1 st2.2 =
              some (dist_at st2.1 u2, (u2 : Int)) :=
  ⟨by decide, by decide,
    visited_set_once triangle 0 1 ([0, 1, 5], [true, false, false])
      ([0, 1, 2], [true, true, false]) (by decide) (by decide)⟩

end Dijkstra

namespace Dijkstra

/-! ## Claim C11: the slices of `dijkstra_mpi` -/

theorem MPI.slice_bounds (n P r : Nat) :
    MPI.slice_start (n : Int) r P = ((r * (n / P) : Nat) : Int) ∧
      MPI.slice_end (n : Int) r P =
        ((r * (n / P) + (if r + 1 = P then n / P + n % P else n / P) : Nat) : Int) := by
  have hq : (n : Int).tdiv (P : Int) = ((n / P : Nat) : Int) := by
    rw [Int.tdiv_eq_ediv (Int.ofNat_nonneg n) (Int.ofNat_nonneg P)]
    rfl
  have hdm := Nat.div_add_mod n P
  unfold MPI.slice_start MPI.slice_end
  rw [hq]
  refine ⟨by push_cast; ring, ?_⟩
  by_cases hl : r + 1 = P
  · have h1 : (r : Int) = (P : Int) - 1 := by omega
    rw [if_pos h1, if_pos hl]
    have h2 : P * (n / P) = r * (n / P) + n / P := by
      rw [← hl]; ring
    have h3 : r * (n / P) + (n / P + n % P) = n := by omega
    rw [h3]
  · have h1 : ¬ (r : Int) = (P : Int) - 1 := by omega
    rw [if_neg h1, if_neg hl]
    push_cast; ring

theorem MPI.slice_eq_range (n P r : Nat) :
    MPI.slice (n : Int) r P =
      List.range' (r * (n / P)) (if r + 1 = P then n / P + n % P else n / P) := by
  obtain ⟨h1, h2⟩ := MPI.slice_bounds n P r
  unfold MPI.slice
  rw [h1, h2]
  simp only [Int.toNat_ofNat]
  congr 1
  omega

/-- C11. For every count `n >= 0` and every `P >= 1` the slices `[start, end)` that
`dijkstra_mpi` computes for ranks `0 .. P - 1` are contiguous (the first starts at 0,
each slice ends where the next one starts, the last ends at `n`), every rank but the
last gets `n / P` indices and the last gets `n / P + n % P`, the slices taken in rank
order list `0 .. n - 1` once each, and every index below `n` lies in the slice of
exactly one rank. -/
theorem mpi_slices_partition (n P : Nat) (hP : 1 ≤ P) :
    MPI.slice_start (n : Int) 0 P = 0 ∧
    MPI.slice_end (n : Int) (P - 1) P = (n : Int) ∧
    (∀ r, r + 1 < P → MPI.slice_end (n : Int) r P = MPI.slice_start (n : Int) (r + 1) P) ∧
    (∀ r, r < P → MPI.slice_start (n : Int) r P ≤ MPI.slice_end (n : Int) r P ∧
      0 ≤ MPI.slice_start (n : Int) r P ∧
      MPI.slice (n : Int) r P = List.range' (r * (n / P))
        (if r + 1 = P then n / P + n % P else n / P)) ∧
    (∀ r, r + 1 < P → (MPI.slice (n : Int) r P).length = n / P) ∧
    (MPI.slice (n : Int) (P - 1) P).length = n / P + n % P ∧
    (List.range P).flatMap (fun r => MPI.slice (n : Int) r P) = List.range n ∧
    (∀ i, i < n → ∃! r, r < P ∧ i ∈ MPI.slice (n : Int) r P) ∧
    (∀ r i, r < P → i ∈ MPI.slice (n : Int) r P → i < n) := by
  have hcat : (List.range P).flatMap (fun r => MPI.slice (n : Int) r P) = List.range n := by
    have := MPI.slices_concat (n : Int) P hP
    simpa using this
  have hlast : P - 1 + 1 = P := by omega
  refine ⟨?_, ?_, ?_, ?_, ?_, ?_, hcat, ?_, ?_⟩
  · rw [(MPI.slice_bounds n P 0).1]; simp
  · rw [(MPI.slice_bounds n P (P - 1)).2, if_pos hlast]
    have hdm := Nat.div_add_mod n P
    have h2 : P * (n / P) = (P - 1) * (n / P) + n / P :=
      calc P * (n / P) = (P - 1 + 1) * (n / P) := by rw [hlast]
        _ = (P - 1) * (n / P) + n / P := by ring
    have h3 : (P - 1) * (n / P) + (n / P + n % P) = n := by omega
    rw [h3]
  · intro r hr
    rw [(MPI.slice_bounds n P r).2, (MPI.slice_bounds n P (r + 1)).1,
      if_neg (by omega : ¬ r + 1 = P)]
    congr 1
    ring
  · intro r _
    refine ⟨?_, ?_, MPI.slice_eq_range n P r⟩
    · rw [(MPI.slice_bounds n P r).1, (MPI.slice_bounds n P r).2]
      exact Int.ofNat_le.2 (Nat.le_add_right _ _)
    · rw [(MPI.slice_bounds n P r).1]
      exact Int.ofNat_nonneg _
  · intro r hr
    rw [MPI.slice_eq_range, if_neg (by omega : ¬ r + 1 = P), List.length_range']
  · rw [MPI.slice_eq_range, if_pos hlast, List.length_range']
  · intro i hi
    have hmem : i ∈ (List.range P).flatMap (fun r => MPI.slice (n : Int) r P) := by
      rw [hcat]; exact List.mem_range.2 hi
    obtain ⟨r, hr, hir⟩ := List.mem_flatMap.1 hmem
    refine ⟨r, ⟨List.mem_range.1 hr, hir⟩, ?_⟩
    rintro r2 ⟨hr2, hir2⟩
    rw [MPI.slice_eq_range, List.mem_range'_1] at hir hir2
    have hr1 := List.mem_range.1 hr
    by_contra hne
    rcases Nat.lt_or_gt_of_ne hne with hlt | hgt
    · have hle : (r2 + 1) * (n / P) ≤ r * (n / P) := Nat.mul_le_mul_right _ hlt
      rw [if_neg (by omega : ¬ r2 + 1 = P)] at hir2
      have : (r2 + 1) * (n / P) = r2 * (n / P) + n / P := by ring
      omega
    · have hle : (r + 1) * (n / P) ≤ r2 * (n / P) := Nat.mul_le_mul_right _ hgt
      rw [if_neg (by omega : ¬ r + 1 = P)] at hir
      have : (r + 1) * (n / P) = r * (n / P) + n / P := by ring
      omega
  · intro r i hr hi
    have hmem : i ∈ (List.range P).flatMap (fun r => MPI.slice (n : Int) r P) :=
      List.mem_flatMap.2 ⟨r, List.mem_range.2 hr, hi⟩
    rw [hcat] at hmem
    exact List.mem_range.1 hmem

theorem mpi_slices_partition_witness :
    (1 ≤ 3) ∧
    MPI.slice ((7 : Nat) : Int) 0 3 = [0, 1] ∧ MPI.slice ((7 : Nat) : Int) 1 3 = [2, 3] ∧
    MPI.slice ((7 : Nat) : Int) 2 3 = [4, 5, 6] ∧
    (List.range 3).flatMap (fun r => MPI.slice ((7 : Nat) : Int) r 3) = List.range 7 :=
  ⟨by decide, by decide, by decide, by decide,
    (mpi_slices_partition 7 3 (by decide)).2.2.2.2.2.2.1⟩

end Dijkstra

namespace Dijkstra

/-! ## Claim C12: non-negative distances -/

/-- Under the loop invariant the candidates the relax loop of the next round writes are
not negative: the 32-bit addition does not overflow. -/
theorem DInv.cand_nonneg {g : Graph} {es : List EdgeRec} {s : Nat} {d : List Int}
    {vis : List Bool} (hrep : Represents g es) (hnn : ∀ e ∈ es, 0 ≤ e.weight)
    (hsum : total_weight es < INF) (h : DInv g es s d vis) (u : Nat)
    (hu : u < g.num_nodes.toNat) (hdu : dist_at d u < INF) (v : Nat)
    (hv1 : vis_at (vis.set u true) v = false) (e : Edge) (he : e ∈ nbrs g u)
    (hev : e.dest = (v : Int)) : 0 ≤ wrap32 (dist_at d u + e.weight) := by
  have hbu := h.lt_INF hnn hsum hu (by omega)
  rw [vis_at_set] at hv1
  have huv : u ≠ v := by
    intro hc
    rw [if_pos ⟨hc, by rw [h.len_v]; exact hu⟩] at hv1
    exact absurd hv1 (by simp)
  rw [if_neg (fun hc => huv hc.1)] at hv1
  have he' : e ∈ adj_of es (u : Int) := by rw [← hrep.nbrs_eq hu]; exact he
  obtain ⟨w0, hstep⟩ := pot_step es hnn vis u v (by rw [h.len_v]; exact hu) huv hv1 e he' hev
  have hpu := (h.bd u hu (by omega)).2
  have htot := pot_le_total es hnn (vis.set u true) v
  rw [wrap32_of_range _ (by omega) (by omega)]
  omega

/-- Under the loop invariant every point of the relax loop of the next round has a
distance array without a negative entry. -/
theorem DInv.mid_round_nonneg {g : Graph} {es : List EdgeRec} {s : Nat} {d : List Int}
    {vis : List Bool} (hg : WF g) (hrep : Represents g es) (hnn : ∀ e ∈ es, 0 ≤ e.weight)
    (hsum : total_weight es < INF) (h : DInv g es s d vis) (j : Nat) :
    ∃ r, mid_round g (d, vis) j = some r ∧ ∀ d1, r = some d1 →
      d1.length = g.num_nodes.toNat ∧ ∀ v, v < g.num_nodes.toNat → 0 ≤ dist_at d1 v := by
  have hd0 : ∀ v, v < g.num_nodes.toNat → 0 ≤ dist_at d v := by
    intro v hv
    by_cases hne : dist_at d v = INF
    · rw [hne]; unfold INF; omega
    · exact (h.bd v hv hne).1
  unfold mid_round
  simp only [extract_min_eq g.num_nodes d vis h.len_d h.len_v, Option.bind_eq_bind,
    Option.some_bind]
  rcases scan_range_spec d vis g.num_nodes.toNat with ⟨h1, _⟩ | ⟨u, hu, h1, h2, h3, _, _⟩
  · refine ⟨none, by simp [h1], ?_⟩
    intro d1 hc
    exact absurd hc (by simp)
  · rw [h1]
    have hne : ¬ ((u : Int) = -1) := by omega
    obtain ⟨sz, blk, r1, _, r3, _, _⟩ := hg.reads hu
    simp only [hne, if_false]
    rw [wr_natCast vis u true (by rw [h.len_v]; exact hu)]
    simp only [Option.some_bind, r1, r3]
    have hvu : vis_at (vis.set u true) u = true := by
      rw [vis_at_set, if_pos ⟨rfl, by rw [h.len_v]; exact hu⟩]
    have hidx : ∀ i ∈ List.range (min j (nbrs g u).length), i < (nbrs g u).length := by
      intro i hi
      have := List.mem_range.1 hi
      omega
    rw [relax_foldlM g hg u hu _ (by simp [h.len_v]) hvu d h.len_d _ hidx]
    refine ⟨_, rfl, ?_⟩
    intro d1 hd1
    simp only [Option.pure_def, Option.some.injEq] at hd1
    have hL : ∀ e ∈ (List.range (min j (nbrs g u).length)).map
        (fun i => (nbrs g u).getD i ⟨0, 0⟩), e ∈ nbrs g u := by
      intro e he
      obtain ⟨i, hi, rfl⟩ := List.mem_map.1 he
      exact getD_mem _ _ _ (hidx i hi)
    have hfold := dist_at_relax_fold (vis.set u true) (dist_at d u) _ d
      (fun e he => by
        have := hg.dest_lt hu (hL e he)
        rw [h.len_d]; exact this)
    rw [← hd1]
    refine ⟨(hfold 0).1.trans h.len_d, ?_⟩
    intro v hv
    rw [(hfold v).2]
    split_ifs with hc
    · rcases cand_min_cases (dist_at d u) _ v (dist_at d v) with hk | ⟨e, he, hev, hk, _⟩
      · rw [hk]; exact hd0 v hv
      · rw [hk]
        exact h.cand_nonneg hrep hnn hsum u hu h3 v hc.1 e (hL e he) hev
    · exact hd0 v hv

/-- C12 (counterexample). The graph built from the edges `0 1 1073741824` and
`1 2 1073741824` is well formed and has non-negative weights, and source 0 is in range;
the candidate `1073741824 + 1073741824` of node 2 leaves the 32-bit range, and after the
second round of `dijkstra_sequential`, and in its result, `distances[2]` is
`-2147483648`. -/
theorem overflow_gives_negative_distance :
    build 3 [⟨0, 1, 1073741824⟩, ⟨1, 2, 1073741824⟩] = some heavy ∧ WF heavy ∧
    (∀ e ∈ ([⟨0, 1, 1073741824⟩, ⟨1, 2, 1073741824⟩] : List EdgeRec), 0 ≤ e.weight) ∧
    (0 : Int) ≤ 0 ∧ (0 : Int) < heavy.num_nodes ∧
    run_state heavy 0 2 = some ([0, 1073741824, -2147483648], [true, true, false]) ∧
    dijkstra_sequential heavy 0 = some [0, 1073741824, -2147483648] ∧
    dist_at [0, 1073741824, -2147483648] 2 < 0 := by
  refine ⟨by decide, by decide, by decide, by decide, by decide, by decide, by decide,
    by decide⟩

/-- C12 (amended). For every well-formed graph that stores an edge list with
non-negative weights of total below `INT_MAX`, and every in-range source,
`dijkstra_sequential` reaches every round, and `distances[v] >= 0` holds for every node
`v` after initialisation (`k = 0`), after every round, and after every iteration `j` of
the relax loop of the round that follows. -/
theorem distances_nonneg_of_bounded_total {g : Graph} {es : List EdgeRec} (hg : WF g)
    (hrep : Represents g es) (hnn : ∀ e ∈ es, 0 ≤ e.weight) (hsum : total_weight es < INF)
    (source : Int) (h0 : 0 ≤ source) (h1 : source < g.num_nodes) (k : Nat) :
    ∃ st, run_state g source k = some st ∧ st.1.length = g.num_nodes.toNat ∧
      (∀ v, v < g.num_nodes.toNat → 0 ≤ dist_at st.1 v) ∧
      ∀ j, ∃ r, mid_round g st j = some r ∧ ∀ d1, r = some d1 →
        d1.length = g.num_nodes.toNat ∧ ∀ v, v < g.num_nodes.toNat → 0 ≤ dist_at d1 v := by
  obtain ⟨st, hst, hinv⟩ := run_state_DInv hg hrep hnn hsum source h0 h1 k
  refine ⟨st, hst, hinv.len_d, ?_, fun j => hinv.mid_round_nonneg hg hrep hnn hsum j⟩
  intro v hv
  by_cases hne : dist_at st.1 v = INF
  · rw [hne]; unfold INF; omega
  · exact (hinv.bd v hv hne).1

theorem distances_nonneg_of_bounded_total_witness :
    WF triangle ∧ Represents triangle triangle_edges ∧
    (∀ e ∈ triangle_edges, 0 ≤ e.weight) ∧ total_weight triangle_edges < INF ∧
    (0 : Int) ≤ 0 ∧ (0 : Int) < triangle.num_nodes ∧
    ∃ st, run_state triangle 0 1 = some st ∧ st.1.length = triangle.num_nodes.toNat ∧
      (∀ v, v < triangle.num_nodes.toNat → 0 ≤ dist_at st.1 v) ∧
      ∀ j, ∃ r, mid_round triangle st j = some r ∧ ∀ d1, r = some d1 →
        d1.length = triangle.num_nodes.toNat ∧
        ∀ v, v < triangle.num_nodes.toNat → 0 ≤ dist_at d1 v :=
  ⟨by decide, by decide, by decide, by decide, by decide, by decide,
    @distances_nonneg_of_bounded_total triangle triangle_edges
      (by decide) (by decide) (by decide) (by decide) 0 (by decide) (by decide) 1⟩

end Dijkstra

namespace Dijkstra

/-! ## Claim C13: the source stays at distance 0 -/

/-- In every state of a run the source entry is 0: the source is either visited, or
still the only node with a distance below `INF`. -/
theorem run_state_source (g : Graph) (source : Int) (k : Nat) (st : List Int × List Bool)
    (h : run_state g source k = some st) :
    st.1[source.toNat]? = some 0 ∧ (st.2[source.toNat]? = some true ∨
      ∀ v : Nat, v ≠ source.toNat → dist_at st.1 v = INF) := by
  refine run_state_inv g source
    (fun st => st.1[source.toNat]? = some 0 ∧ (st.2[source.toNat]? = some true ∨
      ∀ v : Nat, v ≠ source.toNat → dist_at st.1 v = INF)) ?_ ?_ k st h
  · intro st0 h0
    obtain ⟨_, hs, rfl⟩ := init_state_some g source st0 h0
    refine ⟨?_, Or.inr ?_⟩
    · simp only
      rw [List.getElem?_set]
      simp [hs]
    · intro v hv
      simp only
      rw [dist_at_init, if_neg]
      rintro ⟨e, _⟩
      exact hv e.symm
  · rintro ⟨d, vis⟩ st1 ⟨hd, hv⟩ hr
    obtain ⟨u, hu, _, hlt, _, hset, hrel, hlen, _⟩ := round_cases g d vis st1 hr
    simp only at hd hv
    have hvs : (vis.set u true)[source.toNat]? = some true := by
      rcases hv with hv | hv
      · exact getElem?_set_true vis u _ hv
      · have hus : u = source.toNat := by
          by_contra hne
          rw [hv u hne] at hlt
          exact lt_irrefl _ hlt
        rw [← hus, List.getElem?_set]
        simp [hu]
    have hkeep := relax_keeps_visited g _ _ d st1.1 hrel source.toNat hvs
    have hsl : source.toNat < d.length := by
      rcases List.getElem?_eq_some_iff.1 hd with ⟨hl, _⟩
      exact hl
    refine ⟨?_, Or.inl ?_⟩
    · rw [getElem?_dist_at st1.1 source.toNat (by rw [hlen]; exact hsl), hkeep,
        dist_at_of_getElem? d _ 0 hd]
    · rw [hset]; exact hvs

/-- C13. For every well-formed graph (in-range edge endpoints) and every in-range
source, `dijkstra_sequential` reaches every round, `distances[source] == 0` holds after
initialisation (`k = 0`) and after every round, and the engine returns a distance array
with `distances[source] == 0`. -/
theorem source_distance_zero (g : Graph) (hg : WF g) (source : Int) (h0 : 0 ≤ source)
    (h1 : source < g.num_nodes) :
    (∀ k, ∃ st, run_state g source k = some st ∧ rd st.1 source = some 0) ∧
      ∃ dist, dijkstra_sequential g source = some dist ∧ rd dist source = some 0 := by
  have hall : ∀ k, ∃ st, run_state g source k = some st ∧ rd st.1 source = some 0 := by
    intro k
    obtain ⟨st, hst, _⟩ := run_state_exists g hg source h0 h1 k
    exact ⟨st, hst, (rd_some_iff _ _ _).2 ⟨h0, (run_state_source g source k st hst).1⟩⟩
  refine ⟨hall, ?_⟩
  obtain ⟨st, hst, hz⟩ := hall g.num_nodes.toNat
  refine ⟨st.1, ?_, hz⟩
  rw [dijkstra_sequential_eq_run, hst]
  rfl

theorem source_distance_zero_witness :
    WF triangle ∧ (0 : Int) ≤ 1 ∧ (1 : Int) < triangle.num_nodes ∧
    ((∀ k, ∃ st, run_state triangle 1 k = some st ∧ rd st.1 1 = some 0) ∧
      ∃ dist, dijkstra_sequential triangle 1 = some dist ∧ rd dist 1 = some 0) :=
  ⟨by decide, by decide, by decide,
    source_distance_zero triangle (by decide) 1 (by decide) (by decide)⟩

end Dijkstra

namespace Dijkstra

/-! ## Claim C14: upper bounds, exact at visited nodes -/

theorem walk_weight_nonneg {g : Graph} {es : List EdgeRec} (hg : WF g)
    (hrep : Represents g es) (hnn : ∀ e ∈ es, 0 ≤ e.weight) (p : List Edge) :
    ∀ a b : Nat, a < g.num_nodes.toNat → IsWalk g a p b → 0 ≤ walk_weight p := by
  induction p with
  | nil => intro a b _ _; simp [walk_weight]
  | cons e t ih =>
    intro a b ha hw
    have h1 := nbrs_weight_nonneg hrep hnn ha hw.1
    have h2 := ih e.dest.toNat b (hg.dest_lt ha hw.1).2 hw.2
    simp only [walk_weight, List.map_cons, List.sum_cons] at h2 ⊢
    omega

/-- Under the loop invariant a visited node is no farther than any walk that starts at
a visited node makes it. -/
theorem DInv.visited_le_walk {g : Graph} {es : List EdgeRec} {s : Nat} {d : List Int}
    {vis : List Bool} (hg : WF g) (hrep : Represents g es) (hnn : ∀ e ∈ es, 0 ≤ e.weight)
    (h : DInv g es s d vis) (b : Nat) (hb : b < g.num_nodes.toNat)
    (hvb : vis_at vis b = true) (p : List Edge) :
    ∀ a : Nat, a < g.num_nodes.toNat → vis_at vis a = true → IsWalk g a p b →
      dist_at d b ≤ dist_at d a + walk_weight p := by
  induction p with
  | nil =>
    intro a _ _ hw
    simp only [IsWalk] at hw
    subst hw
    simp [walk_weight]
  | cons e t ih =>
    intro a ha hva hw
    obtain ⟨r1, _⟩ := h.rel a ha hva e hw.1
    have hy := (hg.dest_lt ha hw.1).2
    have ht := walk_weight_nonneg hg hrep hnn t e.dest.toNat b hy hw.2
    simp only [walk_weight, List.map_cons, List.sum_cons] at ht ⊢
    by_cases hvy : vis_at vis e.dest.toNat = true
    · have := ih e.dest.toNat hy hvy hw.2
      simp only [walk_weight] at this
      omega
    · have hvy' : vis_at vis e.dest.toNat = false := by simpa using hvy
      have := h.ord b e.dest.toNat hb hy hvb hvy'
      omega

/-- Under the loop invariant the distance of a visited node is the true shortest-path
weight. -/
theorem DInv.visited_exact {g : Graph} {es : List EdgeRec} {s : Nat} {d : List Int}
    {vis : List Bool} (hg : WF g) (hrep : Represents g es) (hnn : ∀ e ∈ es, 0 ≤ e.weight)
    (h : DInv g es s d vis) (hs : s < g.num_nodes.toNat) (v : Nat)
    (hv : v < g.num_nodes.toNat) (hvv : vis_at vis v = true) :
    IsShortestDist g s v (dist_at d v) := by
  refine ⟨h.wk v hv (h.fin v hv hvv), ?_⟩
  intro q hq
  by_cases hvs : vis_at vis s = true
  · have := h.visited_le_walk hg hrep hnn v hv hvv q s hs hvs hq
    rw [h.src] at this
    omega
  · have hvs' : vis_at vis s = false := by simpa using hvs
    have h1 := h.ord v s hv hs hvv hvs'
    rw [h.src] at h1
    have h2 := walk_weight_nonneg hg hrep hnn q s v hs hq
    omega

/-- C14. For every well-formed graph that stores an edge list with non-negative weights
of total below `INT_MAX`, and every in-range source, `dijkstra_sequential` reaches
every round, and after initialisation (`k = 0`) and after every round, for every node
`v`: `distances[v]` is at least every true shortest-path weight from the source to `v`;
it is below `INF` only when such a weight exists; and for `visited[v] == true` it is the
true shortest-path weight. -/
theorem distances_upper_bound_exact_when_visited {g : Graph} {es : List EdgeRec} (hg : WF g)
    (hrep : Represents g es) (hnn : ∀ e ∈ es, 0 ≤ e.weight) (hsum : total_weight es < INF)
    (source : Int) (h0 : 0 ≤ source) (h1 : source < g.num_nodes) (k : Nat) :
    ∃ st, run_state g source k = some st ∧ ∀ v, v < g.num_nodes.toNat →
      (∀ x, IsShortestDist g source.toNat v x → x ≤ dist_at st.1 v) ∧
      (dist_at st.1 v ≠ INF → ∃ x, IsShortestDist g source.toNat v x) ∧
      (vis_at st.2 v = true → IsShortestDist g source.toNat v (dist_at st.1 v)) := by
  have hs : source.toNat < g.num_nodes.toNat := by omega
  obtain ⟨st, hst, hinv⟩ := run_state_DInv hg hrep hnn hsum source h0 h1 k
  obtain ⟨fin, hfin, hfinv⟩ := run_state_DInv hg hrep hnn hsum source h0 h1 g.num_nodes.toNat
  obtain ⟨dist, hdist, hans⟩ := dijkstra_sequential_answer hg hrep hnn hsum source h0 h1
  have hdf : dist = fin.1 := by
    rw [dijkstra_sequential_eq_run, hfin] at hdist
    exact (Option.some.inj hdist).symm
  refine ⟨st, hst, fun v hv => ⟨?_, ?_, ?_⟩⟩
  · intro x hx
    by_cases hne : dist_at st.1 v = INF
    · obtain ⟨p, hp, hpw⟩ := hx.1
      obtain ⟨⟨q, hq, hqw⟩, hmin⟩ := (hans.2 v hv).1 ⟨p, hp⟩
      have hle := hx.2 q hq
      have hfl : dist_at fin.1 v ≤ INF := by
        by_cases hf : dist_at fin.1 v = INF
        · exact le_of_eq hf
        · exact le_of_lt (hfinv.lt_INF hnn hsum hv hf).2
      rw [hdf] at hqw
      omega
    · obtain ⟨p, hp, hpw⟩ := hinv.wk v hv hne
      have := hx.2 p hp
      omega
  · intro hne
    obtain ⟨p, hp, _⟩ := hinv.wk v hv hne
    exact ⟨_, (hans.2 v hv).1 ⟨p, hp⟩⟩
  · intro hvv
    exact hinv.visited_exact hg hrep hnn hs v hv hvv

theorem distances_upper_bound_exact_when_visited_witness :
    WF triangle ∧ Represents triangle triangle_edges ∧
    (∀ e ∈ triangle_edges, 0 ≤ e.weight) ∧ total_weight triangle_edges < INF ∧
    (0 : Int) ≤ 0 ∧ (0 : Int) < triangle.num_nodes ∧
    ∃ st, run_state triangle 0 1 = some st ∧ ∀ v, v < triangle.num_nodes.toNat →
      (∀ x, IsShortestDist triangle (0 : Int).toNat v x → x ≤ dist_at st.1 v) ∧
      (dist_at st.1 v ≠ INF → ∃ x, IsShortestDist triangle (0 : Int).toNat v x) ∧
      (vis_at st.2 v = true → IsShortestDist triangle (0 : Int).toNat v (dist_at st.1 v)) :=
  ⟨by decide, by decide, by decide, by decide, by decide, by decide,
    @distances_upper_bound_exact_when_visited triangle triangle_edges
      (by decide) (by decide) (by decide) (by decide) 0 (by decide) (by decide) 1⟩

end Dijkstra

namespace Dijkstra

/-! ## Claim C15: the source check of the drivers -/

/-- The driver of `dijkstra_sequential.c` ends with `EXIT_FAILURE` on every source
outside `[0, num_nodes)` once the graph was read. -/
theorem sequential_main_invalid_source (num_nodes num_edges : Int) (input : List EdgeRec)
    (source : Int) (g : Graph) (hread : read_graph num_nodes num_edges input = some g)
    (hsrc : source < 0 ∨ source ≥ g.num_nodes) :
    Sequential.main num_nodes num_edges input source = some OpenMP.Exit.failure := by
  unfold Sequential.main
  rw [hread]
  exact if_pos hsrc

/-- Rank 0 of the driver of `dijkstra_mpi.c` ends with `EXIT_FAILURE` on every source
outside `[0, num_nodes)` once the graph was read. -/
theorem mpi_main_invalid_source (num_nodes num_edges : Int) (input : List EdgeRec)
    (source : Int) (size : Nat) (g : Graph)
    (hread : read_graph num_nodes num_edges input = some g)
    (hsrc : source < 0 ∨ source ≥ g.num_nodes) :
    MPI.main num_nodes num_edges input source size = some OpenMP.Exit.failure := by
  unfold MPI.main
  rw [hread]
  exact if_pos hsrc

/-- The driver of `dijkstra_openmp.c` ends with `EXIT_FAILURE` on every source outside
`[0, num_nodes)` whenever it returns at all. -/
theorem omp_main_invalid_source (num_nodes num_edges : Int) (input : List EdgeRec)
    (source num_threads : Int) (sched : Nat → Schedule) (g : Graph)
    (hread : OpenMP.read_graph num_nodes num_edges input = some (some g))
    (hsrc : source < 0 ∨ source ≥ g.num_nodes) :
    OpenMP.main num_nodes num_edges input source num_threads sched =
      some OpenMP.Exit.failure := by
  unfold OpenMP.main
  rw [hread]
  by_cases ht : num_threads ≤ 0
  · rw [if_pos ht]
  · rw [if_neg ht]
    exact if_pos hsrc

/-- C15 (code defect). The benchmark harness `performance_test.c` fixes `source = 0`
and checks neither the source nor the node count. On an input file with header `0 0`
the source equals `num_nodes`, yet the harness calls `dijkstra_sequential`, whose write
`distances[source] = 0` lies outside the zero-length array: the run of the harness has
no defined result. On the same file and source the drivers of `dijkstra_sequential.c`,
`dijkstra_mpi.c` and `dijkstra_openmp.c` end with `EXIT_FAILURE` before their engine
is called. -/
theorem harness_no_source_check :
    read_graph 0 0 [] = some (create_graph 0 0) ∧
    (0 : Int) ≥ (create_graph 0 0).num_nodes ∧
    dijkstra_sequential (create_graph 0 0) 0 = none ∧
    (∀ sched, PerfTest.main 0 0 [] sched = none) ∧
    Sequential.main 0 0 [] 0 = some OpenMP.Exit.failure ∧
    MPI.main 0 0 [] 0 2 = some OpenMP.Exit.failure ∧
    (∀ sched, OpenMP.main 0 0 [] 0 2 sched = some OpenMP.Exit.failure) := by
  refine ⟨by decide, by decide, by decide, fun sched => ?_, by decide, by decide,
    fun sched => ?_⟩
  · rfl
  · rfl

end Dijkstra

namespace Dijkstra

/-! ## Claim C18: the ranks of `dijkstra_mpi` stay in lockstep -/

theorem MPI.mpi_run_state_succ (g : Graph) (source : Int) (P k : Nat) :
    MPI.run_state g source P (k + 1) =
      (MPI.run_state g source P k).bind (fun sts =>
        match MPI.round g P sts with
        | none => none
        | some none => some sts
        | some (some sts1) => some sts1) := by
  unfold MPI.run_state
  cases MPI.init_states g source P with
  | none => rfl
  | some sts =>
    simp only [Option.some_bind]
    rw [for_break_succ (MPI.round g P) k 0 sts]
    congr 1
    funext s1
    cases MPI.round g P s1 with
    | none => rfl
    | some r => cases r <;> rfl

/-- The round breaks exactly when the broadcast pair has `min_dist == INF` or
`min_node == -1`. -/
theorem MPI.round_break_iff (g : Graph) (P : Nat) (sts : List RankState) :
    MPI.round g P sts = some none ↔
      ∃ m, MPI.global_min g P sts = some m ∧ (m.1 = INF ∨ m.2 = -1) := by
  unfold MPI.round
  cases hm : MPI.global_min g P sts with
  | none => simp
  | some m =>
    simp only [Option.bind_eq_bind, Option.some_bind, Option.some.injEq, exists_eq_left']
    by_cases hc : m.1 = INF ∨ m.2 = -1
    · simp [hc]
    · simp only [if_neg hc, hc, iff_false]
      cases all_some ((List.range P).map (fun r =>
          (sts[r]?).bind (fun st => MPI.rank_relax g r P m.2 st))) with
      | none => simp
      | some s1 => simp

/-- An executed round on identical rank states: every rank marks the broadcast
`min_node`, and the rank states are identical again after the `MPI_Allreduce`. -/
theorem MPI.round_replicate (g : Graph) (P : Nat) (hP : 1 ≤ P) (d : List Int)
    (vis : List Bool) (sts1 : List RankState)
    (h : MPI.round g P (List.replicate P ⟨d, vis⟩) = some (some sts1)) :
    ∃ (m : Int × Int) (d1 : List Int),
      MPI.global_min g P (List.replicate P ⟨d, vis⟩) = some m ∧ 0 ≤ m.2 ∧
      (∀ r, r < P → ∃ st1, MPI.rank_relax g r P m.2 ⟨d, vis⟩ = some st1 ∧
        st1.visited = vis.set m.2.toNat true) ∧
      sts1 = List.replicate P ⟨d1, vis.set m.2.toNat true⟩ := by
  unfold MPI.round at h
  simp only [Option.bind_eq_bind, Option.bind_eq_some] at h
  obtain ⟨m, hm, h⟩ := h
  by_cases hc : m.1 = INF ∨ m.2 = -1
  · rw [if_pos hc] at h
    simp at h
  · rw [if_neg hc] at h
    simp only [Option.bind_eq_some, Option.pure_def, Option.some.injEq] at h
    obtain ⟨states1, hs1, h⟩ := h
    have hmap := all_some_eq_some _ _ hs1
    have hlen : states1.length = P := by
      have := congrArg List.length hmap
      simpa using this.symm
    have hrank : ∀ r (hr : r < P), MPI.rank_relax g r P m.2 ⟨d, vis⟩ =
        some (states1.get ⟨r, by rw [hlen]; exact hr⟩) := by
      intro r hr
      have h1 := congrArg (fun l => l[r]?) hmap
      simp only [List.getElem?_map, List.getElem?_range hr, Option.map_some',
        List.getElem?_replicate, if_pos hr, Option.some_bind] at h1
      rw [List.getElem?_eq_getElem (by rw [hlen]; exact hr)] at h1
      simpa using h1
    have hvis : ∀ r st1, MPI.rank_relax g r P m.2 ⟨d, vis⟩ = some st1 →
        0 ≤ m.2 ∧ st1.visited = vis.set m.2.toNat true := by
      intro r st1 hr
      unfold MPI.rank_relax at hr
      simp only [Option.bind_eq_bind, Option.bind_eq_some, Option.pure_def,
        Option.some.injEq] at hr
      obtain ⟨v1, hv1, _, _, _, _, hst⟩ := hr
      obtain ⟨h0, _, hset⟩ := (wr_some_iff _ _ _ _).1 hv1
      rw [← hst]
      exact ⟨h0, hset⟩
    refine ⟨m, MPI.allreduce_min (states1.map (fun st => st.distances)), hm,
      (hvis 0 _ (hrank 0 (by omega))).1, ?_, ?_⟩
    · intro r hr
      exact ⟨_, hrank r hr, (hvis r _ (hrank r hr)).2⟩
    · rw [← h]
      apply List.eq_replicate_iff.2
      refine ⟨by simp [hlen], ?_⟩
      intro b hb
      obtain ⟨st, hst, rfl⟩ := List.mem_map.1 hb
      obtain ⟨i, hi, rfl⟩ := List.getElem_of_mem hst
      have := (hvis i _ (hrank i (by rw [← hlen]; exact hi))).2
      simp only [List.get_eq_getElem] at this
      rw [this]

/-- At every round of the run all rank states of `dijkstra_mpi` are identical. -/
theorem MPI.run_state_replicate (g : Graph) (source : Int) (P : Nat) (hP : 1 ≤ P) (k : Nat) :
    ∀ sts, MPI.run_state g source P k = some sts →
      ∃ d vis, sts = List.replicate P ⟨d, vis⟩ := by
  induction k with
  | zero =>
    intro sts h
    unfold MPI.run_state MPI.init_states at h
    simp only [Option.bind_eq_bind, Option.bind_eq_some, Option.pure_def, Option.some.injEq,
      for_break] at h
    obtain ⟨s0, ⟨st, _, hs0⟩, h⟩ := h
    exact ⟨st.1, st.2, by rw [← h, ← hs0]⟩
  | succ k ih =>
    intro sts h
    rw [MPI.mpi_run_state_succ, Option.bind_eq_some] at h
    obtain ⟨s0, h0, h1⟩ := h
    obtain ⟨d, vis, rfl⟩ := ih s0 h0
    cases hr : MPI.round g P (List.replicate P ⟨d, vis⟩) with
    | none => simp [hr] at h1
    | some r =>
      cases r with
      | none =>
        simp only [hr, Option.some.injEq] at h1
        exact ⟨d, vis, h1.symm⟩
      | some s1 =>
        simp only [hr, Option.some.injEq] at h1
        obtain ⟨m, d1, _, _, _, hs1⟩ := MPI.round_replicate g P hP d vis s1 hr
        exact ⟨d1, vis.set m.2.toNat true, by rw [← h1, hs1]⟩

/-- On a well-formed graph with an in-range source the ranks reach every round, each
holding the state `dijkstra_sequential` has after as many rounds. -/
theorem MPI.run_state_eq_sequential (g : Graph) (hg : WF g) (source : Int) (h0 : 0 ≤ source)
    (h1 : source < g.num_nodes) (P : Nat) (hP : 1 ≤ P) (k : Nat) :
    ∃ st, Dijkstra.run_state g source k = some st ∧
      MPI.run_state g source P k = some (List.replicate P ⟨st.1, st.2⟩) := by
  obtain ⟨fin, hf1, hf2⟩ := mpi_loop_eq g hg P hP k 0 0
    ((List.replicate g.num_nodes.toNat INF).set source.toNat 0)
    (List.replicate g.num_nodes.toNat false) (by simp) (by simp)
  refine ⟨fin, ?_, ?_⟩
  · unfold Dijkstra.run_state
    rw [init_state_eq g source h0 h1]
    exact hf1
  · unfold MPI.run_state MPI.init_states
    rw [init_state_eq g source h0 h1]
    exact hf2

/-- C18. In the model of `dijkstra_mpi` with `P >= 1` ranks, at the start of every
round that the run reaches all ranks hold the same distance array and the same visited
set as rank 0. The round ends the loop exactly when the broadcast pair has
`min_dist == INF` or `min_node == -1`, a test on one pair common to all ranks, so all
ranks leave in the same round. In an executed round every rank marks the broadcast
`min_node`, and all ranks are identical again at the start of the next round. On a
well-formed graph with an in-range source every round is reached, with the state of
`dijkstra_sequential` on every rank. -/
theorem mpi_ranks_in_lockstep (g : Graph) (source : Int) (P : Nat) (hP : 1 ≤ P) (k : Nat)
    (sts : List MPI.RankState) (h : MPI.run_state g source P k = some sts) :
    ∃ d vis, sts = List.replicate P ⟨d, vis⟩ ∧
      (∀ r, r < P → sts[r]? = some ⟨d, vis⟩ ∧ sts[r]? = sts[0]?) ∧
      (MPI.round g P sts = some none ↔
        ∃ m, MPI.global_min g P sts = some m ∧ (m.1 = INF ∨ m.2 = -1)) ∧
      (MPI.round g P sts = some none → MPI.run_state g source P (k + 1) = some sts) ∧
      (∀ sts1, MPI.round g P sts = some (some sts1) →
        ∃ (m : Int × Int) (d1 : List Int), MPI.global_min g P sts = some m ∧ 0 ≤ m.2 ∧
          (∀ r, r < P → ∃ st1, MPI.rank_relax g r P m.2 ⟨d, vis⟩ = some st1 ∧
            st1.visited = vis.set m.2.toNat true) ∧
          sts1 = List.replicate P ⟨d1, vis.set m.2.toNat true⟩ ∧
          MPI.run_state g source P (k + 1) = some sts1) ∧
      (WF g → 0 ≤ source → source < g.num_nodes → ∀ j, ∃ st,
        Dijkstra.run_state g source j = some st ∧
        MPI.run_state g source P j = some (List.replicate P ⟨st.1, st.2⟩)) := by
  obtain ⟨d, vis, rfl⟩ := MPI.run_state_replicate g source P hP k sts h
  refine ⟨d, vis, rfl, ?_, MPI.round_break_iff g P _, ?_, ?_, ?_⟩
  · intro r hr
    rw [List.getElem?_replicate, if_pos hr, List.getElem?_replicate, if_pos (by omega)]
    exact ⟨rfl, rfl⟩
  · intro hb
    rw [MPI.mpi_run_state_succ, h, Option.some_bind, hb]
  · intro sts1 hr
    obtain ⟨m, d1, hm, hm0, hrk, hs1⟩ := MPI.round_replicate g P hP d vis sts1 hr
    refine ⟨m, d1, hm, hm0, hrk, hs1, ?_⟩
    rw [MPI.mpi_run_state_succ, h, Option.some_bind, hr]
  · intro hg h0 h1 j
    exact MPI.run_state_eq_sequential g hg source h0 h1 P hP j

theorem mpi_ranks_in_lockstep_witness :
    1 ≤ 2 ∧
    MPI.run_state triangle 0 2 1 =
      some (List.replicate 2 ⟨[0, 1, 5], [true, false, false]⟩) ∧
    MPI.round triangle 2 (List.replicate 2 ⟨[0, 1, 5], [true, false, false]⟩) =
      some (some (List.replicate 2 ⟨[0, 1, 2], [true, true, false]⟩)) ∧
    ∃ d vis, List.replicate 2 (⟨[0, 1, 5], [true, false, false]⟩ : MPI.RankState) =
        List.replicate 2 (⟨d, vis⟩ : MPI.RankState) :=
  ⟨by decide, by decide, by decide,
    (mpi_ranks_in_lockstep triangle 0 2 (by decide) 1
      (List.replicate 2 ⟨[0, 1, 5], [true, false, false]⟩)
      (by decide)).imp (fun _ hd => hd.imp (fun _ hv => hv.1))⟩

end Dijkstra

namespace Dijkstra

/-! ## Claim C19: the comparison of the benchmark harness -/

theorem verify_loop_spec (dist1 dist2 : List Int) (l : List Nat)
    (h1 : ∀ i ∈ l, i < dist1.length) (h2 : ∀ i ∈ l, i < dist2.length) :
    ∃ b, PerfTest.verify_loop dist1 dist2 l = some b ∧
      (b = true ↔ ∀ i ∈ l, dist1[i]? = dist2[i]?) := by
  induction l with
  | nil => exact ⟨true, rfl, by simp⟩
  | cons i rest ih =>
    have hi1 : i < dist1.length := h1 i (List.mem_cons_self _ _)
    have hi2 : i < dist2.length := h2 i (List.mem_cons_self _ _)
    obtain ⟨b, hb, hiff⟩ := ih (fun j hj => h1 j (List.mem_cons_of_mem _ hj))
      (fun j hj => h2 j (List.mem_cons_of_mem _ hj))
    unfold PerfTest.verify_loop
    simp only [List.getElem?_eq_getElem hi1, List.getElem?_eq_getElem hi2,
      Option.bind_eq_bind, Option.some_bind, Option.pure_def, List.mem_cons, forall_eq_or_imp,
      Option.some.injEq]
    by_cases hne : dist1[i] = dist2[i]
    · refine ⟨b, by simp [hne, hb], ?_⟩
      rw [hiff]
      exact ⟨fun h => ⟨hne, h⟩, fun h => h.2⟩
    · refine ⟨false, by simp [hne], ?_⟩
      simp [hne]

/-- C19. For arrays `dist1` and `dist2` of length at least `num_nodes`,
`verify_results(dist1, dist2, num_nodes)` returns, and it returns true exactly when
`dist1[i] == dist2[i]` for every `i` with `0 <= i < num_nodes`; for `num_nodes <= 0` it
returns true. -/
theorem verify_results_spec (dist1 dist2 : List Int) (num_nodes : Int)
    (h1 : num_nodes.toNat ≤ dist1.length) (h2 : num_nodes.toNat ≤ dist2.length) :
    ∃ b, PerfTest.verify_results dist1 dist2 num_nodes = some b ∧
      (b = true ↔ ∀ i : Nat, i < num_nodes.toNat → dist1[i]? = dist2[i]?) ∧
      (num_nodes ≤ 0 → b = true) := by
  obtain ⟨b, hb, hiff⟩ := verify_loop_spec dist1 dist2 (List.range num_nodes.toNat)
    (fun i hi => lt_of_lt_of_le (List.mem_range.1 hi) h1)
    (fun i hi => lt_of_lt_of_le (List.mem_range.1 hi) h2)
  refine ⟨b, hb, ?_, ?_⟩
  · rw [hiff]
    exact ⟨fun h i hi => h i (List.mem_range.2 hi), fun h i hi => h i (List.mem_range.1 hi)⟩
  · intro h0
    rw [hiff]
    intro i hi
    have := List.mem_range.1 hi
    omega

theorem verify_results_spec_witness :
    ∃ b, PerfTest.verify_results [1, 2, 3] [1, 2, 4] 2 = some b ∧
      (b = true ↔ ∀ i : Nat, i < (2 : Int).toNat →
        ([1, 2, 3] : List Int)[i]? = ([1, 2, 4] : List Int)[i]?) ∧
      ((2 : Int) ≤ 0 → b = true) :=
  verify_results_spec [1, 2, 3] [1, 2, 4] 2 (by decide) (by decide)

end Dijkstra

namespace Dijkstra

/-! ## Claim C20: one relaxation -/

/-- C20. The relaxation of entry `i = (n, weight)` of the neighbor list of the chosen
node in `dijkstra_sequential`, with the chosen node marked visited and at a distance
`dc` other than `INF` as in every executed round, and with the candidate
`new_dist = dc + weight` in 32-bit arithmetic: when `n` is visited or the candidate is not
smaller than `distances[n]` the array is returned unchanged; otherwise `distances[n]`
becomes the candidate; no entry other than `n` changes in either case, and a second
application of the same relaxation returns the array it is given. -/
theorem relax_entry_spec (g : Graph) (vis : List Bool) (chosen : Int) (d : List Int)
    (i : Nat) (blk : List (Option Edge)) (e : Edge) (dc dn : Int) (b : Bool)
    (hblk : rd g.adj_list chosen = some blk) (hslot : blk[i]? = some (some e))
    (hvc : rd vis chosen = some true) (hdc : rd d chosen = some dc) (hfin : dc ≠ INF)
    (hvn : rd vis e.dest = some b) (hdn : rd d e.dest = some dn) :
    ∃ d1, relax_step g vis chosen d i = some d1 ∧
      ((b = true ∨ ¬ wrap32 (dc + e.weight) < dn) → d1 = d) ∧
      (b = false → wrap32 (dc + e.weight) < dn →
        d1 = d.set e.dest.toNat (wrap32 (dc + e.weight)) ∧
        rd d1 e.dest = some (wrap32 (dc + e.weight))) ∧
      (∀ v : Nat, (v : Int) ≠ e.dest → d1[v]? = d[v]?) ∧
      d1.length = d.length ∧
      relax_step g vis chosen d1 i = some d1 := by
  have hstep : ∀ (x : List Int) (xc xn : Int), rd x chosen = some xc → xc ≠ INF →
      rd x e.dest = some xn →
      relax_step g vis chosen x i =
        if b = true then some x else
        if wrap32 (xc + e.weight) < xn then wr x e.dest (wrap32 (xc + e.weight))
        else some x := by
    intro x xc xn h1 h2 h3
    unfold relax_step
    simp only [hblk, hslot, hvn, h1, h3, Option.bind_eq_bind, Option.some_bind,
      Option.pure_def, if_neg h2]
  rw [hstep d dc dn hdc hfin hdn]
  cases b with
  | true =>
    refine ⟨d, by simp, fun _ => rfl, by simp, fun _ _ => rfl, rfl, ?_⟩
    rw [hstep d dc dn hdc hfin hdn]; simp
  | false =>
    by_cases hlt : wrap32 (dc + e.weight) < dn
    · obtain ⟨hn0, hnd⟩ := (rd_some_iff _ _ _).1 hdn
      have hlen : e.dest.toNat < d.length := by
        rcases List.getElem?_eq_some_iff.1 hnd with ⟨hl, _⟩
        exact hl
      have hne : chosen ≠ e.dest := by
        intro hce
        rw [hce, hvn] at hvc
        exact absurd hvc (by simp)
      obtain ⟨hc0, hcd⟩ := (rd_some_iff _ _ _).1 hdc
      have hne1 : e.dest.toNat ≠ chosen.toNat := by
        intro hh; apply hne; omega
      have hwr : wr d e.dest (wrap32 (dc + e.weight)) =
          some (d.set e.dest.toNat (wrap32 (dc + e.weight))) :=
        (wr_some_iff _ _ _ _).2 ⟨hn0, hlen, rfl⟩
      have hrd1 : rd (d.set e.dest.toNat (wrap32 (dc + e.weight))) e.dest =
          some (wrap32 (dc + e.weight)) := by
        apply (rd_some_iff _ _ _).2
        refine ⟨hn0, ?_⟩
        rw [List.getElem?_set]; simp [hlen]
      have hrdc : rd (d.set e.dest.toNat (wrap32 (dc + e.weight))) chosen = some dc := by
        apply (rd_some_iff _ _ _).2
        refine ⟨hc0, ?_⟩
        rw [List.getElem?_set, if_neg hne1]; exact hcd
      refine ⟨d.set e.dest.toNat (wrap32 (dc + e.weight)), by simp [hlt, hwr], ?_, ?_, ?_,
        by simp, ?_⟩
      · rintro (h | h)
        · exact absurd h (by simp)
        · exact absurd hlt h
      · intro _ _; exact ⟨rfl, hrd1⟩
      · intro v hv
        rw [List.getElem?_set, if_neg]
        intro hh; apply hv; omega
      · rw [hstep _ dc _ hrdc hfin hrd1]; simp
    · refine ⟨d, by simp [hlt], fun _ => rfl, fun _ h => absurd h hlt, fun _ _ => rfl, rfl, ?_⟩
      rw [hstep d dc dn hdc hfin hdn]; simp [hlt]

theorem relax_entry_spec_witness :
    ∃ d1, relax_step triangle [true, false, false] 0 [0, 2147483647, 2147483647] 1 =
        some d1 ∧
      (((false : Bool) = true ∨
        ¬ wrap32 (0 + (⟨2, 5⟩ : Edge).weight) < 2147483647) →
          d1 = [0, 2147483647, 2147483647]) ∧
      ((false : Bool) = false → wrap32 (0 + (⟨2, 5⟩ : Edge).weight) < 2147483647 →
        d1 = [0, 2147483647, 2147483647].set (⟨2, 5⟩ : Edge).dest.toNat
          (wrap32 (0 + (⟨2, 5⟩ : Edge).weight)) ∧
        rd d1 (⟨2, 5⟩ : Edge).dest = some (wrap32 (0 + (⟨2, 5⟩ : Edge).weight))) ∧
      (∀ v : Nat, (v : Int) ≠ (⟨2, 5⟩ : Edge).dest →
        d1[v]? = [0, 2147483647, 2147483647][v]?) ∧
      d1.length = [0, 2147483647, 2147483647].length ∧
      relax_step triangle [true, false, false] 0 d1 1 = some d1 :=
  relax_entry_spec triangle [true, false, false] 0 [0, 2147483647, 2147483647] 1
    [some ⟨1, 1⟩, some ⟨2, 5⟩] ⟨2, 5⟩ 0 2147483647 false (by decide) (by decide)
    (by decide) (by decide) (by decide) (by decide) (by decide)

end Dijkstra

namespace Dijkstra

/-! ## Claim C21: the relax phase does not depend on the order of the entries -/

/-- Folding the relax iteration over two orders of the same entries gives the same
array. -/
theorem relax_fold_perm (vis : List Bool) (base : Int) {L1 L2 : List Edge}
    (h : L1.Perm L2) (d : List Int)
    (hL : ∀ e ∈ L2, 0 ≤ e.dest ∧ e.dest.toNat < d.length) :
    L1.foldl (relax_fn vis base) d = L2.foldl (relax_fn vis base) d := by
  have hL1 : ∀ e ∈ L1, 0 ≤ e.dest ∧ e.dest.toNat < d.length :=
    fun e he => hL e (h.mem_iff.1 he)
  apply list_ext_dist_at
  · rw [(dist_at_relax_fold vis base L1 d hL1 0).1, (dist_at_relax_fold vis base L2 d hL 0).1]
  · intro v _
    rw [(dist_at_relax_fold vis base L1 d hL1 v).2, (dist_at_relax_fold vis base L2 d hL v).2,
      cand_min_perm base h]

/-- C21. For every well-formed graph, chosen node `u`, state `(distances, visited)` with
`num_nodes` cells, base distance and order `idxs` of the iterations of the relax loop (a
permutation of `0 .. adj_size[u] - 1`), the critical-section relax loops of
`dijkstra_parallel_optimized` (`dijkstra_openmp.c`) and `dijkstra_parallel`
(`performance_test.c`) return the array they return in ascending order. Entries of
visited nodes are unchanged, and when `base_dist` is not `INF`, as in every executed round,
each unvisited `n` ends with the least of its old distance and the candidates
`base_dist + weight` (32-bit) of the entries with destination `n`; with `base_dist == INF`
nothing changes. -/
theorem relax_phase_order_independent (g : Graph) (hg : WF g) (u : Nat)
    (hu : u < g.num_nodes.toNat) (vis : List Bool) (hv : vis.length = g.num_nodes.toNat)
    (base : Int) (d : List Int) (hd : d.length = g.num_nodes.toNat) (idxs : List Nat)
    (hperm : idxs.Perm (List.range (nbrs g u).length)) :
    ∃ sz d1, rd g.adj_size (u : Int) = some sz ∧ sz.toNat = (nbrs g u).length ∧
      idxs.foldlM (OpenMP.relax_step g vis (u : Int) base) d = some d1 ∧
      idxs.foldlM (PerfTest.relax_step g vis (u : Int) base) d = some d1 ∧
      (List.range sz.toNat).foldlM (OpenMP.relax_step g vis (u : Int) base) d = some d1 ∧
      (List.range sz.toNat).foldlM (PerfTest.relax_step g vis (u : Int) base) d = some d1 ∧
      d1.length = d.length ∧
      (∀ n, vis_at vis n = true → dist_at d1 n = dist_at d n) ∧
      (base = INF → d1 = d) ∧
      (base ≠ INF → ∀ n, vis_at vis n = false →
        dist_at d1 n ≤ dist_at d n ∧
        (∀ e ∈ nbrs g u, e.dest = (n : Int) → dist_at d1 n ≤ wrap32 (base + e.weight)) ∧
        (dist_at d1 n = dist_at d n ∨
          ∃ e ∈ nbrs g u, e.dest = (n : Int) ∧ dist_at d1 n = wrap32 (base + e.weight))) := by
  obtain ⟨sz, blk, r1, _, r3, _, _⟩ := hg.reads hu
  have hdest : ∀ e ∈ nbrs g u, 0 ≤ e.dest ∧ e.dest.toNat < d.length := by
    intro e he
    rw [hd]
    exact hg.dest_lt hu he
  have hval := fun n => (dist_at_relax_fold vis base (nbrs g u) d hdest n).2
  have hsame : ∀ (step : List Int → Nat → Option (List Int)),
      (∀ d', d'.length = g.num_nodes.toNat → ∀ i, i < (nbrs g u).length →
        step d' i = some (relax_fn vis base d' ((nbrs g u).getD i ⟨0, 0⟩))) →
      ∀ l : List Nat, l.Perm (List.range (nbrs g u).length) →
        l.foldlM step d = some ((nbrs g u).foldl (relax_fn vis base) d) := by
    intro step hstep l hl
    obtain ⟨L, hL, hfold⟩ := par_relax_foldlM g u vis base step hstep d hd l hl
    rw [hfold, relax_fold_perm vis base hL d hdest]
  have homp := hsame (OpenMP.relax_step g vis (u : Int) base)
    (fun d' hd' i hi => omp_relax_step_eq g hg u hu vis hv base d' hd' i hi)
  have hperf := hsame (PerfTest.relax_step g vis (u : Int) base)
    (fun d' hd' i hi => perf_relax_step_eq g hg u hu vis hv base d' hd' i hi)
  refine ⟨sz, (nbrs g u).foldl (relax_fn vis base) d, r1, r3, homp idxs hperm,
    hperf idxs hperm, ?_, ?_, (dist_at_relax_fold vis base (nbrs g u) d hdest 0).1, ?_, ?_, ?_⟩
  · rw [r3]; exact homp _ (List.Perm.refl _)
  · rw [r3]; exact hperf _ (List.Perm.refl _)
  · intro n hn
    rw [hval n, if_neg]
    rintro ⟨hc, _⟩
    rw [hn] at hc
    exact absurd hc (by simp)
  · intro hb
    apply list_ext_dist_at _ _ (dist_at_relax_fold vis base (nbrs g u) d hdest 0).1
    intro n _
    rw [hval n, if_neg]
    rintro ⟨_, hc⟩
    exact hc hb
  · intro hb n hn
    rw [hval n, if_pos ⟨hn, hb⟩]
    refine ⟨cand_min_le _ _ _ _, fun e he hev => cand_min_le_cand _ _ _ _ e he hev, ?_⟩
    rcases cand_min_cases base (nbrs g u) n (dist_at d n) with hc | ⟨e, he, hev, hc, _⟩
    · exact Or.inl hc
    · exact Or.inr ⟨e, he, hev, hc⟩

theorem relax_phase_order_independent_witness :
    WF triangle ∧ 0 < triangle.num_nodes.toNat ∧
    [true, false, false].length = triangle.num_nodes.toNat ∧
    [0, 2147483647, 2147483647].length = triangle.num_nodes.toNat ∧
    [1, 0].Perm (List.range (nbrs triangle 0).length) ∧
    [1, 0].foldlM (OpenMP.relax_step triangle [true, false, false] 0 0)
      [0, 2147483647, 2147483647] = some [0, 1, 5] ∧
    [0, 1].foldlM (OpenMP.relax_step triangle [true, false, false] 0 0)
      [0, 2147483647, 2147483647] = some [0, 1, 5] ∧
    ∃ sz d1, rd triangle.adj_size ((0 : Nat) : Int) = some sz ∧
      sz.toNat = (nbrs triangle 0).length ∧
      [1, 0].foldlM (OpenMP.relax_step triangle [true, false, false] ((0 : Nat) : Int) 0)
        [0, 2147483647, 2147483647] = some d1 :=
  ⟨by decide, by decide, by decide, by decide, by decide, by decide, by decide,
    (relax_phase_order_independent triangle (by decide) 0 (by decide) [true, false, false]
      (by decide) 0 [0, 2147483647, 2147483647] (by decide) [1, 0] (by decide)).imp
      (fun _ h => h.imp (fun _ h1 => ⟨h1.1, h1.2.1, h1.2.2.1⟩))⟩

end Dijkstra

namespace Dijkstra

/-! ## Claim C22: the visited set and the number of rounds -/

theorem for_break_count_snd {σ : Type} (body : Nat → σ → Option (Option σ)) (fuel : Nat) :
    ∀ (c : Nat) (st : σ),
      (for_break_count body fuel c st).map Prod.snd = for_break body fuel c st := by
  induction fuel with
  | zero => intro c st; rfl
  | succ k ih =>
    intro c st
    cases h : body c st with
    | none => simp [for_break_count, for_break, h]
    | some r =>
      cases r with
      | none => simp [for_break_count, for_break, h]
      | some st1 =>
        simp only [for_break_count, for_break, h]
        exact ih (c + 1) st1

/-- An invariant of counter and state that every round keeps holds when the loop is
left, the counter has grown by at most the bound, and a loop left early was left by
`break`. -/
theorem for_break_count_inv {σ : Type} (Inv : Nat → σ → Prop) (Term : σ → Prop)
    (body : Nat → σ → Option (Option σ))
    (h : ∀ c st, Inv c st → ∃ r, body c st = some r ∧ (r = none → Term st) ∧
      ∀ st1, r = some st1 → Inv (c + 1) st1) :
    ∀ fuel c st, Inv c st → ∃ c1 fin, for_break_count body fuel c st = some (c1, fin) ∧
      Inv c1 fin ∧ c1 ≤ c + fuel ∧ (c1 < c + fuel → Term fin) := by
  intro fuel
  induction fuel with
  | zero =>
    intro c st hst
    exact ⟨c, st, rfl, hst, le_refl _, fun hlt => absurd hlt (lt_irrefl _)⟩
  | succ k ih =>
    intro c st hst
    obtain ⟨r, hr, hnone, hsome⟩ := h c st hst
    cases r with
    | none =>
      refine ⟨c, st, by simp [for_break_count, hr], hst, by omega, fun _ => hnone rfl⟩
    | some st1 =>
      obtain ⟨c1, fin, e1, e2, e3, e4⟩ := ih (c + 1) st1 (hsome st1 rfl)
      refine ⟨c1, fin, by simp only [for_break_count, hr]; exact e1, e2, by omega, ?_⟩
      intro hlt
      exact e4 (by omega)

theorem count_true_set (vis : List Bool) (u : Nat) (hu : u < vis.length)
    (hvu : vis_at vis u = false) : (vis.set u true).count true = vis.count true + 1 := by
  have hget : vis[u] = false := by
    have := getElem?_vis_at vis u hu
    rw [hvu, List.getElem?_eq_getElem hu] at this
    exact Option.some.inj this
  rw [List.count_set true true vis u hu, hget]
  simp

/-- What is known of `dijkstra_sequential` on a well-formed graph when its loop is left,
for any weights. -/
theorem trace_spec (g : Graph) (hg : WF g) (source : Int) (h0 : 0 ≤ source)
    (h1 : source < g.num_nodes) :
    ∃ c fin, dijkstra_sequential_trace g source = some (c, fin) ∧
      run_state g source g.num_nodes.toNat = some fin ∧
      fin.1.length = g.num_nodes.toNat ∧ fin.2.length = g.num_nodes.toNat ∧
      fin.2.count true = c ∧ c ≤ g.num_nodes.toNat ∧
      (∀ v, v < g.num_nodes.toNat → vis_at fin.2 v = true → dist_at fin.1 v < INF) ∧
      (∀ v, dist_at fin.1 v ≤ INF) ∧
      (∀ v, v < g.num_nodes.toNat → dist_at fin.1 v ≠ INF → Reachable g source.toNat v) ∧
      (∀ v, v < g.num_nodes.toNat → vis_at fin.2 v = false → INF ≤ dist_at fin.1 v) := by
  have hs : source.toNat < g.num_nodes.toNat := by omega
  have hloop := for_break_count_inv
    (fun (c : Nat) (st : List Int × List Bool) =>
      st.1.length = g.num_nodes.toNat ∧ st.2.length = g.num_nodes.toNat ∧
      st.2.count true = c ∧
      (∀ v, v < g.num_nodes.toNat → vis_at st.2 v = true → dist_at st.1 v < INF) ∧
      (∀ v, dist_at st.1 v ≤ INF) ∧
      (∀ v, v < g.num_nodes.toNat → dist_at st.1 v ≠ INF → Reachable g source.toNat v))
    (fun st => ∀ v, v < g.num_nodes.toNat → vis_at st.2 v = false → INF ≤ dist_at st.1 v)
    (fun _ st => round g st)
    (by
      rintro c ⟨d, vis⟩ ⟨hd, hv, hc, hfin, hle, hreach⟩
      simp only at hd hv hc hfin hle hreach
      refine ⟨_, round_eq g hg d vis hd hv, ?_, ?_⟩
      · intro hnone
        have hpost := round_fn_post g d vis
        rw [hnone] at hpost
        exact hpost
      · intro st1 hst1
        have hpost := round_fn_post g d vis
        rw [hst1] at hpost
        obtain ⟨u, hu, hvu, hdu, _, hset, hlen, hval⟩ := RoundPost.dist hg hd hpost
        refine ⟨hlen, by rw [hset]; simpa using hv, ?_, ?_, ?_,
          reach_inv_round g hg source.toNat d vis hd hreach st1 hpost⟩
        · rw [hset, count_true_set vis u (by omega) hvu, hc]
        · intro v hv1 hvv
          rw [hset] at hvv
          rw [hval v, if_neg (by rw [hvv]; simp)]
          rw [vis_at_set] at hvv
          by_cases huv : u = v
          · rw [← huv]; exact hdu
          · rw [if_neg (fun hcc => huv hcc.1)] at hvv
            exact hfin v hv1 hvv
        · intro v
          rw [hval v]
          split_ifs
          · exact le_trans (cand_min_le _ _ _ _) (hle v)
          · exact hle v)
    g.num_nodes.toNat 0
    ((List.replicate g.num_nodes.toNat INF).set source.toNat 0,
      List.replicate g.num_nodes.toNat false)
    (by
      refine ⟨by simp, by simp, ?_, ?_, ?_, ?_⟩
      · simp only
        rw [List.count_replicate]
        simp
      · intro v hv hvv
        simp only at hvv
        unfold vis_at at hvv
        rw [List.getD_eq_getElem?_getD, List.getElem?_replicate, if_pos hv] at hvv
        simp at hvv
      · intro v
        simp only
        rw [dist_at_init]
        split_ifs
        · unfold INF; omega
        · exact le_refl _
      · intro v hv hne
        simp only at hne
        rw [dist_at_init] at hne
        by_cases hsv : source.toNat = v ∧ source.toNat < g.num_nodes.toNat
        · rw [← hsv.1]; exact Reachable.refl g _
        · rw [if_neg hsv] at hne
          exact absurd rfl hne)
  obtain ⟨c, fin, e1, ⟨i1, i2, i3, i4, i5, i6⟩, e3, e4⟩ := hloop
  have htrace : dijkstra_sequential_trace g source = some (c, fin) := by
    unfold dijkstra_sequential_trace
    rw [init_state_eq g source h0 h1]
    exact e1
  refine ⟨c, fin, htrace, ?_, i1, i2, i3, by omega, i4, i5, i6, ?_⟩
  · unfold run_state
    rw [init_state_eq g source h0 h1]
    simp only [Option.some_bind]
    rw [← for_break_count_snd, e1]
    rfl
  · intro v hv hvv
    by_cases hlt : c < 0 + g.num_nodes.toNat
    · exact e4 hlt v hv hvv
    · exfalso
      have hcn : fin.2.count true = fin.2.length := by omega
      have hall := List.count_eq_length.1 hcn
      have hmem : vis_at fin.2 v ∈ fin.2 := by
        have := getElem?_vis_at fin.2 v (by omega)
        exact List.getElem?_mem this
      have := hall _ hmem
      rw [hvv] at this
      exact absurd this (by simp)

/-- Under the loop invariant, once no unvisited node is below `INF`, every node with a
path from the source is visited. -/
theorem DInv.reachable_visited {g : Graph} {es : List EdgeRec} {s : Nat} {d : List Int}
    {vis : List Bool} (hg : WF g) (hnn : ∀ e ∈ es, 0 ≤ e.weight)
    (hsum : total_weight es < INF) (h : DInv g es s d vis) (hs : s < g.num_nodes.toNat)
    (hterm : ∀ v, v < g.num_nodes.toNat → vis_at vis v = false → INF ≤ dist_at d v)
    (v : Nat) (hr : Reachable g s v) : v < g.num_nodes.toNat ∧ vis_at vis v = true := by
  have hvis : ∀ v, v < g.num_nodes.toNat → dist_at d v ≠ INF → vis_at vis v = true := by
    intro v hv hne
    by_contra hc
    have hc' : vis_at vis v = false := by simpa using hc
    have := hterm v hv hc'
    have := h.lt_INF hnn hsum hv hne
    omega
  have hclos : ∀ (p : List Edge) (a : Nat), a < g.num_nodes.toNat → vis_at vis a = true →
      IsWalk g a p v → v < g.num_nodes.toNat ∧ vis_at vis v = true := by
    intro p
    induction p with
    | nil =>
      intro a ha hva hw
      simp only [IsWalk] at hw
      subst hw
      exact ⟨ha, hva⟩
    | cons e t ih =>
      intro a ha hva hw
      obtain ⟨_, r2⟩ := h.rel a ha hva e hw.1
      have hb := hg.dest_lt ha hw.1
      exact ih e.dest.toNat hb.2 (hvis _ hb.2 r2) hw.2
  obtain ⟨p, hp⟩ := hr
  exact hclos p s hs (hvis s hs (by rw [h.src]; unfold INF; omega)) hp

/-- A later state of a run has no entry above the entry of an earlier state. -/
theorem run_state_le (g : Graph) (source : Int) (k j : Nat) (st st1 : List Int × List Bool)
    (h : run_state g source k = some st) (h1 : run_state g source (k + j) = some st1) :
    ∀ v, dist_at st1.1 v ≤ dist_at st.1 v := by
  refine run_state_rel g source
    (fun a b : List Int × List Bool => ∀ v, dist_at b.1 v ≤ dist_at a.1 v)
    (fun _ _ => le_refl _) (fun a b c h1 h2 v => le_trans (h2 v) (h1 v)) ?_ k j st st1 h h1
  rintro ⟨d, vis⟩ s1 hr
  obtain ⟨u, _, _, _, _, _, _, _, hle⟩ := round_cases g d vis s1 hr
  exact hle

/-- C22. For every well-formed graph (in-range edge endpoints) and every in-range
source, `dijkstra_sequential` leaves its loop, and then: `visited[v]` is true exactly for
the nodes `v` that are reachable from the source and have a distance other than `INF`;
the distance is other than `INF` exactly when it was below `INF` after some round; the
value of `count`, the number of rounds executed, is the number of visited nodes and at
most `num_nodes`. When the graph stores an edge list with non-negative weights of total
below `INT_MAX`, `visited[v]` is true exactly for the nodes reachable from the source. -/
theorem visited_set_and_round_count (g : Graph) (hg : WF g) (source : Int)
    (h0 : 0 ≤ source) (h1 : source < g.num_nodes) :
    ∃ (count : Nat) (distances : List Int) (visited : List Bool),
      dijkstra_sequential_trace g source = some (count, (distances, visited)) ∧
      dijkstra_sequential g source = some distances ∧
      visited.length = g.num_nodes.toNat ∧
      (∀ v, v < g.num_nodes.toNat → (vis_at visited v = true ↔
        (Reachable g source.toNat v ∧ dist_at distances v ≠ INF))) ∧
      (∀ v, v < g.num_nodes.toNat → (dist_at distances v ≠ INF ↔
        ∃ k st, k ≤ g.num_nodes.toNat ∧ run_state g source k = some st ∧
          dist_at st.1 v < INF)) ∧
      count = visited.count true ∧ count ≤ g.num_nodes.toNat ∧
      ∀ es, Represents g es → (∀ e ∈ es, 0 ≤ e.weight) → total_weight es < INF →
        ∀ v, v < g.num_nodes.toNat →
          (vis_at visited v = true ↔ Reachable g source.toNat v) := by
  obtain ⟨c, ⟨d, vis⟩, htr, hrun, hd, hv, hc, hcn, hfin, hle, hreach, hterm⟩ :=
    trace_spec g hg source h0 h1
  simp only at hd hv hc hfin hle hreach hterm
  have hiff : ∀ v, v < g.num_nodes.toNat → (vis_at vis v = true ↔
      (Reachable g source.toNat v ∧ dist_at d v ≠ INF)) := by
    intro v hv1
    constructor
    · intro hvv
      have := hfin v hv1 hvv
      exact ⟨hreach v hv1 (by omega), by omega⟩
    · rintro ⟨_, hne⟩
      by_contra hcc
      have hcc' : vis_at vis v = false := by simpa using hcc
      have := hterm v hv1 hcc'
      have := hle v
      omega
  refine ⟨c, d, vis, htr, by rw [dijkstra_sequential_eq_run, hrun]; rfl, hv, hiff, ?_,
    hc.symm, hcn, ?_⟩
  · intro v _
    constructor
    · intro hne
      have := hle v
      exact ⟨g.num_nodes.toNat, (d, vis), le_refl _, hrun, by simp only; omega⟩
    · rintro ⟨k, st, hk, hst, hlt⟩
      have hkn : k + (g.num_nodes.toNat - k) = g.num_nodes.toNat := by omega
      have := run_state_le g source k (g.num_nodes.toNat - k) st (d, vis) hst
        (by rw [hkn]; exact hrun) v
      simp only at this
      omega
  · intro es hrep hnn hsum v hv1
    obtain ⟨st, hst, hinv⟩ := run_state_DInv hg hrep hnn hsum source h0 h1 g.num_nodes.toNat
    rw [hrun] at hst
    have hst' : st = (d, vis) := (Option.some.inj hst).symm
    rw [hst'] at hinv
    constructor
    · intro hvv
      exact ((hiff v hv1).1 hvv).1
    · intro hr
      exact (hinv.reachable_visited hg hnn hsum (by omega) hterm v hr).2

theorem visited_set_and_round_count_witness :
    WF disconnected ∧ (0 : Int) ≤ 0 ∧ (0 : Int) < disconnected.num_nodes ∧
    dijkstra_sequential_trace disconnected 0 =
      some (2, ([0, 3, 2147483647], [true, true, false])) ∧
    ∃ (count : Nat) (distances : List Int) (visited : List Bool),
      dijkstra_sequential_trace disconnected 0 = some (count, (distances, visited)) ∧
      dijkstra_sequential disconnected 0 = some distances ∧
      visited.length = disconnected.num_nodes.toNat ∧
      (∀ v, v < disconnected.num_nodes.toNat → (vis_at visited v = true ↔
        (Reachable disconnected (0 : Int).toNat v ∧ dist_at distances v ≠ INF))) ∧
      (∀ v, v < disconnected.num_nodes.toNat → (dist_at distances v ≠ INF ↔
        ∃ k st, k ≤ disconnected.num_nodes.toNat ∧ run_state disconnected 0 k = some st ∧
          dist_at st.1 v < INF)) ∧
      count = visited.count true ∧ count ≤ disconnected.num_nodes.toNat ∧
      ∀ es, Represents disconnected es → (∀ e ∈ es, 0 ≤ e.weight) →
        total_weight es < INF → ∀ v, v < disconnected.num_nodes.toNat →
          (vis_at visited v = true ↔ Reachable disconnected (0 : Int).toNat v) :=
  ⟨by decide, by decide, by decide, by decide,
    visited_set_and_round_count disconnected (by decide) 0 (by decide) (by decide)⟩

end Dijkstra

namespace Dijkstra

/-! ## Claim C23: the reduction engine of `dijkstra_openmp.c` -/

theorem reduce_foldlM (d : List Int) (vis : List Bool) (l : List Nat)
    (hd : ∀ v ∈ l, v < d.length) (hv : ∀ v ∈ l, v < vis.length) :
    ∀ (m x : Int), l.foldlM (OpenMP.reduce_step d vis) m =
      some (l.foldl (scan_fn d vis) (m, x)).1 := by
  induction l with
  | nil => intro m x; rfl
  | cons a t ih =>
    intro m x
    have ha := hd a (List.mem_cons_self _ _)
    have hb := hv a (List.mem_cons_self _ _)
    have hstep : OpenMP.reduce_step d vis m a = some (scan_fn d vis (m, x) a).1 := by
      unfold OpenMP.reduce_step scan_fn
      rw [getElem?_vis_at vis a hb, getElem?_dist_at d a ha]
      cases h : vis_at vis a <;> by_cases h2 : dist_at d a < m <;> simp [h2]
    simp only [List.foldlM_cons, hstep, List.foldl_cons, Option.bind_eq_bind, Option.some_bind]
    rw [ih (fun v h => hd v (List.mem_cons_of_mem _ h))
      (fun v h => hv v (List.mem_cons_of_mem _ h)) _ (scan_fn d vis (m, x) a).2]

theorem reduce_crit_fold (n : Int) (s : Schedule) (d : List Int) (vis : List Bool)
    (hd : d.length = n.toNat) (hv : vis.length = n.toNat) (ts : List Nat) :
    ∀ acc : Int × Int, ts.foldlM (fun a t =>
        (OpenMP.reduce_local n s d vis t).map (fun loc => min a loc)) acc.1 =
      some (ts.foldl (crit_fn n s d vis) acc).1 := by
  induction ts with
  | nil => intro acc; rfl
  | cons t r ih =>
    intro acc
    have hloc : OpenMP.reduce_local n s d vis t =
        some (((List.range n.toNat).filter (fun v => s.assign v = t)).foldl
          (scan_fn d vis) (INF, -1)).1 := by
      unfold OpenMP.reduce_local
      apply reduce_foldlM
      · intro v h
        rw [hd]; exact List.mem_range.1 (List.mem_filter.1 h).1
      · intro v h
        rw [hv]; exact List.mem_range.1 (List.mem_filter.1 h).1
    have hmin : min acc.1 (((List.range n.toNat).filter (fun v => s.assign v = t)).foldl
          (scan_fn d vis) (INF, -1)).1 = (crit_fn n s d vis acc t).1 := by
      unfold crit_fn
      split_ifs with h
      · exact min_eq_right (le_of_lt h)
      · exact min_eq_left (le_of_not_lt h)
    simp only [List.foldlM_cons, hloc, Option.map_some', Option.bind_eq_bind, Option.some_bind,
      List.foldl_cons, hmin]
    exact ih (crit_fn n s d vis acc t)

/-- The reduction yields the `min_dist` of the sequential scan, under every schedule. -/
theorem reduce_min_eq (n : Int) (s : Schedule) (T : Nat) (hs : s.Valid T) (d : List Int)
    (vis : List Bool) (hd : d.length = n.toNat) (hv : vis.length = n.toNat) :
    OpenMP.reduce_min n s d vis =
      some ((List.range n.toNat).foldl (scan_fn d vis) (INF, -1)).1 := by
  obtain ⟨m, hm, hspec⟩ := par_extract_min_spec n s T hs d vis hd hv
  have hfold : par_extract_min n s d vis = some (s.crit.foldl (crit_fn n s d vis) (INF, -1)) := by
    have := (foldlM_eq_foldl (fun _ => True) (crit_step n s d vis) (crit_fn n s d vis) id
      s.crit (fun acc _ t _ => crit_step_eq n s d vis hd hv acc t) (fun _ _ _ _ => trivial)
      (INF, -1) trivial).1
    simpa [par_extract_min] using this
  have hm' : s.crit.foldl (crit_fn n s d vis) (INF, -1) = m := by
    rw [hfold] at hm
    exact Option.some.inj hm
  have hred : OpenMP.reduce_min n s d vis = some m.1 := by
    unfold OpenMP.reduce_min
    rw [← hm']
    exact reduce_crit_fold n s d vis hd hv s.crit (INF, -1)
  rw [hred]
  congr 1
  rcases hspec with ⟨h1, h2⟩ | ⟨u, hu, h1, h2, h3, h4⟩
  · rcases scan_range_spec d vis n.toNat with ⟨e1, _⟩ | ⟨v0, hv0, _, e2, e3, _, _⟩
    · rw [h1, e1]
    · have := h2 v0 hv0 e2
      omega
  · rcases scan_range_spec d vis n.toNat with ⟨_, e2⟩ | ⟨v0, hv0, e1, e2, _, e4, _⟩
    · have := e2 u hu h2
      omega
    · rw [h1, e1]
      have a1 := h4 v0 hv0 e2
      have a2 := e4 u hu h2
      show dist_at d u = dist_at d v0
      omega

/-- The ascending scan stops at the smallest unvisited node with distance `M`. -/
theorem first_scan_eq (d : List Int) (vis : List Bool) (M : Int) (u : Nat) (l : List Nat) :
    l.Pairwise (fun a b => a < b) → (∀ v ∈ l, v < d.length) → (∀ v ∈ l, v < vis.length) →
    u ∈ l → vis_at vis u = false → dist_at d u = M →
    (∀ v ∈ l, vis_at vis v = false → dist_at d v = M → u ≤ v) →
    OpenMP.first_scan d vis M l = some (u : Int) := by
  induction l with
  | nil => intro _ _ _ hu; simp at hu
  | cons x t ih =>
    intro hp hd hv hu hvu hdu hleast
    have hx1 := hd x (List.mem_cons_self _ _)
    have hx2 := hv x (List.mem_cons_self _ _)
    have hp' := List.pairwise_cons.1 hp
    unfold OpenMP.first_scan
    rw [getElem?_vis_at vis x hx2, getElem?_dist_at d x hx1]
    simp only [Option.bind_eq_bind, Option.some_bind, Option.pure_def]
    by_cases hxu : x = u
    · subst hxu
      simp [hvu, hdu]
    · have hut : u ∈ t := by
        rcases List.mem_cons.1 hu with h | h
        · exact absurd h.symm hxu
        · exact h
      have hrec := ih hp'.2 (fun v h => hd v (List.mem_cons_of_mem _ h))
        (fun v h => hv v (List.mem_cons_of_mem _ h)) hut hvu hdu
        (fun v h => hleast v (List.mem_cons_of_mem _ h))
      have hlt := hp'.1 u hut
      cases hvx : vis_at vis x with
      | true => simpa using hrec
      | false =>
        by_cases hdx : dist_at d x = M
        · have := hleast x (List.mem_cons_self _ _) hvx hdx
          omega
        · simpa [hdx] using hrec

/-- On a state with `num_nodes` cells a round of the reduction engine is the round of
`dijkstra_sequential`, under every valid schedule. -/
theorem par_round_eq (g : Graph) (hg : WF g) (s : Schedule) (T : Nat) (hs : s.Valid T)
    (d : List Int) (vis : List Bool) (hd : d.length = g.num_nodes.toNat)
    (hv : vis.length = g.num_nodes.toNat) :
    OpenMP.par_round g s (d, vis) = round g (d, vis) := by
  rw [round_eq g hg d vis hd hv]
  unfold OpenMP.par_round round_fn
  simp only [reduce_min_eq g.num_nodes s T hs d vis hd hv, Option.bind_eq_bind,
    Option.some_bind]
  rcases scan_range_spec d vis g.num_nodes.toNat with ⟨h1, _⟩ | ⟨u, hu, h1, h2, h3, _, h5⟩
  · simp [h1]
  · rw [h1]
    have hne : ¬ ((u : Int) = -1) := by omega
    have hne2 : ¬ (dist_at d u = INF) := by omega
    have hfs : OpenMP.first_scan d vis (dist_at d u) (List.range g.num_nodes.toNat) =
        some (u : Int) :=
      first_scan_eq d vis (dist_at d u) u _ (List.pairwise_lt_range _)
        (fun v h => by rw [hd]; exact List.mem_range.1 h)
        (fun v h => by rw [hv]; exact List.mem_range.1 h)
        (List.mem_range.2 hu) h2 rfl
        (fun v h hvv hdv => h5 v (List.mem_range.1 h) hvv hdv)
    obtain ⟨sz, blk, r1, _, r3, _, _⟩ := hg.reads hu
    dsimp only
    rw [if_neg hne2, hfs]
    simp only [Option.some_bind, if_neg hne, Int.toNat_natCast]
    rw [wr_natCast vis u true (by omega)]
    simp only [Option.some_bind, r1]
    have hvu : vis_at (vis.set u true) u = true := by
      rw [vis_at_set, if_pos ⟨rfl, by omega⟩]
    have hperm := hs.2.2 sz.toNat
    rw [r3] at hperm
    rw [r3, relax_foldlM g hg u hu _ (by simp [hv]) hvu d hd _
      (fun i hi => List.mem_range.1 (hperm.mem_iff.1 hi))]
    have hL : ((s.relax_order (nbrs g u).length).map
        (fun i => (nbrs g u).getD i ⟨0, 0⟩)).Perm (nbrs g u) := by
      have := hperm.map (fun i => (nbrs g u).getD i ⟨0, 0⟩)
      rw [map_getD_range] at this
      exact this
    rw [relax_fold_perm _ _ hL d (fun e he => by rw [hd]; exact hg.dest_lt hu he)]
    rfl

theorem par_loop_eq (g : Graph) (hg : WF g) (T : Nat) (sched : Nat → Schedule)
    (hsched : ∀ c, (sched c).Valid T) (fuel : Nat) :
    ∀ (c : Nat) (d : List Int) (vis : List Bool),
      d.length = g.num_nodes.toNat → vis.length = g.num_nodes.toNat →
      for_break (fun count st => OpenMP.par_round g (sched count) st) fuel c (d, vis) =
        for_break (fun _ st => round g st) fuel c (d, vis) := by
  induction fuel with
  | zero => intro c d vis _ _; rfl
  | succ k ih =>
    intro c d vis hd hv
    unfold for_break
    simp only [par_round_eq g hg (sched c) T (hsched c) d vis hd hv,
      round_eq g hg d vis hd hv]
    cases hr : round_fn g d vis with
    | none => rfl
    | some st1 =>
      obtain ⟨l1, l2⟩ := round_fn_lengths g hg d vis hd hv st1 hr
      exact ih (c + 1) st1.1 st1.2 l1 l2

theorem static_late_valid : static_late.Valid 2 :=
  ⟨fun v => by show (if v < 2 then 0 else 1) < 2; split_ifs <;> decide,
    by decide, fun k => List.Perm.refl _⟩

/-- C23. For every well-formed graph (in-range edge endpoints), every in-range source,
every thread count `T >= 1` and every valid schedule of every round, and for arbitrary
weights: after every number of rounds `dijkstra_parallel` of `dijkstra_openmp.c` is in
the state of `dijkstra_sequential`; on every state of the run its reduction yields the
`min_dist` of the sequential extract-min, it breaks exactly when the sequential round
breaks, its ascending scan selects the sequential `min_node`, and its round yields the
sequential round; both engines return, and return the same distance array. -/
theorem reduction_engine_eq_sequential (g : Graph) (hg : WF g) (source : Int)
    (h0 : 0 ≤ source) (h1 : source < g.num_nodes) (T : Nat) (hT : 1 ≤ T)
    (sched : Nat → Schedule) (hsched : ∀ c, (sched c).Valid T) :
    (∀ k, ∃ st, run_state g source k = some st ∧
      OpenMP.par_run_state g source sched k = some st ∧
      ∀ c, ∃ m, extract_min g.num_nodes st.1 st.2 = some m ∧
        OpenMP.reduce_min g.num_nodes (sched c) st.1 st.2 = some m.1 ∧
        (m.1 = INF ↔ m.2 = -1) ∧
        (m.1 ≠ INF → OpenMP.first_scan st.1 st.2 m.1 (List.range g.num_nodes.toNat) =
          some m.2) ∧
        OpenMP.par_round g (sched c) st = round g st) ∧
    ∃ dist, dijkstra_sequential g source = some dist ∧
      OpenMP.dijkstra_parallel g source sched = some dist := by
  have _ := hT
  have hrun : ∀ k, OpenMP.par_run_state g source sched k = run_state g source k := by
    intro k
    unfold OpenMP.par_run_state run_state
    rw [init_state_eq g source h0 h1]
    simp only [Option.some_bind]
    exact par_loop_eq g hg T sched hsched k 0 _ _ (by simp) (by simp)
  constructor
  · intro k
    obtain ⟨st, hst, hd, hv⟩ := run_state_exists g hg source h0 h1 k
    refine ⟨st, hst, by rw [hrun k, hst], ?_⟩
    intro c
    obtain ⟨d, vis⟩ := st
    simp only at hd hv
    refine ⟨_, extract_min_eq g.num_nodes d vis hd hv,
      reduce_min_eq g.num_nodes (sched c) T (hsched c) d vis hd hv, ?_, ?_,
      par_round_eq g hg (sched c) T (hsched c) d vis hd hv⟩
    · obtain ⟨_, f2, f3⟩ := scan_foldl_fresh d vis (List.range g.num_nodes.toNat)
      constructor
      · intro h
        by_contra hne
        have := f3 hne
        omega
      · exact f2
    · intro hne
      rcases scan_range_spec d vis g.num_nodes.toNat with ⟨e1, _⟩ | ⟨u, hu, e1, e2, _, _, e5⟩
      · rw [e1] at hne
        exact absurd rfl hne
      · rw [e1]
        exact first_scan_eq d vis (dist_at d u) u _ (List.pairwise_lt_range _)
          (fun v h => by rw [hd]; exact List.mem_range.1 h)
          (fun v h => by rw [hv]; exact List.mem_range.1 h)
          (List.mem_range.2 hu) e2 rfl
          (fun v h hvv hdv => e5 v (List.mem_range.1 h) hvv hdv)
  · obtain ⟨st, hst, _, _⟩ := run_state_exists g hg source h0 h1 g.num_nodes.toNat
    refine ⟨st.1, by rw [dijkstra_sequential_eq_run, hst]; rfl, ?_⟩
    have hp := hrun g.num_nodes.toNat
    rw [hst] at hp
    unfold OpenMP.par_run_state at hp
    unfold OpenMP.dijkstra_parallel
    cases hi : init_state g source with
    | none => rw [hi] at hp; simp at hp
    | some s0 =>
      rw [hi] at hp
      simp only [Option.some_bind] at hp
      simp only [Option.bind_eq_bind, Option.some_bind, hp, Option.pure_def]

theorem reduction_engine_eq_sequential_witness :
    WF fork ∧ (0 : Int) ≤ 0 ∧ (0 : Int) < fork.num_nodes ∧ 1 ≤ 2 ∧
    (∀ c : Nat, ((fun _ => static_late) c).Valid 2) ∧
    dijkstra_sequential fork 0 = some [0, 5, 5] ∧
    OpenMP.dijkstra_parallel fork 0 (fun _ => static_late) = some [0, 5, 5] ∧
    ∃ dist, dijkstra_sequential fork 0 = some dist ∧
      OpenMP.dijkstra_parallel fork 0 (fun _ => static_late) = some dist :=
  ⟨by decide, by decide, by decide, by decide, fun _ => static_late_valid,
    by decide, by decide,
    (reduction_engine_eq_sequential fork (by decide) 0 (by decide) (by decide) 2 (by decide)
      (fun _ => static_late) (fun _ => static_late_valid)).2⟩

end Dijkstra

namespace Dijkstra

/-! ## Claims C24, C25: self-loops and the bounds of the neighbor blocks -/

/-- For an edge list with in-range endpoints and no self-loop, and any weights,
`create_graph` and `add_edge` build a graph on which `dijkstra_sequential` makes no
access out of bounds: it returns a distance array. -/
theorem dijkstra_sequential_safe_of_build (n : Int) (es : List EdgeRec)
    (hok : ∀ r ∈ es, r.in_range n ∧ r.u ≠ r.v) (source : Int) (h0 : 0 ≤ source)
    (h1 : source < n) :
    ∃ g dist, build n es = some g ∧ dijkstra_sequential g source = some dist ∧
      dist.length = n.toNat := by
  obtain ⟨g, e1, n1, hwf, _⟩ := build_spec n es hok
  obtain ⟨st, hst, hd, _⟩ := run_state_exists g hwf source h0 (by rw [n1]; exact h1)
    g.num_nodes.toNat
  refine ⟨g, st.1, e1, ?_, by rw [hd, n1]⟩
  rw [dijkstra_sequential_eq_run, hst]
  rfl

/-- C24 (fails on the code). The graph built by `create_graph(2, 2)`,
`add_edge(graph, 0, 1, 3)` and `add_edge(graph, 1, 1, 4)`, all endpoints in `[0, 2)`, with
source 0: the self-loop leaves `adj_size[1] == 3` on a block of two entries, the second
round chooses node 1, and iteration `i = 2` of its relax loop reads `adj_list[1][2]`
outside the block, so `dijkstra_sequential` has no defined result. -/
theorem dijkstra_sequential_reads_past_block :
    build 2 [⟨0, 1, 3⟩, ⟨1, 1, 4⟩] = some looped ∧
    (∀ e ∈ ([⟨0, 1, 3⟩, ⟨1, 1, 4⟩] : List EdgeRec), e.in_range 2) ∧
    (0 : Int) ≤ 0 ∧ (0 : Int) < looped.num_nodes ∧
    run_state looped 0 1 = some ([0, 3], [true, false]) ∧
    extract_min looped.num_nodes [0, 3] [true, false] = some (3, 1) ∧
    rd looped.adj_size 1 = some 3 ∧
    rd looped.adj_list 1 = some [some ⟨0, 3⟩, some ⟨1, 4⟩] ∧
    relax_step looped [true, true] 1 [0, 3] 2 = none ∧
    round looped ([0, 3], [true, false]) = none ∧
    dijkstra_sequential looped 0 = none := by
  refine ⟨by decide, by decide, by decide, by decide, by decide, by decide, by decide,
    by decide, by decide, by decide, by decide⟩

/-- C25 (fails on the code). After `create_graph(2, 1)` and the self-loop
`add_edge(graph, 1, 1, 4)`, endpoints in `[0, 2)`: `adj_size[1]` is 2 while the block
`adj_list[1]` holds one entry, so index 1, below `adj_size[1]`, names no stored entry and
the graph is not well formed. The `add_edge` of `dijkstra_openmp.c` leaves the same
graph. -/
theorem self_loop_breaks_adjacency :
    add_edge (create_graph 2 1) 1 1 4 =
      some { num_nodes := 2, num_edges := 1, adj_list := [[none], [some ⟨1, 4⟩]],
             adj_size := [0, 2] } ∧
    OpenMP.add_edge (create_graph 2 1) 1 1 4 =
      some { graph := { num_nodes := 2, num_edges := 1,
                        adj_list := [[none], [some ⟨1, 4⟩]], adj_size := [0, 2] },
             invalid_edge := false } ∧
    (0 : Int) ≤ 1 ∧ (1 : Int) < (create_graph 2 1).num_nodes ∧
    rd ([0, 2] : List Int) 1 = some 2 ∧
    (rd ([[none], [some ⟨1, 4⟩]] : List (List (Option Edge))) 1).map List.length = some 1 ∧
    neighbors { num_nodes := 2, num_edges := 1, adj_list := [[none], [some ⟨1, 4⟩]],
                adj_size := [0, 2] } 1 = none ∧
    ¬ WF { num_nodes := 2, num_edges := 1, adj_list := [[none], [some ⟨1, 4⟩]],
           adj_size := [0, 2] } := by
  refine ⟨by decide, by decide, by decide, by decide, by decide, by decide, by decide,
    by decide⟩

end Dijkstra

namespace Dijkstra

/-! ## Claim C26: nodes printed as `INF` -/

theorem print_distance_inf (x : Int) : print_distance x = Shown.inf ↔ x = INF := by
  unfold print_distance
  split_ifs with h
  · simp [h]
  · simp [h]

/-- C26 (counterexample). The graph built from the one edge `0 1 2147483647` is well
formed, its weight is a non-negative `int`, source 0 is in range and node 1 has a path
from node 0; the candidate `0 + 2147483647` equals `INF`, is not smaller than the stored
`INF`, and is never written: `distances[1]` ends as `INF` and is printed as `INF`. -/
theorem reachable_node_printed_INF :
    build 2 [⟨0, 1, 2147483647⟩] = some far ∧ WF far ∧
    (∀ e ∈ ([⟨0, 1, 2147483647⟩] : List EdgeRec), 0 ≤ e.weight) ∧
    (0 : Int) ≤ 0 ∧ (0 : Int) < far.num_nodes ∧
    Reachable far 0 1 ∧
    dijkstra_sequential far 0 = some [0, 2147483647] ∧
    dist_at [0, 2147483647] 1 = INF ∧
    print_distance (dist_at [0, 2147483647] 1) = Shown.inf := by
  refine ⟨by decide, by decide, by decide, by decide, by decide,
    ⟨[⟨1, 2147483647⟩], by decide⟩, by decide, by decide, by decide⟩

/-- C26 (amended). For every well-formed graph that stores an edge list with non-negative
weights of total below `INT_MAX`, and every in-range source, `dijkstra_sequential`
returns, every node with a path from the source ends with `distances[v] != INF`, and a
node is printed as `INF` exactly when it has no path from the source. -/
theorem reachable_not_INF_of_bounded_total {g : Graph} {es : List EdgeRec} (hg : WF g)
    (hrep : Represents g es) (hnn : ∀ e ∈ es, 0 ≤ e.weight) (hsum : total_weight es < INF)
    (source : Int) (h0 : 0 ≤ source) (h1 : source < g.num_nodes) :
    ∃ dist, dijkstra_sequential g source = some dist ∧ ∀ v, v < g.num_nodes.toNat →
      (Reachable g source.toNat v → dist_at dist v ≠ INF) ∧
      (dist_at dist v = INF → ¬ Reachable g source.toNat v) ∧
      (print_distance (dist_at dist v) = Shown.inf ↔ ¬ Reachable g source.toNat v) := by
  obtain ⟨c, ⟨d, vis⟩, _, hrun, _, _, _, _, hfin, _, hreach, hterm⟩ :=
    trace_spec g hg source h0 h1
  simp only at hfin hreach hterm
  obtain ⟨st, hst, hinv⟩ := run_state_DInv hg hrep hnn hsum source h0 h1 g.num_nodes.toNat
  rw [hrun] at hst
  have hst' : st = (d, vis) := (Option.some.inj hst).symm
  rw [hst'] at hinv
  have hpos : ∀ v, v < g.num_nodes.toNat → Reachable g source.toNat v →
      dist_at d v ≠ INF := by
    intro v hv hr
    have hvv := (hinv.reachable_visited hg hnn hsum (by omega) hterm v hr).2
    have := hfin v hv hvv
    omega
  refine ⟨d, by rw [dijkstra_sequential_eq_run, hrun]; rfl, fun v hv => ⟨hpos v hv, ?_, ?_⟩⟩
  · intro he hr
    exact hpos v hv hr he
  · rw [print_distance_inf]
    constructor
    · intro he hr
      exact hpos v hv hr he
    · intro hnr
      by_contra hne
      exact hnr (hreach v hv hne)

theorem reachable_not_INF_of_bounded_total_witness :
    WF disconnected ∧ Represents disconnected [⟨0, 1, 3⟩] ∧
    (∀ e ∈ ([⟨0, 1, 3⟩] : List EdgeRec), 0 ≤ e.weight) ∧
    total_weight [⟨0, 1, 3⟩] < INF ∧ (0 : Int) ≤ 0 ∧ (0 : Int) < disconnected.num_nodes ∧
    dijkstra_sequential disconnected 0 = some [0, 3, 2147483647] ∧
    ∃ dist, dijkstra_sequential disconnected 0 = some dist ∧
      ∀ v, v < disconnected.num_nodes.toNat →
        (Reachable disconnected (0 : Int).toNat v → dist_at dist v ≠ INF) ∧
        (dist_at dist v = INF → ¬ Reachable disconnected (0 : Int).toNat v) ∧
        (print_distance (dist_at dist v) = Shown.inf ↔
          ¬ Reachable disconnected (0 : Int).toNat v) :=
  ⟨by decide, by decide, by decide, by decide, by decide, by decide, by decide,
    @reachable_not_INF_of_bounded_total disconnected [⟨0, 1, 3⟩] (by decide) (by decide)
      (by decide) (by decide) 0 (by decide) (by decide)⟩

end Dijkstra
